import Mathlib

/-!
# CST-CN: navigation primitives (NSV / PSV / RMQ) and suffix-tree navigation

Shallow embedding of `npr_support_cn.h`, `npr_support_cnr.h` and `cst_cn.h`.

Conventions of the embedding.

* `size_type` values are natural numbers.  Subtractions that the source performs on
  unsigned 64 bit integers go through `sub64`, which wraps around below zero.
* Every array read is fallible: reading `v[i]` with `i` outside `v` yields `none`, and
  so does every computation that depends on it.  Functions therefore return `Option`.
* A query returns the pair `(position, l_value)`: the returned position and the final
  content of the reference parameter `l_value`.
* `sdsl::int_vector<>` is a list of naturals together with its bit width; a stored value
  is truncated to the width.
* A loop without a bound in the source takes an iteration budget; its result is a nested
  option that keeps a used-up budget (`some none`) apart from a read out of bounds (`none`).
-/

namespace cstds

/-! ## Machine arithmetic and bit-packed vectors -/

/-- Subtraction of `size_type` (unsigned 64 bit): wraps around when `b` exceeds `a`. -/
def sub64 (a b : Nat) : Nat :=
  if b ≤ a then a - b else 2 ^ 64 - (b - a)

/-- Addition of two `size_type` values: modulo `2^64`. -/
def add64 (a b : Nat) : Nat := (a + b) % 2 ^ 64

/-- Halving loop behind `bits_hi`; the first argument bounds the number of halvings. -/
def bits_hi_loop : Nat → Nat → Nat
  | 0, _ => 0
  | fuel + 1, x => if x < 2 then 0 else bits_hi_loop fuel (x / 2) + 1

/-- Position of the highest set bit, `sdsl::bits::hi` (and `0` for `0`). -/
def bits_hi (x : Nat) : Nat := bits_hi_loop x x

/-- Bit-packed integer vector `sdsl::int_vector<>`: entry width and entries. -/
structure int_vector where
  width : Nat
  data : List Nat
  deriving DecidableEq

/-- Number of entries, `int_vector::size()`. -/
def int_vector.size (v : int_vector) : Nat := v.data.length

/-- Read of `levels[level][j]`; `none` when the level or the index does not exist. -/
def level_get (levels : List int_vector) (level j : Nat) : Option Nat :=
  (levels[level]?).bind fun v => v.data[j]?

/-- Value of `levels[level].size()`; `none` when the level does not exist. -/
def level_size (levels : List int_vector) (level : Nat) : Option Nat :=
  (levels[level]?).map int_vector.size

/-! ## Loops shared by the queries

Each loop of the source is a recursive function over the number of remaining
iterations (or over the loop variable itself for the descending loops).  The argument
`rd` is the read performed by the loop body. -/

/-- Loop `for (j = i; j < until; ++j) { value = rd j; if (value < d) return j; }`.
The first argument is the number of iterations `until - i`.  The result is
`some (j, value)` when the loop returns and `none` when it runs to its end. -/
def first_below (rd : Nat → Option Nat) (d : Nat) : Nat → Nat → Option (Option (Nat × Nat))
  | 0, _ => some none
  | k + 1, j =>
    (rd j).bind fun value =>
      if value < d then some (some (j, value)) else first_below rd d k (j + 1)

/-- Loop `for (j = i; j >= until; --j) { value = rd j; if (value < d) return j; }`.
When `until` is `0` and no entry matches, `--j` wraps from `0` to `2^64 - 1` and the
next read is outside every array: the result is `none` (failure). -/
def last_below (rd : Nat → Option Nat) (d until_ : Nat) : Nat → Option (Option (Nat × Nat))
  | 0 =>
    if 0 < until_ then some none
    else (rd 0).bind fun value => if value < d then some (some (0, value)) else none
  | j + 1 =>
    if j + 1 < until_ then some none
    else (rd (j + 1)).bind fun value =>
      if value < d then some (some (j + 1, value)) else last_below rd d until_ j

/-- Loop `for (j = start; j > until; --j) { value = rd j; if (value < d) return j; }`. -/
def last_below_strict (rd : Nat → Option Nat) (d until_ : Nat) :
    Nat → Option (Option (Nat × Nat))
  | 0 => some none
  | j + 1 =>
    if until_ < j + 1 then
      (rd (j + 1)).bind fun value =>
        if value < d then some (some (j + 1, value)) else last_below_strict rd d until_ j
    else some none

/-- Loop of the range-minimum scans:
`for (r = i; r <= until; ++r) { value = rd r; if (value < min_rmq) { min_rmq = value;
min_pos = r; if (min_rmq == 0) break; } }`.
The first argument is the number of iterations; the state is `(min_rmq, min_pos)`. -/
def scan_min (rd : Nat → Option Nat) : Nat → Nat → Nat × Nat → Option (Nat × Nat)
  | 0, _, st => some st
  | k + 1, r, st =>
    (rd r).bind fun value =>
      if value < st.1 then
        if value = 0 then some (value, r) else scan_min rd k (r + 1) (value, r)
      else scan_min rd k (r + 1) st

/-! ## Construction loops -/

/-- Inner construction loop over one block:
`for (j = 0; j < b_size; j++) { tmp_min = rd (tmp_start + j);
if (tmp_min < min) { min = tmp_min; tmp_pos = j; } }`.
Arguments: remaining iterations, `j`, `min`, `tmp_pos`; result `(min, tmp_pos)`. -/
def block_scan (rd : Nat → Option Nat) (tmp_start : Nat) :
    Nat → Nat → Nat → Nat → Option (Nat × Nat)
  | 0, _, min_v, tmp_pos => some (min_v, tmp_pos)
  | c + 1, j, min_v, tmp_pos =>
    (rd (tmp_start + j)).bind fun tmp_min =>
      if tmp_min < min_v then block_scan rd tmp_start c (j + 1) tmp_min j
      else block_scan rd tmp_start c (j + 1) min_v tmp_pos

/-- Outer construction loop over the blocks `i, i+1, ...` of one level.  `min` restarts
at `n` for every block; `tmp_pos` is carried from block to block as in the source.
`b_size` is `block_size` except for the last block, the only one for which
`tmp_start + block_size >= last_level_size`.  The stored entries are truncated to the
widths of the two vectors.  Result: entries of the `min` vector, entries of the `pos`
vector, final `tmp_pos`. -/
def level_loop (rd : Nat → Option Nat) (block_size n last_level_size bits_min bits_pos : Nat) :
    Nat → Nat → Nat → Option (List Nat × List Nat × Nat)
  | 0, _, tmp_pos => some ([], [], tmp_pos)
  | c + 1, i, tmp_pos =>
    let tmp_start := i * block_size
    let b_size :=
      if tmp_start + block_size ≥ last_level_size then last_level_size - tmp_start
      else block_size
    (block_scan rd tmp_start b_size 0 n tmp_pos).bind fun r =>
      (level_loop rd block_size n last_level_size bits_min bits_pos c (i + 1) r.2).map
        fun rest => ((r.1 % 2 ^ bits_min) :: rest.1, (r.2 % 2 ^ bits_pos) :: rest.2.1, rest.2.2)

/-! ## `_npr_support_cn` -/

/-- The class `_npr_support_cn<t_lcp, block_size, sbs>`: the LCP it points to and the
two arrays of levels. -/
structure npr_support_cn where
  block_size : Nat
  m_lcp : List Nat
  min_array : List int_vector
  pos_array : List int_vector
  deriving DecidableEq

/-- Exact value of `ceil(log(n) / log(block_size))`, the number of levels. The source
evaluates the expression in double precision, which may round an exact power of
`block_size` up by one (for instance `n = 8^7` gives 8); the constructor below
therefore takes the number of levels as an argument. -/
def n_levels (block_size n : Nat) : Nat := Nat.clog block_size n

/-- Loop `for (r = 1; r < n_levels; ++r)` of the constructor: builds each further level
over the `min` entries of the level below.  Arguments: remaining levels, entries of
the level below, carried `tmp_pos`. -/
def other_levels (block_size n bits_min bits_pos : Nat) :
    Nat → List Nat → Nat → Option (List (int_vector × int_vector))
  | 0, _, _ => some []
  | c + 1, prev, tmp_pos =>
    let last_level_size := prev.length
    let level_size := (last_level_size + block_size - 1) / block_size
    (level_loop (fun j => prev[j]?) block_size n last_level_size bits_min bits_pos
        level_size 0 tmp_pos).bind fun l =>
      (other_levels block_size n bits_min bits_pos c l.1 l.2.2).map fun rest =>
        (⟨bits_min, l.1⟩, ⟨bits_pos, l.2.1⟩) :: rest

/-- Constructor `_npr_support_cn(const t_lcp*)`, with the computed `n_levels` as an
argument.  With no level the write to `min_array[0]` is outside the vector. The
indeterminate initial `tmp_pos` is taken as `0`. -/
def npr_support_cn.construct (block_size n_lev : Nat) (m_lcp : List Nat) :
    Option npr_support_cn :=
  let n := m_lcp.length
  let level_size := (n + block_size - 1) / block_size
  let bits_pos := bits_hi block_size + 1
  let bits_min := bits_hi n + 1
  match n_lev with
  | 0 => none
  | r + 1 =>
    (level_loop (fun j => m_lcp[j]?) block_size n n bits_min bits_pos level_size 0 0).bind
      fun l0 =>
        (other_levels block_size n bits_min bits_pos r l0.1 l0.2.2).map fun rest =>
          { block_size := block_size
            m_lcp := m_lcp
            min_array := ⟨bits_min, l0.1⟩ :: rest.map Prod.fst
            pos_array := ⟨bits_pos, l0.2.1⟩ :: rest.map Prod.snd }

/-- Private `find_nsv_block(d, b, level, l_value)`: first entry of `min_array[level]`
from `b` on that is smaller than `d`.  The first argument bounds the recursion depth
(each call reads `min_array[level + 1]`, so the depth never exceeds the level count). -/
def npr_support_cn.find_nsv_block (s : npr_support_cn) :
    Nat → Nat → Nat → Nat → Nat → Option (Nat × Nat)
  | 0, _, _, _, _ => none
  | fuel + 1, d, b, level, l_value =>
    (level_size s.min_array level).bind fun n =>
    let block := b / s.block_size
    (level_get s.min_array (level + 1) block).bind fun m =>
    (if m < d then
        let until_ := min (s.block_size * (block + 1)) n
        (first_below (level_get s.min_array level) d (until_ - b) b).map fun r => (r, until_)
      else some (none, 0)).bind fun home =>
    match home.1 with
    | some r => some r
    | none =>
      if home.2 = n then some (n, l_value)
      else
        (s.find_nsv_block fuel d (block + 1) (level + 1) l_value).bind fun up =>
        (level_size s.min_array (level + 1)).bind fun sz =>
        if up.1 = sz then some (n, up.2)
        else
          (level_get s.pos_array (level + 1) up.1).bind fun p =>
          let until_ := up.1 * s.block_size + p
          if up.2 = sub64 d 1 then some (until_, up.2)
          else
            (first_below (level_get s.min_array level) d (until_ - up.1 * s.block_size)
                (up.1 * s.block_size)).map fun r =>
              match r with
              | some found => found
              | none => (until_, up.2)

/-- Query `fwd_nsv(i, d, l_value)`: next position from `i` on whose value is smaller
than `d`. -/
def npr_support_cn.fwd_nsv (s : npr_support_cn) (i d : Nat) : Option (Nat × Nat) :=
  let n := s.m_lcp.length
  if d = 0 ∨ i > sub64 n 1 then some (n, n)
  else
    let block := i / s.block_size
    (level_get s.min_array 0 block).bind fun m =>
    (if m < d then
        let until_ := min (s.block_size * (block + 1)) n
        (first_below (fun j => s.m_lcp[j]?) d (until_ - i) i).map fun r => (r, until_)
      else some (none, 0)).bind fun home =>
    match home.1 with
    | some r => some r
    | none =>
      if home.2 = n then some (n, n)
      else
        (s.find_nsv_block s.min_array.length d (block + 1) 0 n).bind fun up =>
        (level_size s.min_array 0).bind fun sz =>
        if up.1 = sz then some (n, up.2)
        else
          (level_get s.pos_array 0 up.1).bind fun p =>
          let until_ := up.1 * s.block_size + p
          if up.2 = sub64 d 1 then some (until_, up.2)
          else
            (first_below (fun j => s.m_lcp[j]?) d (until_ - up.1 * s.block_size)
                (up.1 * s.block_size)).map fun r =>
              match r with
              | some found => found
              | none => (until_, up.2)

/-- Query `nsv(i, l_value) = fwd_nsv(i + 1, LCP[i], l_value)`. -/
def npr_support_cn.nsv (s : npr_support_cn) (i : Nat) : Option (Nat × Nat) :=
  (s.m_lcp[i]?).bind fun value_v => s.fwd_nsv (i + 1) value_v

/-- Private `find_psv_block(d, b, level, l_value)`: last entry of `min_array[level]`
in `[0, b]` that is smaller than `d`.  The first argument bounds the recursion depth. -/
def npr_support_cn.find_psv_block (s : npr_support_cn) :
    Nat → Nat → Nat → Nat → Nat → Option (Nat × Nat)
  | 0, _, _, _, _ => none
  | fuel + 1, d, b, level, l_value =>
    (level_size s.min_array level).bind fun n =>
    let block := b / s.block_size
    (level_get s.min_array (level + 1) block).bind fun m =>
    (if m < d then
        (last_below (level_get s.min_array level) d (s.block_size * block) b).map
          fun r => (r, s.block_size * block)
      else some (none, n)).bind fun home =>
    match home.1 with
    | some r => some r
    | none =>
      if home.2 = 0 then some (n, l_value)
      else
        (s.find_psv_block fuel d (sub64 block 1) (level + 1) l_value).bind fun up =>
        (level_size s.min_array (level + 1)).bind fun sz =>
        if up.1 = sz then some (n, up.2)
        else
          (level_get s.pos_array (level + 1) up.1).bind fun p =>
          let until_ := up.1 * s.block_size + p
          (last_below_strict (level_get s.min_array level) d until_
              (sub64 ((up.1 + 1) * s.block_size) 1)).map fun r =>
            match r with
            | some found => found
            | none => (until_, up.2)

/-- Query `bwd_psv(i, d, l_value)`: previous position from `i` down whose value is
smaller than `d`. -/
def npr_support_cn.bwd_psv (s : npr_support_cn) (i d : Nat) : Option (Nat × Nat) :=
  let n := s.m_lcp.length
  if d = 0 then some (n, n)
  else
    let block := i / s.block_size
    (level_get s.min_array 0 block).bind fun m =>
    (if m < d then
        (last_below (fun j => s.m_lcp[j]?) d (s.block_size * block) i).map
          fun r => (r, s.block_size * block)
      else some (none, n)).bind fun home =>
    match home.1 with
    | some r => some r
    | none =>
      if home.2 = 0 then some (n, n)
      else
        (s.find_psv_block s.min_array.length d (sub64 block 1) 0 n).bind fun up =>
        (level_size s.min_array 0).bind fun sz =>
        if up.1 = sz then some (n, up.2)
        else
          (level_get s.pos_array 0 up.1).bind fun p =>
          let until_ := up.1 * s.block_size + p
          (last_below_strict (fun j => s.m_lcp[j]?) d until_
              (sub64 ((up.1 + 1) * s.block_size) 1)).map fun r =>
            match r with
            | some found => found
            | none => (until_, up.2)

/-- Query `psv(i, l_value)`: `n` for `i = 0`, else `bwd_psv(i - 1, LCP[i], l_value)`. -/
def npr_support_cn.psv (s : npr_support_cn) (i : Nat) : Option (Nat × Nat) :=
  if i = 0 then some (s.m_lcp.length, s.m_lcp.length)
  else (s.m_lcp[i]?).bind fun value => s.bwd_psv (i - 1) value

/-- Private `find_rmq_block(i, j, l_value, level)`: leftmost minimum of
`min_array[level]` over the entries `i..j`; the result is `(position, value)`.  The
first argument bounds the recursion depth.  The indeterminate initial `min_pos` is
taken as `0`. -/
def npr_support_cn.find_rmq_block (s : npr_support_cn) :
    Nat → Nat → Nat → Nat → Option (Nat × Nat)
  | 0, _, _, _ => none
  | fuel + 1, i, j, level =>
    let l_block := i / s.block_size
    let r_block := j / s.block_size
    let until_ := min (sub64 ((l_block + 1) * s.block_size) 1) j
    (level_get s.pos_array (level + 1) l_block).bind fun p =>
    let min_bpos := l_block * s.block_size + p
    (if i ≤ min_bpos ∧ min_bpos ≤ until_ then
        (level_get s.min_array (level + 1) l_block).map fun m => (m, min_bpos)
      else scan_min (level_get s.min_array level) (until_ + 1 - i) i
        (s.m_lcp.length, 0)).bind fun left =>
    if until_ = j ∨ left.1 = 0 then some (left.2, left.1)
    else
      (if l_block + 1 < r_block then
          (s.find_rmq_block fuel (l_block + 1) (sub64 r_block 1) (level + 1)).bind fun mid =>
            if mid.2 < left.1 then
              (level_get s.pos_array (level + 1) mid.1).map fun q =>
                ((mid.2, mid.1 * s.block_size + q), decide (mid.2 = 0))
            else some (left, false)
        else some (left, false)).bind fun cur =>
      if cur.2 then some (cur.1.2, cur.1.1)
      else
        (level_get s.pos_array (level + 1) r_block).bind fun q =>
        let min_bpos := r_block * s.block_size + q
        (level_get s.min_array (level + 1) r_block).bind fun m =>
        if m < cur.1.1 then
          if min_bpos ≤ j then some (min_bpos, m)
          else
            (scan_min (level_get s.min_array level) (j + 1 - r_block * s.block_size)
                (r_block * s.block_size) cur.1).map fun st => (st.2, st.1)
        else some (cur.1.2, cur.1.1)

/-- Query `rmq(i, j, l_value)`: leftmost position of the minimum in `[i, j]`, with the
minimum as `l_value`.  The indeterminate initial `min_pos` is taken as `0`. -/
def npr_support_cn.rmq (s : npr_support_cn) (i j : Nat) : Option (Nat × Nat) :=
  let l_block := i / s.block_size
  let r_block := j / s.block_size
  let until_ := min (sub64 ((l_block + 1) * s.block_size) 1) j
  (level_get s.pos_array 0 l_block).bind fun p =>
  let min_bpos := l_block * s.block_size + p
  (if i ≤ min_bpos ∧ min_bpos ≤ until_ then
      (level_get s.min_array 0 l_block).map fun m => (m, min_bpos)
    else scan_min (fun r => s.m_lcp[r]?) (until_ + 1 - i) i (s.m_lcp.length, 0)).bind fun left =>
  if until_ = j ∨ left.1 = 0 then some (left.2, left.1)
  else
    (if l_block + 1 < r_block then
        (s.find_rmq_block s.min_array.length (l_block + 1) (sub64 r_block 1) 0).bind fun mid =>
          if mid.2 < left.1 then
            (level_get s.pos_array 0 mid.1).map fun q =>
              ((mid.2, mid.1 * s.block_size + q), decide (mid.2 = 0))
          else some (left, false)
      else some (left, false)).bind fun cur =>
    if cur.2 then some (cur.1.2, cur.1.1)
    else
      (level_get s.pos_array 0 r_block).bind fun q =>
      let min_bpos := r_block * s.block_size + q
      (level_get s.min_array 0 r_block).bind fun m =>
      if m < cur.1.1 then
        if min_bpos ≤ j then some (min_bpos, m)
        else
          (scan_min (fun r => s.m_lcp[r]?) (j + 1 - r_block * s.block_size)
              (r_block * s.block_size) cur.1).map fun st => (st.2, st.1)
      else some (cur.1.2, cur.1.1)

/-! ## `_npr_support_cnr` -/

/-- The class `_npr_support_cnr<t_lcp, block_size, sbs>`.  Level 0 keeps positions only;
`min_array[l - 1]` holds the minima of level `l >= 1`. -/
structure npr_support_cnr where
  block_size : Nat
  sbs : Nat
  m_lcp : List Nat
  min_array : List int_vector
  pos_array : List int_vector
  deriving DecidableEq

/-- Loop `while (len > 1) { ++levels; len = (len + block_size - 1) / block_size; }` of
`calculate_number_of_levels`.  The first argument bounds the number of iterations; the
result is `none` if the bound is exhausted (the loop does not end for `block_size <= 1`). -/
def levels_loop (block_size : Nat) : Nat → Nat → Nat → Option Nat
  | 0, len, levels => if len > 1 then none else some levels
  | fuel + 1, len, levels =>
    if len > 1 then levels_loop block_size fuel ((len + block_size - 1) / block_size) (levels + 1)
    else some levels

/-- Private `calculate_number_of_levels(n)`. -/
def calculate_number_of_levels (block_size sbs n : Nat) : Option Nat :=
  if n = 0 then some 0
  else
    let len := (n + sbs - 1) / sbs
    if len > 1 then levels_loop block_size ((len + sbs - 1) / sbs) ((len + sbs - 1) / sbs) 2
    else some 1

/-- Read of the minimum of small block `j`, `(*m_lcp)[sbs * j + pos_array[0][j]]`. -/
def npr_support_cnr.level0_min (s : npr_support_cnr) (j : Nat) : Option Nat :=
  (level_get s.pos_array 0 j).bind fun p => s.m_lcp[s.sbs * j + p]?

/-- Constructor `_npr_support_cnr(const t_lcp*)`: `create_first_level`,
`create_second_level` and `create_other_levels`, each with its own `tmp_pos`
(indeterminate at first, taken as `0`).  For `n = 0` the resize of `min_array` to
`n_levels - 1` wraps around and fails. -/
def npr_support_cnr.construct (block_size sbs : Nat) (m_lcp : List Nat) :
    Option npr_support_cnr :=
  let n := m_lcp.length
  (calculate_number_of_levels block_size sbs n).bind fun n_lev =>
  if n_lev = 0 then none
  else
    let bits_min := bits_hi n + 1
    -- create_first_level
    (level_loop (fun j => m_lcp[j]?) sbs n n bits_min (bits_hi sbs + 1)
        ((n + sbs - 1) / sbs) 0 0).bind fun l0 =>
    let pos0 : int_vector := ⟨bits_hi sbs + 1, l0.2.1⟩
    if n_lev > 1 then
      -- create_second_level
      let last_level_size := pos0.size
      (level_loop (fun j => (pos0.data[j]?).bind fun p => m_lcp[sbs * j + p]?) sbs n
          last_level_size bits_min (bits_hi sbs + 1)
          ((last_level_size + sbs - 1) / sbs) 0 0).bind fun l1 =>
      -- create_other_levels
      (other_levels block_size n bits_min (bits_hi block_size + 1) (n_lev - 2) l1.1 0).map
        fun rest =>
          { block_size := block_size
            sbs := sbs
            m_lcp := m_lcp
            min_array := ⟨bits_min, l1.1⟩ :: rest.map Prod.fst
            pos_array := pos0 :: ⟨bits_hi sbs + 1, l1.2.1⟩ :: rest.map Prod.snd }
    else
      some { block_size := block_size, sbs := sbs, m_lcp := m_lcp,
             min_array := [], pos_array := [pos0] }

/-- Private `find_nsv_block_2(d, b, level, l_value)`: first entry of level `level`
(`min_array[level - 1]`) from `b` on that is smaller than `d`. -/
def npr_support_cnr.find_nsv_block_2 (s : npr_support_cnr) :
    Nat → Nat → Nat → Nat → Nat → Option (Nat × Nat)
  | 0, _, _, _, _ => none
  | fuel + 1, d, b, level, l_value =>
    (level_size s.pos_array level).bind fun n =>
    let block := b / s.block_size
    (level_get s.min_array level block).bind fun m =>
    (if m < d then
        let until_ := min (s.block_size * (block + 1)) n
        (first_below (level_get s.min_array (sub64 level 1)) d (until_ - b) b).map
          fun r => (r, until_)
      else some (none, 0)).bind fun home =>
    match home.1 with
    | some r => some r
    | none =>
      if home.2 = n then some (n, l_value)
      else
        (s.find_nsv_block_2 fuel d (block + 1) (level + 1) l_value).bind fun up =>
        (level_size s.min_array level).bind fun sz =>
        if up.1 = sz then some (n, up.2)
        else
          (level_get s.pos_array (level + 1) up.1).bind fun p =>
          let until_ := up.1 * s.block_size + p
          if up.2 = sub64 d 1 then some (until_, up.2)
          else
            (first_below (level_get s.min_array (sub64 level 1)) d
                (until_ - up.1 * s.block_size) (up.1 * s.block_size)).map fun r =>
              match r with
              | some found => found
              | none => (until_, up.2)

/-- Private `find_nsv_block(d, b, l_value)`: first small block from `b` on whose minimum
is smaller than `d`. -/
def npr_support_cnr.find_nsv_block (s : npr_support_cnr) (d b l_value : Nat) :
    Option (Nat × Nat) :=
  (level_size s.pos_array 0).bind fun n =>
  let block := b / s.sbs
  (level_get s.min_array 0 block).bind fun m =>
  (if m < d then
      let until_ := min (s.sbs * (block + 1)) n
      (first_below s.level0_min d (until_ - b) b).map fun r => (r, until_)
    else some (none, 0)).bind fun home =>
  match home.1 with
  | some r => some r
  | none =>
    if home.2 = n then some (n, l_value)
    else
      (s.find_nsv_block_2 s.pos_array.length d (block + 1) 1 l_value).bind fun up =>
      (level_size s.pos_array 1).bind fun sz =>
      if up.1 = sz then some (n, up.2)
      else
        (level_get s.pos_array 1 up.1).bind fun p =>
        let until_ := up.1 * s.sbs + p
        if up.2 = sub64 d 1 then some (until_, up.2)
        else
          (first_below s.level0_min d (until_ - up.1 * s.sbs) (up.1 * s.sbs)).map fun r =>
            match r with
            | some found => found
            | none => (until_, up.2)

/-- Query `fwd_nsv(i, d, l_value)` of the `cnr` variant. -/
def npr_support_cnr.fwd_nsv (s : npr_support_cnr) (i d : Nat) : Option (Nat × Nat) :=
  let n := s.m_lcp.length
  if d = 0 ∨ i > sub64 n 1 then some (n, n)
  else
    let block := i / s.sbs
    ((level_get s.pos_array 0 block).bind fun p => s.m_lcp[block * s.sbs + p]?).bind
      fun lcp_value =>
    (if lcp_value < d then
        let until_ := min (s.sbs * (block + 1)) n
        (first_below (fun j => s.m_lcp[j]?) d (until_ - i) i).map fun r => (r, until_)
      else some (none, 0)).bind fun home =>
    match home.1 with
    | some r => some r
    | none =>
      if home.2 = n then some (n, n)
      else
        (s.find_nsv_block d (block + 1) n).bind fun up =>
        (level_size s.pos_array 0).bind fun sz =>
        if up.1 = sz then some (n, up.2)
        else
          (level_get s.pos_array 0 up.1).bind fun p =>
          let until_ := up.1 * s.sbs + p
          if up.2 = sub64 d 1 then some (until_, up.2)
          else
            (first_below (fun j => s.m_lcp[j]?) d (until_ - up.1 * s.sbs)
                (up.1 * s.sbs)).map fun r =>
              match r with
              | some found => found
              | none => (until_, up.2)

/-- Query `nsv(i, l_value) = fwd_nsv(i + 1, LCP[i], l_value)` of the `cnr` variant. -/
def npr_support_cnr.nsv (s : npr_support_cnr) (i : Nat) : Option (Nat × Nat) :=
  (s.m_lcp[i]?).bind fun value_v => s.fwd_nsv (i + 1) value_v

/-- Private `find_psv_block_2(d, b, level, l_value)`: last entry of level `level`
(`min_array[level - 1]`) in `[0, b]` that is smaller than `d`. -/
def npr_support_cnr.find_psv_block_2 (s : npr_support_cnr) :
    Nat → Nat → Nat → Nat → Nat → Option (Nat × Nat)
  | 0, _, _, _, _ => none
  | fuel + 1, d, b, level, l_value =>
    (level_size s.pos_array level).bind fun n =>
    let block := b / s.block_size
    (level_get s.min_array level block).bind fun m =>
    (if m < d then
        (last_below (level_get s.min_array (sub64 level 1)) d (s.block_size * block) b).map
          fun r => (r, s.block_size * block)
      else some (none, n)).bind fun home =>
    match home.1 with
    | some r => some r
    | none =>
      if home.2 = 0 then some (n, l_value)
      else
        (s.find_psv_block_2 fuel d (sub64 block 1) (level + 1) l_value).bind fun up =>
        (level_size s.min_array level).bind fun sz =>
        if up.1 = sz then some (n, up.2)
        else
          (level_get s.pos_array (level + 1) up.1).bind fun p =>
          let until_ := up.1 * s.block_size + p
          (last_below_strict (level_get s.min_array (sub64 level 1)) d until_
              (sub64 ((up.1 + 1) * s.block_size) 1)).map fun r =>
            match r with
            | some found => found
            | none => (until_, up.2)

/-- Private `find_psv_block(d, b, l_value)`: last small block in `[0, b]` whose minimum
is smaller than `d`. -/
def npr_support_cnr.find_psv_block (s : npr_support_cnr) (d b l_value : Nat) :
    Option (Nat × Nat) :=
  (level_size s.pos_array 0).bind fun n =>
  let block := b / s.sbs
  (level_get s.min_array 0 block).bind fun m =>
  (if m < d then
      (last_below s.level0_min d (s.sbs * block) b).map fun r => (r, s.sbs * block)
    else some (none, n)).bind fun home =>
  match home.1 with
  | some r => some r
  | none =>
    if home.2 = 0 then some (n, l_value)
    else
      (s.find_psv_block_2 s.pos_array.length d (sub64 block 1) 1 l_value).bind fun up =>
      (level_size s.pos_array 1).bind fun sz =>
      if up.1 = sz then some (n, up.2)
      else
        (level_get s.pos_array 1 up.1).bind fun p =>
        let until_ := up.1 * s.sbs + p
        (last_below_strict s.level0_min d until_ (sub64 ((up.1 + 1) * s.sbs) 1)).map fun r =>
          match r with
          | some found => found
          | none => (until_, up.2)

/-- Query `bwd_psv(i, d, l_value)` of the `cnr` variant. -/
def npr_support_cnr.bwd_psv (s : npr_support_cnr) (i d : Nat) : Option (Nat × Nat) :=
  let n := s.m_lcp.length
  if d = 0 then some (n, n)
  else
    let block := i / s.sbs
    ((level_get s.pos_array 0 block).bind fun p => s.m_lcp[block * s.sbs + p]?).bind
      fun lcp_value =>
    (if lcp_value < d then
        (last_below (fun j => s.m_lcp[j]?) d (s.sbs * block) i).map
          fun r => (r, s.sbs * block)
      else some (none, n)).bind fun home =>
    match home.1 with
    | some r => some r
    | none =>
      if home.2 = 0 then some (n, n)
      else
        (s.find_psv_block d (sub64 block 1) n).bind fun up =>
        (level_size s.pos_array 0).bind fun sz =>
        if up.1 = sz then some (n, up.2)
        else
          (level_get s.pos_array 0 up.1).bind fun p =>
          let until_ := up.1 * s.sbs + p
          (last_below_strict (fun j => s.m_lcp[j]?) d until_
              (sub64 ((up.1 + 1) * s.sbs) 1)).map fun r =>
            match r with
            | some found => found
            | none => (until_, up.2)

/-- Query `psv(i, l_value)` of the `cnr` variant. -/
def npr_support_cnr.psv (s : npr_support_cnr) (i : Nat) : Option (Nat × Nat) :=
  if i = 0 then some (s.m_lcp.length, s.m_lcp.length)
  else (s.m_lcp[i]?).bind fun value => s.bwd_psv (i - 1) value

/-- Private `find_rmq_block_2(i, j, l_value, level)`: leftmost minimum of level `level`
(`min_array[level - 1]`) over the entries `i..j`. -/
def npr_support_cnr.find_rmq_block_2 (s : npr_support_cnr) :
    Nat → Nat → Nat → Nat → Option (Nat × Nat)
  | 0, _, _, _ => none
  | fuel + 1, i, j, level =>
    let l_block := i / s.block_size
    let r_block := j / s.block_size
    let until_ := min (sub64 ((l_block + 1) * s.block_size) 1) j
    (level_get s.pos_array (level + 1) l_block).bind fun p =>
    let min_bpos := l_block * s.block_size + p
    (if i ≤ min_bpos ∧ min_bpos ≤ until_ then
        (level_get s.min_array level l_block).map fun m => (m, min_bpos)
      else scan_min (level_get s.min_array (sub64 level 1)) (until_ + 1 - i) i
        (s.m_lcp.length, 0)).bind fun left =>
    if until_ = j ∨ left.1 = 0 then some (left.2, left.1)
    else
      (if l_block + 1 < r_block then
          (s.find_rmq_block_2 fuel (l_block + 1) (sub64 r_block 1) (level + 1)).bind fun mid =>
            if mid.2 < left.1 then
              (level_get s.pos_array (level + 1) mid.1).map fun q =>
                ((mid.2, mid.1 * s.block_size + q), decide (mid.2 = 0))
            else some (left, false)
        else some (left, false)).bind fun cur =>
      if cur.2 then some (cur.1.2, cur.1.1)
      else
        (level_get s.pos_array (level + 1) r_block).bind fun q =>
        let min_bpos := r_block * s.block_size + q
        (level_get s.min_array level r_block).bind fun m =>
        if m < cur.1.1 then
          if min_bpos ≤ j then some (min_bpos, m)
          else
            (scan_min (level_get s.min_array (sub64 level 1)) (j + 1 - r_block * s.block_size)
                (r_block * s.block_size) cur.1).map fun st => (st.2, st.1)
        else some (cur.1.2, cur.1.1)

/-- Private `find_rmq_block(i, j, l_value)`: leftmost small block of minimal minimum
among the small blocks `i..j`. -/
def npr_support_cnr.find_rmq_block (s : npr_support_cnr) (i j : Nat) : Option (Nat × Nat) :=
  let l_block := i / s.sbs
  let r_block := j / s.sbs
  let until_ := min (sub64 ((l_block + 1) * s.sbs) 1) j
  (level_get s.pos_array 1 l_block).bind fun p =>
  let min_bpos := l_block * s.sbs + p
  (if i ≤ min_bpos ∧ min_bpos ≤ until_ then
      (level_get s.min_array 0 l_block).map fun m => (m, min_bpos)
    else scan_min s.level0_min (until_ + 1 - i) i (s.m_lcp.length, 0)).bind fun left =>
  if until_ = j ∨ left.1 = 0 then some (left.2, left.1)
  else
    (if l_block + 1 < r_block then
        (s.find_rmq_block_2 s.pos_array.length (l_block + 1) (sub64 r_block 1) 1).bind fun mid =>
          if mid.2 < left.1 then
            (level_get s.pos_array 1 mid.1).map fun q =>
              ((mid.2, mid.1 * s.sbs + q), decide (mid.2 = 0))
          else some (left, false)
      else some (left, false)).bind fun cur =>
    if cur.2 then some (cur.1.2, cur.1.1)
    else
      (level_get s.pos_array 1 r_block).bind fun q =>
      let min_bpos := r_block * s.sbs + q
      (level_get s.min_array 0 r_block).bind fun m =>
      if m < cur.1.1 then
        if min_bpos ≤ j then some (min_bpos, m)
        else
          (scan_min s.level0_min (j + 1 - r_block * s.sbs) (r_block * s.sbs) cur.1).map
            fun st => (st.2, st.1)
      else some (cur.1.2, cur.1.1)

/-- Query `rmq(i, j, l_value)` of the `cnr` variant. -/
def npr_support_cnr.rmq (s : npr_support_cnr) (i j : Nat) : Option (Nat × Nat) :=
  let l_block := i / s.sbs
  let r_block := j / s.sbs
  let until_ := min (sub64 ((l_block + 1) * s.sbs) 1) j
  (level_get s.pos_array 0 l_block).bind fun p =>
  let min_bpos := l_block * s.sbs + p
  (if i ≤ min_bpos ∧ min_bpos ≤ until_ then
      (s.m_lcp[min_bpos]?).map fun m => (m, min_bpos)
    else scan_min (fun r => s.m_lcp[r]?) (until_ + 1 - i) i (s.m_lcp.length, 0)).bind fun left =>
  if until_ = j ∨ left.1 = 0 then some (left.2, left.1)
  else
    (if l_block + 1 < r_block then
        (s.find_rmq_block (l_block + 1) (sub64 r_block 1)).bind fun mid =>
          if mid.2 < left.1 then
            (level_get s.pos_array 0 mid.1).map fun q =>
              ((mid.2, mid.1 * s.sbs + q), decide (mid.2 = 0))
          else some (left, false)
      else some (left, false)).bind fun cur =>
    if cur.2 then some (cur.1.2, cur.1.1)
    else
      (level_get s.pos_array 0 r_block).bind fun q =>
      let min_bpos := r_block * s.sbs + q
      (s.m_lcp[min_bpos]?).bind fun lcp_value =>
      if lcp_value < cur.1.1 then
        if min_bpos ≤ j then some (min_bpos, lcp_value)
        else
          (scan_min (fun r => s.m_lcp[r]?) (j + 1 - r_block * s.sbs) (r_block * s.sbs)
              cur.1).map fun st => (st.2, st.1)
      else some (cur.1.2, cur.1.1)

/-! ## `cst_cn` -/

/-- The NPR template argument of `cst_cn`: one of the two variants. -/
inductive npr_type
  | cn (s : npr_support_cn)
  | cnr (s : npr_support_cnr)
  deriving DecidableEq

/-- Template arguments that select and size the NPR: `cn` with its block size and the
computed number of levels, or `cnr` with block size and small block size. -/
inductive npr_config
  | cn (block_size n_lev : Nat)
  | cnr (block_size sbs : Nat)
  deriving DecidableEq

/-- Construction `npr_type(&m_lcp)` of the selected variant. -/
def npr_type.construct : npr_config → List Nat → Option npr_type
  | .cn block_size n_lev, m_lcp => (npr_support_cn.construct block_size n_lev m_lcp).map .cn
  | .cnr block_size sbs, m_lcp => (npr_support_cnr.construct block_size sbs m_lcp).map .cnr

/-- Dispatch of `m_npr.nsv`. -/
def npr_type.nsv : npr_type → Nat → Option (Nat × Nat)
  | .cn s, i => s.nsv i
  | .cnr s, i => s.nsv i

/-- Dispatch of `m_npr.psv`. -/
def npr_type.psv : npr_type → Nat → Option (Nat × Nat)
  | .cn s, i => s.psv i
  | .cnr s, i => s.psv i

/-- Dispatch of `m_npr.fwd_nsv`. -/
def npr_type.fwd_nsv : npr_type → Nat → Nat → Option (Nat × Nat)
  | .cn s, i, d => s.fwd_nsv i d
  | .cnr s, i, d => s.fwd_nsv i d

/-- Dispatch of `m_npr.bwd_psv`. -/
def npr_type.bwd_psv : npr_type → Nat → Nat → Option (Nat × Nat)
  | .cn s, i, d => s.bwd_psv i d
  | .cnr s, i, d => s.bwd_psv i d

/-- Dispatch of `m_npr.rmq`. -/
def npr_type.rmq : npr_type → Nat → Nat → Option (Nat × Nat)
  | .cn s, i, j => s.rmq i j
  | .cnr s, i, j => s.rmq i j

/-- The compressed suffix array, an external collaborator of the tree: its size and the
accesses the tree performs, as total functions. -/
structure csa_type where
  size : Nat
  sa : Nat → Nat
  psi : Nat → Nat
  char2comp : Nat → Nat
  C : Nat → Nat
  F : Nat → Nat
  backward_search : Nat → Nat → Nat → Nat × Nat
  get_char_pos : Nat → Nat → Nat

/-- The class `cst_cn`: suffix array, LCP array and NPR index. -/
structure cst_cn where
  m_csa : csa_type
  m_lcp : List Nat
  m_npr : npr_type

/-- Nodes are intervals `(lb, rb)` of the suffix array, `node_type`. -/
abbrev node_type := Nat × Nat

/-- Construction of the tree from its suffix array and LCP array: the NPR index is built
over the LCP array. -/
def cst_cn.construct (cfg : npr_config) (csa : csa_type) (lcp : List Nat) : Option cst_cn :=
  (npr_type.construct cfg lcp).map fun npr => { m_csa := csa, m_lcp := lcp, m_npr := npr }

/-- Number of leaves, `size()`. -/
def cst_cn.size (t : cst_cn) : Nat := t.m_csa.size

/-- The root `root() = (0, m_csa.size() - 1)`. -/
def cst_cn.root (t : cst_cn) : node_type := (0, sub64 t.m_csa.size 1)

/-- The test `is_leaf(v)`. -/
def cst_cn.is_leaf (_t : cst_cn) (v : node_type) : Bool := v.1 == v.2

/-- The test `ancestor(v, w)`: `v` is an ancestor of `w`. -/
def cst_cn.ancestor (_t : cst_cn) (v w : node_type) : Bool :=
  decide (v.1 ≤ w.1) && decide (v.2 ≥ w.2)

/-- Private `get_node(pos)`: the interval `[psv(pos), nsv(pos) - 1]`, with `0` for a
previous smaller value that does not exist. -/
def cst_cn.get_node (t : cst_cn) (pos : Nat) : Option node_type :=
  (t.m_npr.psv pos).bind fun l =>
  (t.m_npr.nsv pos).map fun r =>
    (if l.1 = t.m_lcp.length then 0 else l.1, sub64 r.1 1)

/-- The node `parent(v)`. -/
def cst_cn.parent (t : cst_cn) (v : node_type) : Option node_type :=
  (if v.2 = sub64 t.m_lcp.length 1 then some v.1
    else
      (t.m_lcp[v.1]?).bind fun a =>
      (t.m_lcp[v.2 + 1]?).map fun b => if a > b then v.1 else v.2 + 1).bind fun lcp_p_pos =>
  t.get_node lcp_p_pos

/-- The string depth `depth(v)`. -/
def cst_cn.depth (t : cst_cn) (v : node_type) : Option Nat :=
  if t.is_leaf v then some (sub64 t.size (t.m_csa.sa v.1))
  else if v = t.root then some 0
  else (t.m_npr.rmq (v.1 + 1) v.2).map fun r => r.2

/-- Minimum of `lcp[lo], ..., lcp[lo + k]` by a plain left-to-right pass. -/
def naive_min (lcp : List Nat) (lo : Nat) : Nat → Nat
  | 0 => lcp.getD lo 0
  | k + 1 => min (naive_min lcp lo k) (lcp.getD (lo + k + 1) 0)

/-! ### Further operations of `cst_cn`

Loops without a bound in the source (`degree`, `node_depth`, `laqt`) take an iteration
budget and return a nested option: `none` for a read out of bounds, `some none` when the
budget is used up, `some (some r)` for the result `r`. -/

/-- Number of leaves below `v`, `size(v) = v.second - v.first + 1`. -/
def cst_cn.node_size (_t : cst_cn) (v : node_type) : Nat := add64 (sub64 v.2 v.1) 1

/-- The step shared by the loops of `select_child` and `degree`: the interval that starts
right after `ch`, which is the leaf `v.second` when `left == v.second` and otherwise ends
before the next entry not above `lcp_value`. -/
def cst_cn.next_child (t : cst_cn) (v : node_type) (lcp_value : Nat) (ch : node_type) :
    Option node_type :=
  let left := ch.2 + 1
  (if left = v.2 then some left
    else (t.m_npr.fwd_nsv (left + 1) (lcp_value + 1)).map fun r => sub64 r.1 1).map
    fun right => (left, right)

/-- The loop `while (i > 0)` of `select_child`, by recursion on the remaining count. -/
def cst_cn.select_child_loop (t : cst_cn) (v : node_type) (lcp_value : Nat) :
    Nat → node_type → Option node_type
  | 0, ch => some ch
  | i + 1, ch =>
    if ch.2 ≥ v.2 then some t.root
    else (t.next_child v lcp_value ch).bind fun ch1 =>
      cst_cn.select_child_loop t v lcp_value i ch1

/-- The `i`-th child `select_child(v, i)`. -/
def cst_cn.select_child (t : cst_cn) (v : node_type) (i : Nat) : Option node_type :=
  if t.is_leaf v then some t.root
  else (t.m_npr.rmq (v.1 + 1) v.2).bind fun r =>
    t.select_child_loop v r.2 (sub64 i 1) (v.1, sub64 r.1 1)

/-- The loop `while (ch != root())` of `degree` with an iteration budget: `none` when a
read is out of bounds, `some none` when the budget is used up, `some (some count)` when the
loop ends. -/
def cst_cn.degree_loop (t : cst_cn) (v : node_type) (lcp_value : Nat) :
    Nat → node_type → Nat → Option (Option Nat)
  | 0, _, _ => some none
  | fuel + 1, ch, count =>
    if ch = t.root then some (some count)
    else if ch.2 ≥ v.2 then cst_cn.degree_loop t v lcp_value fuel t.root (count + 1)
    else (t.next_child v lcp_value ch).bind fun ch1 =>
      cst_cn.degree_loop t v lcp_value fuel ch1 (count + 1)

/-- The number of children `degree(v)`, with an iteration budget for its loop. -/
def cst_cn.degree (t : cst_cn) (fuel : Nat) (v : node_type) : Option (Option Nat) :=
  if t.is_leaf v then some (some 0)
  else (t.m_npr.rmq (v.1 + 1) v.2).bind fun r =>
    t.degree_loop v r.2 fuel (v.1, sub64 r.1 1) 0

/-- The lowest common ancestor `lca(v, w)`. -/
def cst_cn.lca (t : cst_cn) (v w : node_type) : Option node_type :=
  if t.ancestor v w then some v
  else if t.ancestor w v then some w
  else
    (if v.2 < w.1 then t.m_npr.rmq (v.2 + 1) w.1 else t.m_npr.rmq (w.2 + 1) v.1).bind
      fun k => t.get_node k.1

/-- The identifier `id(v)`. The source combines the shifted value and the tag with the
logical `||`, whose result is `0` or `1`. -/
def cst_cn.id (t : cst_cn) (v : node_type) : Option Nat :=
  let n := t.m_lcp.length
  if t.is_leaf v then some v.1
  else
    (if v = t.root then some true
      else if v.2 ≠ sub64 n 1 then
        (t.m_lcp[v.1]?).bind fun a => (t.m_lcp[v.2 + 1]?).map fun b => decide (a < b)
      else some false).map fun c =>
    let val := if c then v.2 else v.1
    let is_second := if c then 1 else 0
    let val := if ((n + val) * 2) % 2 ^ 64 ≠ 0 ∨ is_second ≠ 0 then 1 else 0
    add64 n val

/-- The node `inv_id(id)`. The source computes `is_second = id && is_second` with the
logical `&&`. -/
def cst_cn.inv_id (t : cst_cn) (id : Nat) : Option node_type :=
  let n := t.m_lcp.length
  if id < n then some (id, id)
  else
    let id := sub64 id n
    if id = sub64 n 1 then some t.root
    else
      let is_second := decide (id ≠ 0)
      let i := sub64 (id / 2) n
      if is_second then
        let j := sub64 i 1
        (t.m_lcp[j]?).bind fun x =>
        (t.m_npr.bwd_psv (sub64 j 1) (add64 x 1)).map fun r =>
          (if r.1 = t.m_lcp.length then 0 else r.1, j)
      else
        (t.m_lcp[i]?).bind fun x =>
        (t.m_npr.fwd_nsv (add64 i 1) (add64 x 1)).map fun r => (i, sub64 r.1 1)

/-- The node `laqs(v, d)`. -/
def cst_cn.laqs (t : cst_cn) (v : node_type) (d : Nat) : Option node_type :=
  if d = 0 then some t.root
  else
    (t.m_npr.bwd_psv v.1 (add64 d 1)).bind fun l =>
    (t.m_npr.fwd_nsv v.2 (add64 d 1)).map fun r =>
      (if l.1 = t.m_lcp.length then 0 else l.1, sub64 r.1 1)

/-- The loop `while (v != root())` of `node_depth` with an iteration budget: `none` when
a read is out of bounds, `some none` when the budget is used up. -/
def cst_cn.node_depth_loop (t : cst_cn) : Nat → node_type → Nat → Option (Option Nat)
  | 0, _, _ => some none
  | fuel + 1, v, d =>
    if v = t.root then some (some d)
    else (t.parent v).bind fun p => cst_cn.node_depth_loop t fuel p (add64 d 1)

/-- The node depth `node_depth(v)`, with an iteration budget for its loop. -/
def cst_cn.node_depth (t : cst_cn) (fuel : Nat) (v : node_type) : Option (Option Nat) :=
  t.node_depth_loop fuel v 0

/-- The inner loop `while (aux != res) { aux = parent(aux); ++node_d; }` of `laqt` with
an iteration budget; it yields the final `aux` and `node_d`. -/
def cst_cn.laqt_walk (t : cst_cn) (res : node_type) :
    Nat → node_type → Nat → Option (Option (node_type × Nat))
  | 0, _, _ => some none
  | fuel + 1, aux, node_d =>
    if aux = res then some (some (aux, node_d))
    else (t.parent aux).bind fun p => cst_cn.laqt_walk t res fuel p (add64 node_d 1)

/-- The outer loop `while (diff != 0 and res != v)` of `laqt` with an iteration budget
(`inner` is the budget of each inner walk): `none` when a read is out of bounds,
`some none` when a budget is used up, `some (some res)` when the loop ends. -/
def cst_cn.laqt_loop (t : cst_cn) (v : node_type) (d inner : Nat) :
    Nat → node_type → Nat → Nat → Option (Option node_type)
  | 0, _, _, _ => some none
  | fuel + 1, res, node_d, diff =>
    if diff ≠ 0 ∧ res ≠ v then
      (t.depth res).bind fun node_sd =>
      (t.laqs v (add64 node_sd diff)).bind fun aux =>
      (t.laqt_walk res inner aux node_d).bind fun walked =>
        match walked with
        | none => some none
        | some (aux1, node_d1) =>
          cst_cn.laqt_loop t v d inner fuel aux1 node_d1 (sub64 d node_d1)
    else some (some res)

/-- The node `laqt(v, d)`, with one iteration budget for each of its loops. -/
def cst_cn.laqt (t : cst_cn) (fuel : Nat) (v : node_type) (d : Nat) :
    Option (Option node_type) :=
  if d = 0 then some (some t.root)
  else
    (t.laqs v d).bind fun res =>
    (t.node_depth fuel res).bind fun counted =>
      match counted with
      | none => some none
      | some node_d => t.laqt_loop v d fuel fuel res node_d (sub64 d node_d)

/-- The Weiner link `wl(v, c)`: the interval computed by the backward search of the
suffix array, whatever it is, unless `v` is a leaf. -/
def cst_cn.wl (t : cst_cn) (v : node_type) (c : Nat) : node_type :=
  if v.1 = v.2 then t.root else t.m_csa.backward_search v.1 v.2 c

/-! ### Suffix arrays of the sample texts -/

/-- A suffix array given by its entries, with `psi` derived from them; the accesses by
character are not used by the operations evaluated on it and are constant. -/
def csa_of_sa (sa : List Nat) : csa_type :=
  { size := sa.length
    sa := fun i => sa.getD i 0
    psi := fun i => sa.indexOf ((sa.getD i 0 + 1) % sa.length)
    char2comp := fun _ => 0
    C := fun _ => 0
    F := fun _ => 0
    backward_search := fun _ _ _ => (1, 0)
    get_char_pos := fun i _ => i }

/-- Suffix array of the text `banana` with its terminator (characters by code: the
terminator is `0`, `a` = 97, `b` = 98, `n` = 110; BWT `annb$aa`), with the backward search
`C[c] + rank(l, c)`, `C[c] + rank(r + 1, c) - 1`, which is `(1, 0)` for a character that does
not occur. -/
def banana_csa : csa_type :=
  { size := 7
    sa := fun i => [6, 5, 3, 1, 0, 4, 2].getD i 0
    psi := fun i => [4, 0, 5, 6, 3, 1, 2].getD i 0
    char2comp := fun c => if c = 97 then 1 else if c = 98 then 2 else if c = 110 then 3 else 0
    C := fun cc => [0, 1, 4, 5, 7].getD cc 7
    F := fun p => [0, 97, 97, 97, 98, 110, 110].getD p 0
    backward_search := fun l r c =>
      if c = 0 ∨ c = 97 ∨ c = 98 ∨ c = 110 then
        let c_begin := ([0, 97, 97, 97, 98, 110, 110].takeWhile fun x => x < c).length
        (c_begin + ([97, 110, 110, 98, 0, 97, 97].take l).count c,
          sub64 (c_begin + ([97, 110, 110, 98, 0, 97, 97].take (r + 1)).count c) 1)
      else (1, 0)
    get_char_pos := fun i d => Nat.iterate (fun j => [4, 0, 5, 6, 3, 1, 2].getD j 0) d i }

/-! ### Sibling, suffix link and child of `cst_cn` -/

/-- The `i`-th leaf `select_leaf(i)`, counted from 1. -/
def cst_cn.select_leaf (_t : cst_cn) (i : Nat) : node_type := (sub64 i 1, sub64 i 1)

/-- The next sibling `sibling(v)`. -/
def cst_cn.sibling (t : cst_cn) (v : node_type) : Option node_type :=
  let l := v.2 + 1
  (t.parent v).bind fun p =>
    if v.2 ≥ p.2 then some t.root
    else if l = p.2 then some (p.2, p.2)
    else
      (t.m_lcp[l]?).bind fun x =>
      (t.m_npr.fwd_nsv (l + 1) (x + 1)).map fun r => (l, sub64 r.1 1)

/-- The suffix link `sl(v)`. -/
def cst_cn.sl (t : cst_cn) (v : node_type) : Option node_type :=
  if v = t.root then some t.root
  else if t.is_leaf v then some (t.m_csa.psi v.1, t.m_csa.psi v.1)
  else
    let x := t.m_csa.psi v.1
    let y := t.m_csa.psi v.2
    (if x < y then t.m_npr.rmq (x + 1) y else t.m_npr.rmq (y + 1) x).bind fun k =>
      t.get_node k.1

/-- Private `select_last_child(v)`. -/
def cst_cn.select_last_child (t : cst_cn) (v : node_type) : Option node_type :=
  if t.is_leaf v then some t.root
  else
    (t.m_npr.rmq (v.1 + 1) v.2).bind fun r =>
    (t.m_npr.bwd_psv v.2 (r.2 + 1)).map fun l => (l.1, v.2)

/-- The configurations of the NPR index named by the specification: `cn` with block size
8, 16 or 32 (and `r` levels), `cnr` with these block sizes and small block size 4 or 8. -/
def standard_configs (r : Nat) : List npr_config :=
  [.cn 8 r, .cn 16 r, .cn 32 r, .cnr 8 4, .cnr 8 8, .cnr 16 4, .cnr 16 8, .cnr 32 4, .cnr 32 8]

/-! ### Serialisation of `_npr_support_cnr`

The stream is a sequence of items, one for each `write_member` and each
`int_vector::serialize`. -/

/-- An item of a serialisation stream: a `size_type` written by `write_member`, or a whole
`int_vector` written by its own `serialize`. -/
inductive stream_item
  | word (x : Nat)
  | vector (v : int_vector)
  deriving DecidableEq

/-- Loop `for (i = 1; i < levels; ++i)` of `serialize`: writes `min_array[i - 1]` and then
`pos_array[i]`. The first argument is the number of remaining iterations. -/
def npr_support_cnr.serialize_loop (s : npr_support_cnr) :
    Nat → Nat → Option (List stream_item)
  | 0, _ => some []
  | c + 1, i =>
    (s.min_array[i - 1]?).bind fun m =>
    (s.pos_array[i]?).bind fun p =>
    (npr_support_cnr.serialize_loop s c (i + 1)).map fun rest =>
      stream_item.vector m :: stream_item.vector p :: rest

/-- The items that `serialize(out)` writes, in order. -/
def npr_support_cnr.serialize (s : npr_support_cnr) : Option (List stream_item) :=
  let levels := s.pos_array.length
  if levels > 0 then
    (s.pos_array[0]?).bind fun p0 =>
    (s.serialize_loop (levels - 1) 1).map fun rest =>
      stream_item.word levels :: stream_item.vector p0 :: rest
  else some [stream_item.word levels]

/-- The call `resize(k)` on a vector of vectors: the first `k` entries are kept and empty
vectors are appended (a default `int_vector<>` has width 64). -/
def resize_levels (xs : List int_vector) (k : Nat) : List int_vector :=
  (xs ++ List.replicate (k - xs.length) (⟨64, []⟩ : int_vector)).take k

/-- Loop `for (i = 1; i < levels; ++i)` of `load`: reads `min_array[i - 1]` and then
`pos_array[i]` from the stream. The result is the two arrays and the rest of the stream;
`none` when the stream does not continue with two vectors or an index is outside. -/
def npr_support_cnr.load_loop :
    Nat → Nat → List int_vector → List int_vector → List stream_item →
      Option (List int_vector × List int_vector × List stream_item)
  | 0, _, mins, poss, inp => some (mins, poss, inp)
  | c + 1, i, mins, poss, stream_item.vector m :: stream_item.vector p :: inp =>
    if i - 1 < mins.length ∧ i < poss.length then
      npr_support_cnr.load_loop c (i + 1) (mins.set (i - 1) m) (poss.set i p) inp
    else none
  | _ + 1, _, _, _, _ => none

/-- The call `load(in, llcp)` on the index `s`: the index after the call and the rest of the
stream; `none` when the stream does not hold the expected items. -/
def npr_support_cnr.load (s : npr_support_cnr) (llcp : List Nat) (inp : List stream_item) :
    Option (npr_support_cnr × List stream_item) :=
  match inp with
  | stream_item.word levels :: inp1 =>
    if levels > 0 then
      let mins := resize_levels s.min_array (sub64 levels 1)
      let poss := resize_levels s.pos_array levels
      match inp1 with
      | stream_item.vector p0 :: inp2 =>
        (npr_support_cnr.load_loop (levels - 1) 1 mins (poss.set 0 p0) inp2).map fun r =>
          ({ s with m_lcp := llcp, min_array := r.1, pos_array := r.2.1 }, r.2.2)
      | _ => none
    else some ({ s with m_lcp := llcp }, inp1)
  | _ => none

/-! ## Specification predicates and proof-side definitions

The three reductions as relations, the block-summary relation between two consecutive
levels, the common shape of the recursive searches, and the invariants of the constructed
indices. -/

/-- Previous-smaller-value relation: `j` is the greatest index `<= b` whose entry `v` is
below `d`. -/
def PsvSpec (rd : Nat → Option Nat) (d b j v : Nat) : Prop :=
  j ≤ b ∧ rd j = some v ∧ v < d ∧ ∀ q w, j < q → q ≤ b → rd q = some w → d ≤ w

/-- Range-minimum relation: `p` is the least index of `[i, j]` whose entry `v` is the
minimum over `[i, j]`. -/
def RmqSpec (rd : Nat → Option Nat) (i j p v : Nat) : Prop :=
  i ≤ p ∧ p ≤ j ∧ rd p = some v ∧
    (∀ q w, i ≤ q → q ≤ j → rd q = some w → v ≤ w) ∧
    (∀ q w, i ≤ q → q < p → rd q = some w → v < w)

/-- The read function `rd` is defined on `[0, n)` with entries below `bound`. -/
def IsArr (rd : Nat → Option Nat) (n bound : Nat) : Prop :=
  ∀ j, j < n → ∃ v, rd j = some v ∧ v < bound

/-- Block summary: `rdM`, `rdP` hold for each block of `B` entries of `rdA` its minimum
and the local index of the leftmost entry attaining it. -/
structure IsSummary (B : Nat) (rdA : Nat → Option Nat) (nA : Nat)
    (rdM rdP : Nat → Option Nat) (nM : Nat) : Prop where
  size : nM = (nA + B - 1) / B
  block : ∀ k, k < nM → ∃ m p, rdM k = some m ∧ rdP k = some p ∧ p < B ∧ k * B + p < nA ∧
    rdA (k * B + p) = some m ∧
    (∀ j w, k * B ≤ j → j < (k + 1) * B → rdA j = some w → m ≤ w) ∧
    (∀ j w, k * B ≤ j → j < k * B + p → rdA j = some w → m < w)

/-- Common shape of `bwd_psv`, `find_psv_block` and `find_psv_block_2`: the array `rdA` is
searched downwards from `b` with the help of its block summary `rdM`, `rdP`; `up` is the
search one level higher. -/
def psv_body (B : Nat) (n : Option Nat) (rdA rdM rdP : Nat → Option Nat) (szM : Option Nat)
    (up : Nat → Nat → Option (Nat × Nat)) (d b l_value : Nat) : Option (Nat × Nat) :=
  n.bind fun n =>
  let block := b / B
  (rdM block).bind fun m =>
  (if m < d then (last_below rdA d (B * block) b).map fun r => (r, B * block)
    else some (none, n)).bind fun home =>
  match home.1 with
  | some r => some r
  | none =>
    if home.2 = 0 then some (n, l_value)
    else
      (up (sub64 block 1) l_value).bind fun up =>
      szM.bind fun sz =>
      if up.1 = sz then some (n, up.2)
      else
        (rdP up.1).bind fun p =>
        let until_ := up.1 * B + p
        (last_below_strict rdA d until_ (sub64 ((up.1 + 1) * B) 1)).map fun r =>
          match r with
          | some found => found
          | none => (until_, up.2)

/-- Left partial block of a range-minimum query: adopt the block summary when its
position falls into `[i, until]`, scan otherwise. State `(min_rmq, min_pos)`. -/
def rmq_left (B n : Nat) (rdA : Nat → Option Nat) (rdMv : Nat → Nat → Option Nat)
    (i j p : Nat) : Option (Nat × Nat) :=
  if i ≤ i / B * B + p ∧ i / B * B + p ≤ min (sub64 ((i / B + 1) * B) 1) j then
    (rdMv (i / B) (i / B * B + p)).map fun m => (m, i / B * B + p)
  else scan_min rdA (min (sub64 ((i / B + 1) * B) 1) j + 1 - i) i (n, 0)

/-- Whole blocks strictly between the two partial blocks, answered one level higher.
The flag records the early return on a minimum of `0`. -/
def rmq_mid (B : Nat) (rdP : Nat → Option Nat) (up : Nat → Nat → Option (Nat × Nat))
    (i j : Nat) (left : Nat × Nat) : Option ((Nat × Nat) × Bool) :=
  if i / B + 1 < j / B then
    (up (i / B + 1) (sub64 (j / B) 1)).bind fun mid =>
      if mid.2 < left.1 then
        (rdP mid.1).map fun q => ((mid.2, mid.1 * B + q), decide (mid.2 = 0))
      else some (left, false)
  else some (left, false)

/-- Right partial block of a range-minimum query. -/
def rmq_right (B : Nat) (rdA : Nat → Option Nat) (rdMv : Nat → Nat → Option Nat)
    (rdP : Nat → Option Nat) (j : Nat) (cur : Nat × Nat) : Option (Nat × Nat) :=
  (rdP (j / B)).bind fun q =>
  (rdMv (j / B) (j / B * B + q)).bind fun m =>
  if m < cur.1 then
    if j / B * B + q ≤ j then some (j / B * B + q, m)
    else (scan_min rdA (j + 1 - j / B * B) (j / B * B) cur).map fun st => (st.2, st.1)
  else some (cur.2, cur.1)

/-- Common shape of `rmq`, `find_rmq_block` and `find_rmq_block_2`. -/
def rmq_body (B n : Nat) (rdA : Nat → Option Nat) (rdMv : Nat → Nat → Option Nat)
    (rdP : Nat → Option Nat) (up : Nat → Nat → Option (Nat × Nat)) (i j : Nat) :
    Option (Nat × Nat) :=
  (rdP (i / B)).bind fun p =>
  (rmq_left B n rdA rdMv i j p).bind fun left =>
  if min (sub64 ((i / B + 1) * B) 1) j = j ∨ left.1 = 0 then some (left.2, left.1)
  else
    (rmq_mid B rdP up i j left).bind fun cur =>
    if cur.2 then some (cur.1.2, cur.1.1)
    else rmq_right B rdA rdMv rdP j cur.1

/-- Block `k` of the array `rd` of size `last` has minimum `m`, first attained at local
index `p`. -/
def BlockOK (B : Nat) (rd : Nat → Option Nat) (last k m p : Nat) : Prop :=
  p < B ∧ k * B + p < last ∧ rd (k * B + p) = some m ∧
    (∀ j w, k * B ≤ j → j < (k + 1) * B → rd j = some w → m ≤ w) ∧
    (∀ j w, k * B ≤ j → j < k * B + p → rd j = some w → m < w)

/-- Read function of the array summarised by level `k` of a chain of levels built over
`prev`: `prev` itself for `k = 0`, the minima of level `k - 1` otherwise. -/
def chainA (prev : List Nat) (M : List int_vector) : Nat → Nat → Option Nat
  | 0 => fun j => prev[j]?
  | k + 1 => level_get M k

/-- Size of the array summarised by level `k` of a chain of levels. -/
def chainN (n0 : Nat) (M : List int_vector) : Nat → Nat
  | 0 => n0
  | k + 1 => ((M[k]?).map int_vector.size).getD 0

/-- All levels built by `other_levels` summarise the level below. -/
structure ChainOK (B n : Nat) (prev : List Nat) (M P : List int_vector) : Prop where
  len : P.length = M.length
  summ : ∀ k, k < M.length → IsSummary B (chainA prev M k) (chainN prev.length M k)
    (level_get M k) (level_get P k) (chainN prev.length M (k + 1))
  arr : ∀ k, k ≤ M.length → IsArr (chainA prev M k) (chainN prev.length M k) n
  psize : ∀ k, k < M.length → level_size P k = level_size M k

/-- Invariant of a constructed `cn` index over an LCP array that starts with `0`. -/
structure CnInv (s : npr_support_cn) : Prop where
  hB : 0 < s.block_size
  chain : ChainOK s.block_size s.m_lcp.length s.m_lcp s.min_array s.pos_array
  pos : 0 < s.m_lcp.length
  pow : s.m_lcp.length ≤ s.block_size ^ s.min_array.length
  zero : s.m_lcp[0]? = some 0
  levels : 0 < s.min_array.length

/-- Invariant of a constructed `cnr` index over an LCP array that starts with `0`. -/
structure CnrInv (s : npr_support_cnr) : Prop where
  hB : 0 < s.block_size
  hsbs : 0 < s.sbs
  pos : 0 < s.m_lcp.length
  zero : s.m_lcp[0]? = some 0
  arr0 : IsArr (fun j => s.m_lcp[j]?) s.m_lcp.length s.m_lcp.length
  size0 : level_size s.pos_array 0 = some ((s.m_lcp.length + s.sbs - 1) / s.sbs)
  sum0 : IsSummary s.sbs (fun j => s.m_lcp[j]?) s.m_lcp.length s.level0_min
    (level_get s.pos_array 0) ((s.m_lcp.length + s.sbs - 1) / s.sbs)
  upper : ((s.m_lcp.length + s.sbs - 1) / s.sbs = 1 ∧ s.min_array = []) ∨
    ∃ m1 M' p0 p1 P', s.min_array = m1 :: M' ∧ s.pos_array = p0 :: p1 :: P' ∧
      p1.data.length = m1.data.length ∧
      IsSummary s.sbs s.level0_min ((s.m_lcp.length + s.sbs - 1) / s.sbs)
        (fun j => m1.data[j]?) (fun j => p1.data[j]?) m1.data.length ∧
      ChainOK s.block_size s.m_lcp.length m1.data M' P' ∧
      chainN m1.data.length M' M'.length = 1

/-- Levels `1` and above of a `cnr` index with at least two levels. -/
structure CnrUpper (s : npr_support_cnr) (m1 : int_vector) (M' : List int_vector)
    (p0 p1 : int_vector) (P' : List int_vector) : Prop where
  hM : s.min_array = m1 :: M'
  hP : s.pos_array = p0 :: p1 :: P'
  hsz : p1.data.length = m1.data.length
  sum1 : IsSummary s.sbs s.level0_min ((s.m_lcp.length + s.sbs - 1) / s.sbs)
    (fun j => m1.data[j]?) (fun j => p1.data[j]?) m1.data.length
  chain : ChainOK s.block_size s.m_lcp.length m1.data M' P'
  top : chainN m1.data.length M' M'.length = 1

/-- Home block of a forward search: scan it from `b` when its summary `m` is below `d`.
The result pairs the outcome of the scan with the value of `until`. -/
def nsv_home (B n : Nat) (rdA : Nat → Option Nat) (d b m : Nat) :
    Option (Option (Nat × Nat) × Nat) :=
  if m < d then
    (first_below rdA d (min (B * (b / B + 1)) n - b) b).map fun r =>
      (r, min (B * (b / B + 1)) n)
  else some (none, 0)

/-- Descent of a forward search into the block `up.1` found one level higher. -/
def nsv_descend (B n : Nat) (rdA rdP : Nat → Option Nat) (szM : Option Nat) (d : Nat)
    (up : Nat × Nat) : Option (Nat × Nat) :=
  szM.bind fun sz =>
  if up.1 = sz then some (n, up.2)
  else
    (rdP up.1).bind fun p =>
    if up.2 = sub64 d 1 then some (up.1 * B + p, up.2)
    else
      (first_below rdA d (up.1 * B + p - up.1 * B) (up.1 * B)).map fun r =>
        match r with
        | some found => found
        | none => (up.1 * B + p, up.2)

/-- Common shape of `fwd_nsv`, `find_nsv_block` and `find_nsv_block_2`: the array `rdA` is
searched upwards from `b` with the help of its block summary `rdM`, `rdP`; `up` is the
search one level higher. -/
def nsv_body (B : Nat) (n : Option Nat) (rdA rdM rdP : Nat → Option Nat) (szM : Option Nat)
    (up : Nat → Nat → Option (Nat × Nat)) (d b l_value : Nat) : Option (Nat × Nat) :=
  n.bind fun n =>
  (rdM (b / B)).bind fun m =>
  (nsv_home B n rdA d b m).bind fun home =>
  match home.1 with
  | some r => some r
  | none =>
    if home.2 = n then some (n, l_value)
    else (up (b / B + 1) l_value).bind fun u => nsv_descend B n rdA rdP szM d u

/-- Next-smaller-value relation for a search from `b` in an array of size `nA`: the
result is the first position from `b` on with an entry below `d`, with that entry, or
`nA` with the untouched `l_value` when there is none. -/
def NsvSpec (rd : Nat → Option Nat) (nA d b lv : Nat) (r : Nat × Nat) : Prop :=
  (b ≤ r.1 ∧ r.1 < nA ∧ rd r.1 = some r.2 ∧ r.2 < d ∧
      ∀ q w, b ≤ q → q < r.1 → rd q = some w → d ≤ w) ∨
  (r.1 = nA ∧ r.2 = lv ∧ ∀ q w, b ≤ q → q < nA → rd q = some w → d ≤ w)

/-- What the tree relies on from its NPR index over `lcp`: `rmq` and `bwd_psv` always
answer correctly, and `fwd_nsv` answers correctly whenever it answers. -/
structure NprOK (npr : npr_type) (lcp : List Nat) : Prop where
  rmq : ∀ i j, i ≤ j → j < lcp.length →
    ∃ p v, npr.rmq i j = some (p, v) ∧ RmqSpec (fun q => lcp[q]?) i j p v
  bwd_psv : ∀ i d, i < lcp.length → 0 < d →
    ∃ p v, npr.bwd_psv i d = some (p, v) ∧ PsvSpec (fun q => lcp[q]?) d i p v
  bwd_psv_zero : ∀ i, npr.bwd_psv i 0 = some (lcp.length, lcp.length)
  psv : ∀ i, npr.psv i = if i = 0 then some (lcp.length, lcp.length)
    else (lcp[i]?).bind fun value => npr.bwd_psv (i - 1) value
  fwd_nsv : ∀ i d r, npr.fwd_nsv i d = some r →
    NsvSpec (fun q => lcp[q]?) lcp.length d i lcp.length r
  nsv : ∀ i, npr.nsv i = (lcp[i]?).bind fun value_v => npr.fwd_nsv (i + 1) value_v

/-- The interval `v` is delimited at height `h`: it lies inside the array, its inner LCP
entries are at least `h`, and the entries at `v.first` and at `v.second + 1` (when there is
one) are below `h`. Leaves and lcp-intervals are of this kind. -/
def IsInterval (lcp : List Nat) (v : node_type) (h : Nat) : Prop :=
  v.1 ≤ v.2 ∧ v.2 < lcp.length ∧
    (∀ q x, v.1 < q → q ≤ v.2 → lcp[q]? = some x → h ≤ x) ∧
    (∀ x, lcp[v.1]? = some x → x < h) ∧
    (∀ x, lcp[v.2 + 1]? = some x → x < h)

/-- A node of the tree over `lcp`: the root or a delimited interval. -/
def IsNode (lcp : List Nat) (v : node_type) : Prop :=
  v = (0, lcp.length - 1) ∨ ∃ h, IsInterval lcp v h

/-- The intervals `ch, c1, c2, ...` tile `v` from `ch` on: each is non-empty, each next one
starts right after the previous one, and the last one ends at `v.second`. -/
def ChildChain (v : node_type) : node_type → List node_type → Prop
  | ch, [] => ch.1 ≤ ch.2 ∧ ch.2 = v.2
  | ch, c :: cs => ch.1 ≤ ch.2 ∧ ch.2 < v.2 ∧ c.1 = ch.2 + 1 ∧ ChildChain v c cs

/-- The value `m` is the minimum of `lcp` over the positions `[lo, hi)`: it is attained
there and no entry there is smaller. -/
def RangeMin (lcp : List Nat) (lo hi m : Nat) : Prop :=
  (∃ q, lo ≤ q ∧ q < hi ∧ lcp[q]? = some m) ∧
    ∀ q w, lo ≤ q → q < hi → lcp[q]? = some w → m ≤ w

/-- Levels of a constructed `cnr` index: positions of the small-block minima, their
summary with the small block size, and the chain of summaries with the block size above. -/
structure CnrLevels (s : npr_support_cnr) : Prop where
  plen : s.pos_array.length = s.min_array.length + 1
  hB : 0 < s.block_size
  hsbs : 0 < s.sbs
  pos : 0 < s.m_lcp.length
  arr0 : IsArr (fun j => s.m_lcp[j]?) s.m_lcp.length s.m_lcp.length
  size0 : level_size s.pos_array 0 = some ((s.m_lcp.length + s.sbs - 1) / s.sbs)
  sum0 : IsSummary s.sbs (fun j => s.m_lcp[j]?) s.m_lcp.length s.level0_min
    (level_get s.pos_array 0) ((s.m_lcp.length + s.sbs - 1) / s.sbs)
  upper : ((s.m_lcp.length + s.sbs - 1) / s.sbs = 1 ∧ s.min_array = []) ∨
    ∃ m1 M' p0 p1 P', s.min_array = m1 :: M' ∧ s.pos_array = p0 :: p1 :: P' ∧
      p1.data.length = m1.data.length ∧
      IsSummary s.sbs s.level0_min ((s.m_lcp.length + s.sbs - 1) / s.sbs)
        (fun j => m1.data[j]?) (fun j => p1.data[j]?) m1.data.length ∧
      ChainOK s.block_size s.m_lcp.length m1.data M' P' ∧
      chainN m1.data.length M' M'.length = 1

/-- A forward search in the index finds what there is to find: whenever an entry below `d`
exists from `i` on, `fwd_nsv(i, d)` answers. -/
def NsvFound (npr : npr_type) (lcp : List Nat) : Prop :=
  ∀ i d, (∃ q w, i ≤ q ∧ lcp[q]? = some w ∧ w < d) → ∃ r, npr.fwd_nsv i d = some r

/-- The interval `w` is a child of the internal interval `v` with head `h` (the minimum of
the inner LCP entries of `v`): it lies inside `v`, starts at `v.first` or at an entry equal
to `h`, ends at `v.second` or right before an entry equal to `h`, and its inner entries are
above `h`. -/
def IsChild (lcp : List Nat) (v : node_type) (h : Nat) (w : node_type) : Prop :=
  v.1 ≤ w.1 ∧ w.1 ≤ w.2 ∧ w.2 ≤ v.2 ∧
    (w.1 = v.1 ∨ lcp[w.1]? = some h) ∧
    (w.2 = v.2 ∨ lcp[w.2 + 1]? = some h) ∧
    ∀ q x, w.1 < q → q ≤ w.2 → lcp[q]? = some x → h < x

theorem last_below_spec (rd : Nat → Option Nat) (d until_ : Nat)
    (h0 : until_ = 0 → ∃ v, rd 0 = some v ∧ v < d) :
    ∀ b, (∀ j, j ≤ b → ∃ v, rd j = some v) →
      (∃ j v, last_below rd d until_ b = some (some (j, v)) ∧ until_ ≤ j ∧ PsvSpec rd d b j v) ∨
      (last_below rd d until_ b = some none ∧ 0 < until_ ∧
        ∀ q w, until_ ≤ q → q ≤ b → rd q = some w → d ≤ w) := by
  intro b
  induction b with
  | zero =>
    intro hrd
    by_cases hu : 0 < until_
    · right
      refine ⟨by simp [last_below, hu], hu, ?_⟩
      intro q w h1 h2 _
      omega
    · left
      have hu0 : until_ = 0 := by omega
      obtain ⟨v, hv, hvd⟩ := h0 hu0
      refine ⟨0, v, by simp [last_below, hu, hv, hvd], by omega, le_refl _, hv, hvd, ?_⟩
      intro q w h1 h2 _
      omega
  | succ b ih =>
    intro hrd
    by_cases hu : b + 1 < until_
    · right
      refine ⟨by simp [last_below, hu], by omega, ?_⟩
      intro q w h1 h2 _
      omega
    · obtain ⟨v, hv⟩ := hrd (b + 1) (le_refl _)
      by_cases hvd : v < d
      · left
        refine ⟨b + 1, v, by simp [last_below, hu, hv, hvd], by omega, le_refl _, hv, hvd, ?_⟩
        intro q w h1 h2 _
        omega
      · have hrd' : ∀ j, j ≤ b → ∃ v, rd j = some v := fun j hj => hrd j (by omega)
        have hstep : last_below rd d until_ (b + 1) = last_below rd d until_ b := by
          simp [last_below, hu, hv, hvd]
        rcases ih hrd' with ⟨j, w, hr, huj, hjb, hj, hwd, hall⟩ | ⟨hr, hpos, hall⟩
        · left
          refine ⟨j, w, by rw [hstep, hr], huj, by omega, hj, hwd, ?_⟩
          intro q x h1 h2 hx
          by_cases hq : q = b + 1
          · subst hq
            rw [hv] at hx
            cases hx
            omega
          · exact hall q x h1 (by omega) hx
        · by_cases hub : until_ = b + 1
          · right
            refine ⟨by rw [hstep, hr], hpos, ?_⟩
            intro q x h1 h2 hx
            have hq : q = b + 1 := by omega
            subst hq
            rw [hv] at hx
            cases hx
            omega
          · right
            refine ⟨by rw [hstep, hr], hpos, ?_⟩
            intro q x h1 h2 hx
            by_cases hq : q = b + 1
            · subst hq
              rw [hv] at hx
              cases hx
              omega
            · exact hall q x h1 (by omega) hx

theorem last_below_strict_spec (rd : Nat → Option Nat) (d until_ : Nat) :
    ∀ b, (∀ j, until_ < j → j ≤ b → ∃ v, rd j = some v) →
      (∃ j v, last_below_strict rd d until_ b = some (some (j, v)) ∧ until_ < j ∧
        PsvSpec rd d b j v) ∨
      (last_below_strict rd d until_ b = some none ∧
        ∀ q w, until_ < q → q ≤ b → rd q = some w → d ≤ w) := by
  intro b
  induction b with
  | zero =>
    intro _
    right
    refine ⟨by simp [last_below_strict], ?_⟩
    intro q w h1 h2 _
    omega
  | succ b ih =>
    intro hrd
    by_cases hu : until_ < b + 1
    · obtain ⟨v, hv⟩ := hrd (b + 1) hu (le_refl _)
      by_cases hvd : v < d
      · left
        exact ⟨b + 1, v, by simp [last_below_strict, hu, hv, hvd], hu, le_refl _, hv, hvd,
          fun q w h1 h2 _ => by omega⟩
      · have hstep : last_below_strict rd d until_ (b + 1) = last_below_strict rd d until_ b := by
          simp [last_below_strict, hu, hv, hvd]
        have hcase : ∀ q x, q ≤ b + 1 → rd q = some x → ¬ q ≤ b → d ≤ x := by
          intro q x h2 hx hq
          have : q = b + 1 := by omega
          subst this
          rw [hv] at hx
          cases hx
          omega
        rcases ih (fun j h1 h2 => hrd j h1 (by omega)) with
          ⟨j, w, hr, huj, hjb, hj, hwd, hall⟩ | ⟨hr, hall⟩
        · left
          refine ⟨j, w, by rw [hstep, hr], huj, by omega, hj, hwd, ?_⟩
          intro q x h1 h2 hx
          by_cases hq : q ≤ b
          · exact hall q x h1 hq hx
          · exact hcase q x h2 hx hq
        · right
          refine ⟨by rw [hstep, hr], ?_⟩
          intro q x h1 h2 hx
          by_cases hq : q ≤ b
          · exact hall q x h1 hq hx
          · exact hcase q x h2 hx hq
    · right
      refine ⟨by simp [last_below_strict, hu], ?_⟩
      intro q w h1 h2 _
      omega

theorem ceil_mul_ge (B nA : Nat) (hB : 0 < B) : nA ≤ (nA + B - 1) / B * B := by
  have h := Nat.lt_div_mul_add (a := nA + B - 1) hB
  omega

theorem block_lt (B nA nM b : Nat) (hB : 0 < B) (hsz : nM = (nA + B - 1) / B) (hb : b < nA) :
    b / B < nM := by
  rw [Nat.div_lt_iff_lt_mul hB, hsz]
  have := ceil_mul_ge B nA hB
  omega

theorem block_range (B q : Nat) (hB : 0 < B) : q / B * B ≤ q ∧ q < (q / B + 1) * B := by
  refine ⟨Nat.div_mul_le_self q B, ?_⟩
  have := Nat.lt_div_mul_add (a := q) hB
  rw [Nat.add_mul]
  omega

theorem sub64_one (x : Nat) (hx : 0 < x) : sub64 x 1 = x - 1 := by
  unfold sub64
  rw [if_pos (show 1 ≤ x from hx)]

theorem psv_body_spec (B nA nM n : Nat) (rdA rdM rdP : Nat → Option Nat)
    (up : Nat → Nat → Option (Nat × Nat)) (d b l_value : Nat)
    (hB : 0 < B) (hS : IsSummary B rdA nA rdM rdP nM)
    (hA : ∀ j, j < nA → ∃ v, rdA j = some v) (h0 : rdA 0 = some 0)
    (hd : 0 < d) (hb : b < nA) (hn : 0 < n)
    (hup : 2 ≤ nM → ∀ b' lv, b' < nM → ∃ j v, up b' lv = some (j, v) ∧ PsvSpec rdM d b' j v) :
    ∃ j v, psv_body B (some n) rdA rdM rdP (some nM) up d b l_value = some (j, v) ∧
      PsvSpec rdA d b j v := by
  have hblk : b / B < nM := block_lt B nA nM b hB hS.size hb
  obtain ⟨hbr1, hbr2⟩ := block_range B b hB
  obtain ⟨m, p, hm, hp, hpB, hpos, hAm, hmin, hleft⟩ := hS.block (b / B) hblk
  -- what the home block phase establishes unless it returns
  have hhome : (∃ j v, psv_body B (some n) rdA rdM rdP (some nM) up d b l_value = some (j, v) ∧
      PsvSpec rdA d b j v) ∨
      (∃ u, (if m < d then (last_below rdA d (B * (b / B)) b).map fun r => (r, B * (b / B))
          else some (none, n)) = some (none, u) ∧ u ≠ 0 ∧ 0 < b / B ∧
        ∀ q w, b / B * B ≤ q → q ≤ b → rdA q = some w → d ≤ w) := by
    by_cases hmd : m < d
    · have hz : B * (b / B) = 0 → ∃ v, rdA 0 = some v ∧ v < d := fun _ => ⟨0, h0, hd⟩
      rcases last_below_spec rdA d (B * (b / B)) hz b (fun j hj => hA j (by omega)) with
        ⟨j, v, hr, _, hspec⟩ | ⟨hr, hpos', hall⟩
      · left
        refine ⟨j, v, ?_, hspec⟩
        simp [psv_body, hm, hmd, hr]
      · right
        refine ⟨B * (b / B), by simp [hmd, hr], by omega, ?_, ?_⟩
        · rcases Nat.eq_zero_or_pos (b / B) with h | h
          · rw [h] at hpos'; simp at hpos'
          · exact h
        · intro q w h1 h2 hq
          exact hall q w (by rw [Nat.mul_comm]; exact h1) h2 hq
    · right
      refine ⟨n, by simp [hmd], by omega, ?_, ?_⟩
      · rcases Nat.eq_zero_or_pos (b / B) with h | h
        · exfalso
          have := hmin 0 0 (by rw [h]; simp) (by rw [h]; simpa using hB) h0
          omega
        · exact h
      · intro q w h1 h2 hq
        have := hmin q w h1 (by omega) hq
        omega
  rcases hhome with h | ⟨u, hu, hu0, hblk0, hall⟩
  · exact h
  · have hnM : 2 ≤ nM := by omega
    have hs1 : sub64 (b / B) 1 = b / B - 1 := sub64_one _ hblk0
    obtain ⟨j', v', hr', hj'b, hMj', hv'd, hall'⟩ := hup hnM (b / B - 1) l_value (by omega)
    have hj'lt : j' < nM := by omega
    obtain ⟨m', p', hm', hp', hp'B, hpos'', hAm', hmin', hleft'⟩ := hS.block j' hj'lt
    rw [hMj'] at hm'
    cases hm'
    have hmul1 : (j' + 1) * B = j' * B + B := by rw [Nat.add_mul]; simp
    have hle : (j' + 1) * B ≤ b / B * B := Nat.mul_le_mul_right B (by omega)
    have hs2 : sub64 ((j' + 1) * B) 1 = (j' + 1) * B - 1 := sub64_one _ (by omega)
    -- entries to the right of block j' up to b are all at least d
    have hright : ∀ q w, (j' + 1) * B ≤ q → q ≤ b → rdA q = some w → d ≤ w := by
      intro q w h1 h2 hq
      by_cases hqb : b / B * B ≤ q
      · exact hall q w hqb h2 hq
      · obtain ⟨hq1, hq2⟩ := block_range B q hB
        have hk1 : j' + 1 ≤ q / B := (Nat.le_div_iff_mul_le hB).2 h1
        have hk2 : q / B < b / B := by
          rw [Nat.div_lt_iff_lt_mul hB]
          omega
        obtain ⟨mk, pk, hmk, _, _, _, _, hmink, _⟩ := hS.block (q / B) (by omega)
        have h3 := hall' (q / B) mk (by omega) (by omega) hmk
        have h4 := hmink q w hq1 hq2 hq
        omega
    have hbody : psv_body B (some n) rdA rdM rdP (some nM) up d b l_value =
        (last_below_strict rdA d (j' * B + p') ((j' + 1) * B - 1)).map fun r =>
          match r with
          | some found => found
          | none => (j' * B + p', v') := by
      have hne : ¬ j' = nM := by omega
      simp only [psv_body, Option.some_bind, hm, hu, hs1, hr', hp', hs2]
      simp [hu0, hne]
    rcases last_below_strict_spec rdA d (j' * B + p') ((j' + 1) * B - 1)
        (fun j _ h2 => hA j (by omega)) with ⟨j, v, hr, huj, hjs, hj, hvd, hall2⟩ | ⟨hr, hall2⟩
    · refine ⟨j, v, by rw [hbody, hr]; rfl, by omega, hj, hvd, ?_⟩
      intro q w h1 h2 hq
      by_cases hqs : q ≤ (j' + 1) * B - 1
      · exact hall2 q w h1 hqs hq
      · exact hright q w (by omega) h2 hq
    · refine ⟨j' * B + p', v', by rw [hbody, hr]; rfl, by omega, hAm', hv'd, ?_⟩
      intro q w h1 h2 hq
      by_cases hqs : q ≤ (j' + 1) * B - 1
      · exact hall2 q w h1 hqs hq
      · exact hright q w (by omega) h2 hq

theorem scan_min_spec (rd : Nat → Option Nat) :
    ∀ k r st, (∀ q, r ≤ q → q < r + k → ∃ w, rd q = some w) →
      ∃ st', scan_min rd k r st = some st' ∧
        ((st' = st ∧ ∀ q w, r ≤ q → q < r + k → rd q = some w → st.1 ≤ w) ∨
         (st'.1 < st.1 ∧ 0 < k ∧ RmqSpec rd r (r + k - 1) st'.2 st'.1)) := by
  intro k
  induction k with
  | zero =>
    intro r st _
    exact ⟨st, rfl, Or.inl ⟨rfl, fun q w h1 h2 _ => by omega⟩⟩
  | succ k ih =>
    intro r st hrd
    obtain ⟨v, hv⟩ := hrd r (le_refl _) (by omega)
    have hrd' : ∀ q, r + 1 ≤ q → q < r + 1 + k → ∃ w, rd q = some w :=
      fun q h1 h2 => hrd q (by omega) (by omega)
    by_cases hlt : v < st.1
    · by_cases hz : v = 0
      · subst hz
        refine ⟨(0, r), by simp [scan_min, hv, hlt], Or.inr ⟨hlt, by omega, ?_⟩⟩
        refine ⟨le_refl _, by omega, hv, ?_, ?_⟩
        · intro q w _ _ _
          exact Nat.zero_le _
        · intro q w h1 h2 _
          simp only at h2
          omega
      · obtain ⟨st', hst', hcase⟩ := ih (r + 1) (v, r) hrd'
        refine ⟨st', by simp [scan_min, hv, hlt, hz, hst'], Or.inr ?_⟩
        rcases hcase with ⟨heq, hall⟩ | ⟨hlt', hk, h1, h2, h3, h4, h5⟩
        · subst heq
          refine ⟨hlt, by omega, le_refl _, by omega, hv, ?_, ?_⟩
          · intro q w h1 h2 hq
            by_cases hqr : q = r
            · subst hqr
              rw [hv] at hq
              cases hq
              exact le_refl _
            · exact hall q w (by omega) (by omega) hq
          · intro q w h1 h2 _
            simp only at h2
            omega
        · simp only at hlt'
          refine ⟨by omega, by omega, by omega, by omega, h3, ?_, ?_⟩
          · intro q w h6 h7 hq
            by_cases hqr : q = r
            · subst hqr
              rw [hv] at hq
              cases hq
              omega
            · exact h4 q w (by omega) (by omega) hq
          · intro q w h6 h7 hq
            by_cases hqr : q = r
            · subst hqr
              rw [hv] at hq
              cases hq
              omega
            · exact h5 q w (by omega) h7 hq
    · obtain ⟨st', hst', hcase⟩ := ih (r + 1) st hrd'
      refine ⟨st', by simp [scan_min, hv, hlt, hst'], ?_⟩
      rcases hcase with ⟨heq, hall⟩ | ⟨hlt', hk, h1, h2, h3, h4, h5⟩
      · left
        refine ⟨heq, ?_⟩
        intro q w h1 h2 hq
        by_cases hqr : q = r
        · subst hqr
          rw [hv] at hq
          cases hq
          omega
        · exact hall q w (by omega) (by omega) hq
      · right
        refine ⟨hlt', by omega, by omega, by omega, h3, ?_, ?_⟩
        · intro q w h6 h7 hq
          by_cases hqr : q = r
          · subst hqr
            rw [hv] at hq
            cases hq
            omega
          · exact h4 q w (by omega) (by omega) hq
        · intro q w h6 h7 hq
          by_cases hqr : q = r
          · subst hqr
            rw [hv] at hq
            cases hq
            omega
          · exact h5 q w (by omega) h7 hq

/-- A range minimum stays the answer when the range is extended to the right by entries
that are not smaller. -/
theorem RmqSpec.extend_ge {rd : Nat → Option Nat} {i t j p v : Nat} (h : RmqSpec rd i t p v)
    (htj : t ≤ j) (hge : ∀ q w, t < q → q ≤ j → rd q = some w → v ≤ w) : RmqSpec rd i j p v := by
  obtain ⟨h1, h2, h3, h4, h5⟩ := h
  refine ⟨h1, by omega, h3, ?_, h5⟩
  intro q w hq1 hq2 hq
  by_cases hqt : q ≤ t
  · exact h4 q w hq1 hqt hq
  · exact hge q w (by omega) hq2 hq

/-- A strictly smaller minimum of the adjacent range to the right takes over. -/
theorem RmqSpec.extend_lt {rd : Nat → Option Nat} {i t j p v p' v' : Nat}
    (h : RmqSpec rd i t p v) (h' : RmqSpec rd (t + 1) j p' v') (hlt : v' < v) :
    RmqSpec rd i j p' v' := by
  obtain ⟨h1, h2, h3, h4, h5⟩ := h
  obtain ⟨g1, g2, g3, g4, g5⟩ := h'
  refine ⟨by omega, g2, g3, ?_, ?_⟩
  · intro q w hq1 hq2 hq
    by_cases hqt : q ≤ t
    · have := h4 q w hq1 hqt hq
      omega
    · exact g4 q w (by omega) hq2 hq
  · intro q w hq1 hq2 hq
    by_cases hqt : q ≤ t
    · have := h4 q w hq1 hqt hq
      omega
    · exact g5 q w (by omega) hq2 hq

/-- A minimum of value `0` found in a prefix of the range answers the whole range. -/
theorem RmqSpec.of_zero {rd : Nat → Option Nat} {i t j p : Nat} (h : RmqSpec rd i t p 0)
    (htj : t ≤ j) : RmqSpec rd i j p 0 :=
  h.extend_ge htj (fun _ _ _ _ _ => Nat.zero_le _)

/-- The summary of block `k` answers every sub-range of the block that contains the
recorded position. -/
theorem IsSummary.block_rmq {B nA nM : Nat} {rdA rdM rdP : Nat → Option Nat}
    (hS : IsSummary B rdA nA rdM rdP nM) {k m p a c : Nat} (hm : rdM k = some m)
    (hp : rdP k = some p) (hk : k < nM) (ha : k * B ≤ a) (hc : c < (k + 1) * B)
    (hap : a ≤ k * B + p) (hpc : k * B + p ≤ c) : RmqSpec rdA a c (k * B + p) m := by
  obtain ⟨m', p', hm', hp', _, _, hAm, hmin, hleft⟩ := hS.block k hk
  rw [hm] at hm'
  rw [hp] at hp'
  cases hm'
  cases hp'
  exact ⟨hap, hpc, hAm, fun q w h1 h2 hq => hmin q w (by omega) (by omega) hq,
    fun q w h1 h2 hq => hleft q w (by omega) h2 hq⟩

/-- All entries of block `k` are at least the recorded minimum. -/
theorem IsSummary.block_ge {B nA nM : Nat} {rdA rdM rdP : Nat → Option Nat}
    (hS : IsSummary B rdA nA rdM rdP nM) {k m q w : Nat} (hm : rdM k = some m)
    (hk : k < nM) (h1 : k * B ≤ q) (h2 : q < (k + 1) * B) (hq : rdA q = some w) : m ≤ w := by
  obtain ⟨m', p', hm', _, _, _, _, hmin, _⟩ := hS.block k hk
  rw [hm] at hm'
  cases hm'
  exact hmin q w h1 h2 hq

/-- The leftmost minimum over a run of whole blocks lies in the leftmost block of minimal
summary, at the position recorded for that block. -/
theorem IsSummary.blocks_rmq {B nA nM : Nat} {rdA rdM rdP : Nat → Option Nat}
    (hS : IsSummary B rdA nA rdM rdP nM) (hB : 0 < B) {l r blk aux p : Nat}
    (h : RmqSpec rdM l r blk aux) (hr : r < nM) (hp : rdP blk = some p) :
    RmqSpec rdA (l * B) ((r + 1) * B - 1) (blk * B + p) aux := by
  obtain ⟨h1, h2, h3, h4, h5⟩ := h
  obtain ⟨m', p', hm', hp', hpB, _, hAm, hmin, hleft⟩ := hS.block blk (by omega)
  rw [h3] at hm'
  rw [hp] at hp'
  cases hm'
  cases hp'
  have e1 : l * B ≤ blk * B := Nat.mul_le_mul_right B h1
  have e2 : (blk + 1) * B ≤ (r + 1) * B := Nat.mul_le_mul_right B (by omega)
  have e3 : (blk + 1) * B = blk * B + B := by rw [Nat.add_mul]; simp
  refine ⟨by omega, by omega, hAm, ?_, ?_⟩
  · intro q w hq1 hq2 hq
    obtain ⟨hb1, hb2⟩ := block_range B q hB
    have hk1 : l ≤ q / B := (Nat.le_div_iff_mul_le hB).2 hq1
    have hk2 : q / B < r + 1 := by
      rw [Nat.div_lt_iff_lt_mul hB]
      omega
    obtain ⟨mk, pk, hmk, _, _, _, _, hmink, _⟩ := hS.block (q / B) (by omega)
    have := h4 (q / B) mk hk1 (by omega) hmk
    have := hmink q w hb1 hb2 hq
    omega
  · intro q w hq1 hq2 hq
    obtain ⟨hb1, hb2⟩ := block_range B q hB
    have hk1 : l ≤ q / B := (Nat.le_div_iff_mul_le hB).2 hq1
    have hk2 : q / B < blk + 1 := by
      rw [Nat.div_lt_iff_lt_mul hB]
      omega
    by_cases hkb : q / B = blk
    · exact hleft q w (by rw [← hkb]; exact hb1) hq2 hq
    · obtain ⟨mk, pk, hmk, _, _, _, _, hmink, _⟩ := hS.block (q / B) (by omega)
      have := h5 (q / B) mk hk1 (by omega) hmk
      have := hmink q w hb1 hb2 hq
      omega

section
variable {B nA nM n : Nat} {rdA rdM rdP : Nat → Option Nat} {rdMv : Nat → Nat → Option Nat}

theorem rmq_left_spec (hB : 0 < B) (hS : IsSummary B rdA nA rdM rdP nM) (hA : IsArr rdA nA n)
    (hMv : ∀ k p, rdP k = some p → rdMv k (k * B + p) = rdM k) {i j p : Nat} (hij : i ≤ j)
    (hj : j < nA) (hp : rdP (i / B) = some p) :
    ∃ mr mp, rmq_left B n rdA rdMv i j p = some (mr, mp) ∧
      RmqSpec rdA i (min ((i / B + 1) * B - 1) j) mp mr := by
  obtain ⟨hL1, hL2⟩ := block_range B i hB
  have hLlt : i / B < nM := block_lt B nA nM i hB hS.size (by omega)
  have hs : sub64 ((i / B + 1) * B) 1 = (i / B + 1) * B - 1 := sub64_one _ (by omega)
  obtain ⟨m, p', hm, hp', _, _, _, _, _⟩ := hS.block (i / B) hLlt
  rw [hp] at hp'
  cases hp'
  unfold rmq_left
  rw [hs]
  by_cases hc : i ≤ i / B * B + p ∧ i / B * B + p ≤ min ((i / B + 1) * B - 1) j
  · rw [if_pos hc, hMv _ _ hp, hm]
    refine ⟨m, i / B * B + p, rfl, ?_⟩
    exact hS.block_rmq hm hp hLlt hL1 (by omega) hc.1 hc.2
  · rw [if_neg hc]
    have hiU : i ≤ min ((i / B + 1) * B - 1) j := by omega
    obtain ⟨st', hst', hcase⟩ := scan_min_spec rdA (min ((i / B + 1) * B - 1) j + 1 - i) i (n, 0)
      (fun q h1 h2 => by
        obtain ⟨w, hw, _⟩ := hA q (by omega)
        exact ⟨w, hw⟩)
    rcases hcase with ⟨_, hall⟩ | ⟨_, _, hspec⟩
    · exfalso
      obtain ⟨w, hw, hwn⟩ := hA i (by omega)
      have := hall i w (le_refl _) (by omega) hw
      simp only at this
      omega
    · refine ⟨st'.1, st'.2, hst', ?_⟩
      have e : i + (min ((i / B + 1) * B - 1) j + 1 - i) - 1 = min ((i / B + 1) * B - 1) j := by
        omega
      rw [e] at hspec
      exact hspec

theorem rmq_mid_spec (hB : 0 < B) (hS : IsSummary B rdA nA rdM rdP nM)
    (up : Nat → Nat → Option (Nat × Nat)) {i j mr mp : Nat} (hj : j < nA)
    (hlt : (i / B + 1) * B - 1 < j)
    (hleft : RmqSpec rdA i ((i / B + 1) * B - 1) mp mr)
    (hup : 2 ≤ nM → ∀ i' j', i' ≤ j' → j' < nM →
      ∃ p v, up i' j' = some (p, v) ∧ RmqSpec rdM i' j' p v) :
    ∃ mr' mp' fl, rmq_mid B rdP up i j (mr, mp) = some ((mr', mp'), fl) ∧
      RmqSpec rdA i (j / B * B - 1) mp' mr' ∧ (fl = true → mr' = 0) := by
  obtain ⟨hL1, hL2⟩ := block_range B i hB
  obtain ⟨hR1, hR2⟩ := block_range B j hB
  have hRlt : j / B < nM := block_lt B nA nM j hB hS.size hj
  have hLR : i / B + 1 ≤ j / B := by
    rw [Nat.le_div_iff_mul_le hB]
    omega
  have hLn : 0 ≤ i / B := Nat.zero_le _
  have hRn : 0 ≤ j / B := Nat.zero_le _
  unfold rmq_mid
  by_cases hc : i / B + 1 < j / B
  · rw [if_pos hc, sub64_one _ (by omega)]
    obtain ⟨blk, aux, hr, hspec⟩ := hup (by omega) (i / B + 1) (j / B - 1) (by omega) (by omega)
    rw [hr]
    obtain ⟨_, q, _, hq, _⟩ := hS.block blk (by have := hspec.2.1; omega)
    have hblocks := hS.blocks_rmq hB hspec (by omega) hq
    have e1 : j / B - 1 + 1 = j / B := by omega
    rw [e1] at hblocks
    have e2 : (i / B + 1) * B - 1 + 1 = (i / B + 1) * B := by omega
    have hle : (i / B + 1) * B ≤ j / B * B := Nat.mul_le_mul_right B hLR
    by_cases ha : aux < mr
    · refine ⟨aux, blk * B + q, decide (aux = 0), by simp [ha, hq], ?_, by simp⟩
      exact hleft.extend_lt (by rw [e2]; exact hblocks) ha
    · refine ⟨mr, mp, false, by simp [ha], ?_, by simp⟩
      refine hleft.extend_ge (by omega) ?_
      intro x w h1 h2 hx
      have := hblocks.2.2.2.1 x w (by omega) h2 hx
      omega
  · rw [if_neg hc]
    have e : i / B + 1 = j / B := by omega
    refine ⟨mr, mp, false, rfl, ?_, by simp⟩
    rw [← e]
    exact hleft

theorem rmq_right_spec (hB : 0 < B) (hS : IsSummary B rdA nA rdM rdP nM) (hA : IsArr rdA nA n)
    (hMv : ∀ k p, rdP k = some p → rdMv k (k * B + p) = rdM k) {i j mr mp : Nat}
    (hj : j < nA) (hi : i < j / B * B)
    (hcur : RmqSpec rdA i (j / B * B - 1) mp mr) :
    ∃ p v, rmq_right B rdA rdMv rdP j (mr, mp) = some (p, v) ∧ RmqSpec rdA i j p v := by
  obtain ⟨hR1, hR2⟩ := block_range B j hB
  have hRlt : j / B < nM := block_lt B nA nM j hB hS.size hj
  obtain ⟨m, q, hm, hq, hqB, _, hAm, hmin, hleftm⟩ := hS.block (j / B) hRlt
  unfold rmq_right
  rw [hq, Option.some_bind, hMv _ _ hq, hm, Option.some_bind]
  have e : j / B * B - 1 + 1 = j / B * B := by omega
  by_cases hc : m < mr
  · simp only [hc, if_true]
    by_cases hin : j / B * B + q ≤ j
    · rw [if_pos hin]
      refine ⟨_, _, rfl, ?_⟩
      refine hcur.extend_lt ?_ hc
      rw [e]
      exact hS.block_rmq hm hq hRlt (le_refl _) hR2 (by omega) hin
    · rw [if_neg hin]
      obtain ⟨st', hst', hcase⟩ := scan_min_spec rdA (j + 1 - j / B * B) (j / B * B) (mr, mp)
        (fun x h1 h2 => by
          obtain ⟨w, hw, _⟩ := hA x (by omega)
          exact ⟨w, hw⟩)
      rw [hst']
      rcases hcase with ⟨heq, hall⟩ | ⟨hlt', _, hspec⟩
      · subst heq
        refine ⟨mp, mr, rfl, ?_⟩
        refine hcur.extend_ge (by omega) ?_
        intro x w h1 h2 hx
        exact hall x w (by omega) (by omega) hx
      · refine ⟨st'.2, st'.1, rfl, ?_⟩
        refine hcur.extend_lt ?_ hlt'
        have e' : j / B * B + (j + 1 - j / B * B) - 1 = j := by omega
        rw [e'] at hspec
        rw [e]
        exact hspec
  · simp only [hc, if_false]
    refine ⟨mp, mr, rfl, ?_⟩
    refine hcur.extend_ge (by omega) ?_
    intro x w h1 h2 hx
    have := hmin x w (by omega) (by omega) hx
    omega

theorem rmq_body_spec (hB : 0 < B) (hS : IsSummary B rdA nA rdM rdP nM) (hA : IsArr rdA nA n)
    (hMv : ∀ k p, rdP k = some p → rdMv k (k * B + p) = rdM k)
    (up : Nat → Nat → Option (Nat × Nat)) {i j : Nat} (hij : i ≤ j) (hj : j < nA)
    (hup : 2 ≤ nM → ∀ i' j', i' ≤ j' → j' < nM →
      ∃ p v, up i' j' = some (p, v) ∧ RmqSpec rdM i' j' p v) :
    ∃ p v, rmq_body B n rdA rdMv rdP up i j = some (p, v) ∧ RmqSpec rdA i j p v := by
  obtain ⟨hL1, hL2⟩ := block_range B i hB
  have hLlt : i / B < nM := block_lt B nA nM i hB hS.size (by omega)
  have hs : sub64 ((i / B + 1) * B) 1 = (i / B + 1) * B - 1 := sub64_one _ (by omega)
  obtain ⟨_, p, _, hp, _⟩ := hS.block (i / B) hLlt
  obtain ⟨mr, mp, hl, hleft⟩ := rmq_left_spec hB hS hA hMv hij hj hp
  unfold rmq_body
  rw [hp, Option.some_bind, hl, Option.some_bind, hs]
  by_cases hc : min ((i / B + 1) * B - 1) j = j ∨ mr = 0
  · rw [if_pos hc]
    refine ⟨mp, mr, rfl, ?_⟩
    rcases hc with hc | hc
    · rw [hc] at hleft
      exact hleft
    · subst hc
      exact hleft.of_zero (by omega)
  · rw [if_neg hc]
    have hU : min ((i / B + 1) * B - 1) j = (i / B + 1) * B - 1 := by omega
    rw [hU] at hleft
    have hlt : (i / B + 1) * B - 1 < j := by omega
    obtain ⟨mr', mp', fl, hmid, hcur, hfl⟩ := rmq_mid_spec hB hS up hj hlt hleft hup
    rw [hmid, Option.some_bind]
    obtain ⟨hR1, hR2⟩ := block_range B j hB
    have hLR : i / B + 1 ≤ j / B := by
      rw [Nat.le_div_iff_mul_le hB]
      omega
    have hle : (i / B + 1) * B ≤ j / B * B := Nat.mul_le_mul_right B hLR
    cases fl with
    | true =>
      have h0 := hfl rfl
      subst h0
      exact ⟨mp', 0, rfl, hcur.of_zero (by omega)⟩
    | false =>
      exact rmq_right_spec hB hS hA hMv hj (by omega) hcur

end

theorem cn_find_psv_block_succ (s : npr_support_cn) (fuel d b level lv : Nat) :
    s.find_psv_block (fuel + 1) d b level lv =
      psv_body s.block_size (level_size s.min_array level) (level_get s.min_array level)
        (level_get s.min_array (level + 1)) (level_get s.pos_array (level + 1))
        (level_size s.min_array (level + 1))
        (fun b' lv' => s.find_psv_block fuel d b' (level + 1) lv') d b lv := rfl

theorem cn_bwd_psv_eq (s : npr_support_cn) (i d : Nat) (hd : d ≠ 0) :
    s.bwd_psv i d =
      psv_body s.block_size (some s.m_lcp.length) (fun j => s.m_lcp[j]?)
        (level_get s.min_array 0) (level_get s.pos_array 0) (level_size s.min_array 0)
        (fun b' lv' => s.find_psv_block s.min_array.length d b' 0 lv') d i s.m_lcp.length := by
  unfold npr_support_cn.bwd_psv
  rw [if_neg hd]
  rfl

theorem cn_find_rmq_block_succ (s : npr_support_cn) (fuel i j level : Nat) :
    s.find_rmq_block (fuel + 1) i j level =
      rmq_body s.block_size s.m_lcp.length (level_get s.min_array level)
        (fun k _ => level_get s.min_array (level + 1) k) (level_get s.pos_array (level + 1))
        (fun i' j' => s.find_rmq_block fuel i' j' (level + 1)) i j := rfl

theorem cn_rmq_eq (s : npr_support_cn) (i j : Nat) :
    s.rmq i j =
      rmq_body s.block_size s.m_lcp.length (fun r => s.m_lcp[r]?)
        (fun k _ => level_get s.min_array 0 k) (level_get s.pos_array 0)
        (fun i' j' => s.find_rmq_block s.min_array.length i' j' 0) i j := rfl

theorem cnr_find_psv_block_2_succ (s : npr_support_cnr) (fuel d b level lv : Nat) :
    s.find_psv_block_2 (fuel + 1) d b level lv =
      psv_body s.block_size (level_size s.pos_array level)
        (level_get s.min_array (sub64 level 1))
        (level_get s.min_array level) (level_get s.pos_array (level + 1))
        (level_size s.min_array level)
        (fun b' lv' => s.find_psv_block_2 fuel d b' (level + 1) lv') d b lv := rfl

theorem cnr_find_psv_block_eq (s : npr_support_cnr) (d b lv : Nat) :
    s.find_psv_block d b lv =
      psv_body s.sbs (level_size s.pos_array 0) s.level0_min
        (level_get s.min_array 0) (level_get s.pos_array 1)
        (level_size s.pos_array 1)
        (fun b' lv' => s.find_psv_block_2 s.pos_array.length d b' 1 lv') d b lv := rfl

theorem cnr_bwd_psv_eq (s : npr_support_cnr) (i d : Nat) (hd : d ≠ 0) :
    s.bwd_psv i d =
      psv_body s.sbs (some s.m_lcp.length) (fun j => s.m_lcp[j]?)
        (fun block => (level_get s.pos_array 0 block).bind fun p => s.m_lcp[block * s.sbs + p]?)
        (level_get s.pos_array 0) (level_size s.pos_array 0)
        (fun b' lv' => s.find_psv_block d b' lv') d i s.m_lcp.length := by
  unfold npr_support_cnr.bwd_psv
  rw [if_neg hd]
  rfl

theorem cnr_find_rmq_block_2_succ (s : npr_support_cnr) (fuel i j level : Nat) :
    s.find_rmq_block_2 (fuel + 1) i j level =
      rmq_body s.block_size s.m_lcp.length (level_get s.min_array (sub64 level 1))
        (fun k _ => level_get s.min_array level k) (level_get s.pos_array (level + 1))
        (fun i' j' => s.find_rmq_block_2 fuel i' j' (level + 1)) i j := rfl

theorem cnr_find_rmq_block_eq (s : npr_support_cnr) (i j : Nat) :
    s.find_rmq_block i j =
      rmq_body s.sbs s.m_lcp.length s.level0_min
        (fun k _ => level_get s.min_array 0 k) (level_get s.pos_array 1)
        (fun i' j' => s.find_rmq_block_2 s.pos_array.length i' j' 1) i j := rfl

theorem cnr_rmq_eq (s : npr_support_cnr) (i j : Nat) :
    s.rmq i j =
      rmq_body s.sbs s.m_lcp.length (fun r => s.m_lcp[r]?)
        (fun _ pos => s.m_lcp[pos]?) (level_get s.pos_array 0)
        (fun i' j' => s.find_rmq_block i' j') i j := rfl

theorem bits_hi_loop_spec : ∀ fuel x, x ≤ fuel → x < 2 ^ (bits_hi_loop fuel x + 1) := by
  intro fuel
  induction fuel with
  | zero =>
    intro x hx
    have : x = 0 := by omega
    subst this
    simp [bits_hi_loop]
  | succ fuel ih =>
    intro x hx
    unfold bits_hi_loop
    by_cases h2 : x < 2
    · rw [if_pos h2]
      simpa using h2
    · rw [if_neg h2]
      have h := ih (x / 2) (by omega)
      rw [Nat.pow_succ]
      omega

theorem lt_two_pow_bits_hi (x : Nat) : x < 2 ^ (bits_hi x + 1) :=
  bits_hi_loop_spec x x (le_refl _)

theorem block_scan_spec (rd : Nat → Option Nat) (st : Nat) :
    ∀ c j mn tp, (∀ q, j ≤ q → q < j + c → ∃ w, rd (st + q) = some w) →
      ∃ mn' tp', block_scan rd st c j mn tp = some (mn', tp') ∧
        ((mn' = mn ∧ tp' = tp ∧ ∀ q w, j ≤ q → q < j + c → rd (st + q) = some w → mn ≤ w) ∨
         (mn' < mn ∧ j ≤ tp' ∧ tp' < j + c ∧ rd (st + tp') = some mn' ∧
           (∀ q w, j ≤ q → q < j + c → rd (st + q) = some w → mn' ≤ w) ∧
           (∀ q w, j ≤ q → q < tp' → rd (st + q) = some w → mn' < w))) := by
  intro c
  induction c with
  | zero =>
    intro j mn tp _
    exact ⟨mn, tp, rfl, Or.inl ⟨rfl, rfl, fun q w h1 h2 _ => by omega⟩⟩
  | succ c ih =>
    intro j mn tp hrd
    obtain ⟨v, hv⟩ := hrd j (le_refl _) (by omega)
    have hrd' : ∀ q, j + 1 ≤ q → q < j + 1 + c → ∃ w, rd (st + q) = some w :=
      fun q h1 h2 => hrd q (by omega) (by omega)
    have hj : ∀ q w, rd (st + q) = some w → q = j → w = v := by
      intro q w hq hqj
      subst hqj
      rw [hv] at hq
      cases hq
      rfl
    by_cases hlt : v < mn
    · obtain ⟨mn', tp', hr, hcase⟩ := ih (j + 1) v j hrd'
      refine ⟨mn', tp', by simp [block_scan, hv, hlt, hr], Or.inr ?_⟩
      rcases hcase with ⟨h1, h2, hall⟩ | ⟨h1, h2, h3, h4, h5, h6⟩
      · refine ⟨by omega, by omega, by omega, by rw [h2, h1]; exact hv, ?_, ?_⟩
        · intro q w h7 h8 hq
          by_cases hqj : q = j
          · have := hj q w hq hqj
            omega
          · have := hall q w (by omega) (by omega) hq
            omega
        · intro q w h7 h8 _
          omega
      · refine ⟨by omega, by omega, by omega, h4, ?_, ?_⟩
        · intro q w h7 h8 hq
          by_cases hqj : q = j
          · have := hj q w hq hqj
            omega
          · exact h5 q w (by omega) (by omega) hq
        · intro q w h7 h8 hq
          by_cases hqj : q = j
          · have := hj q w hq hqj
            omega
          · exact h6 q w (by omega) h8 hq
    · obtain ⟨mn', tp', hr, hcase⟩ := ih (j + 1) mn tp hrd'
      refine ⟨mn', tp', by simp [block_scan, hv, hlt, hr], ?_⟩
      rcases hcase with ⟨h1, h2, hall⟩ | ⟨h1, h2, h3, h4, h5, h6⟩
      · left
        refine ⟨h1, h2, ?_⟩
        intro q w h7 h8 hq
        by_cases hqj : q = j
        · have := hj q w hq hqj
          omega
        · exact hall q w (by omega) (by omega) hq
      · right
        refine ⟨h1, by omega, by omega, h4, ?_, ?_⟩
        · intro q w h7 h8 hq
          by_cases hqj : q = j
          · have := hj q w hq hqj
            omega
          · exact h5 q w (by omega) (by omega) hq
        · intro q w h7 h8 hq
          by_cases hqj : q = j
          · have := hj q w hq hqj
            omega
          · exact h6 q w (by omega) h8 hq

theorem level_loop_spec (rd : Nat → Option Nat) (B n last bm bp : Nat) (hB : 0 < B)
    (hA : IsArr rd last n) (hnone : ∀ j, last ≤ j → rd j = none)
    (hbm : n < 2 ^ bm) (hbp : B < 2 ^ bp) :
    ∀ c i tp, (∀ k, i ≤ k → k < i + c → k * B < last) →
      ∃ mins poss tpf, level_loop rd B n last bm bp c i tp = some (mins, poss, tpf) ∧
        mins.length = c ∧ poss.length = c ∧
        ∀ k, k < c → ∃ m p, mins[k]? = some m ∧ poss[k]? = some p ∧ m < n ∧
          BlockOK B rd last (i + k) m p := by
  intro c
  induction c with
  | zero =>
    intro i tp _
    exact ⟨[], [], tp, rfl, rfl, rfl, fun k hk => by omega⟩
  | succ c ih =>
    intro i tp hblk
    have hi : i * B < last := hblk i (le_refl _) (by omega)
    have hmul : (i + 1) * B = i * B + B := by rw [Nat.add_mul]; simp
    -- the block scan
    have hbs : ∃ mn' tp', block_scan rd (i * B)
        (if i * B + B ≥ last then last - i * B else B) 0 n tp = some (mn', tp') ∧
        mn' < n ∧ BlockOK B rd last i mn' tp' := by
      by_cases hc : i * B + B ≥ last
      · rw [if_pos hc]
        obtain ⟨mn', tp', hr, hcase⟩ := block_scan_spec rd (i * B) (last - i * B) 0 n tp
          (fun q _ h2 => by
            obtain ⟨w, hw, _⟩ := hA (i * B + q) (by omega)
            exact ⟨w, hw⟩)
        refine ⟨mn', tp', hr, ?_⟩
        rcases hcase with ⟨_, _, hall⟩ | ⟨h1, _, h3, h4, h5, h6⟩
        · exfalso
          obtain ⟨w, hw, hwn⟩ := hA (i * B + 0) (by omega)
          have := hall 0 w (le_refl _) (by omega) hw
          omega
        · refine ⟨h1, by omega, by omega, h4, ?_, ?_⟩
          · intro j w hj1 hj2 hj
            by_cases hjl : j < last
            · have := h5 (j - i * B) w (by omega) (by omega)
                (by rw [show i * B + (j - i * B) = j by omega]; exact hj)
              exact this
            · rw [hnone j (by omega)] at hj
              cases hj
          · intro j w hj1 hj2 hj
            exact h6 (j - i * B) w (by omega) (by omega)
              (by rw [show i * B + (j - i * B) = j by omega]; exact hj)
      · rw [if_neg hc]
        obtain ⟨mn', tp', hr, hcase⟩ := block_scan_spec rd (i * B) B 0 n tp
          (fun q _ h2 => by
            obtain ⟨w, hw, _⟩ := hA (i * B + q) (by omega)
            exact ⟨w, hw⟩)
        refine ⟨mn', tp', hr, ?_⟩
        rcases hcase with ⟨_, _, hall⟩ | ⟨h1, _, h3, h4, h5, h6⟩
        · exfalso
          obtain ⟨w, hw, hwn⟩ := hA (i * B + 0) (by omega)
          have := hall 0 w (le_refl _) (by omega) hw
          omega
        · refine ⟨h1, by omega, by omega, h4, ?_, ?_⟩
          · intro j w hj1 hj2 hj
            exact h5 (j - i * B) w (by omega) (by omega)
              (by rw [show i * B + (j - i * B) = j by omega]; exact hj)
          · intro j w hj1 hj2 hj
            exact h6 (j - i * B) w (by omega) (by omega)
              (by rw [show i * B + (j - i * B) = j by omega]; exact hj)
    obtain ⟨mn', tp', hr, hmn, hok⟩ := hbs
    obtain ⟨mins, poss, tpf, hrest, hl1, hl2, hall⟩ := ih (i + 1) tp'
      (fun k h1 h2 => hblk k (by omega) (by omega))
    have e1 : mn' % 2 ^ bm = mn' := Nat.mod_eq_of_lt (by omega)
    have e2 : tp' % 2 ^ bp = tp' := Nat.mod_eq_of_lt (by have := hok.1; omega)
    refine ⟨mn' :: mins, tp' :: poss, tpf, ?_, by simp [hl1], by simp [hl2], ?_⟩
    · simp only [level_loop, hr, Option.some_bind, hrest, Option.map_some', e1, e2]
    · intro k hk
      cases k with
      | zero => exact ⟨mn', tp', by simp, by simp, hmn, hok⟩
      | succ k =>
        obtain ⟨m, p, h1, h2, h3, h4⟩ := hall k (by omega)
        refine ⟨m, p, by simpa using h1, by simpa using h2, h3, ?_⟩
        rw [show i + (k + 1) = i + 1 + k by omega]
        exact h4

/-- One level built by `level_loop` over the whole array summarises it. -/
theorem level_loop_summary (rd : Nat → Option Nat) (B n last bm bp tp : Nat) (hB : 0 < B)
    (hA : IsArr rd last n) (hnone : ∀ j, last ≤ j → rd j = none)
    (hbm : n < 2 ^ bm) (hbp : B < 2 ^ bp) :
    ∃ mins poss tpf, level_loop rd B n last bm bp ((last + B - 1) / B) 0 tp =
        some (mins, poss, tpf) ∧
      mins.length = (last + B - 1) / B ∧ poss.length = (last + B - 1) / B ∧
      IsSummary B rd last (fun j => mins[j]?) (fun j => poss[j]?) mins.length ∧
      IsArr (fun j => mins[j]?) mins.length n := by
  obtain ⟨mins, poss, tpf, hr, hl1, hl2, hall⟩ :=
    level_loop_spec rd B n last bm bp hB hA hnone hbm hbp ((last + B - 1) / B) 0 tp
      (fun k _ hk => by
        have h1 : (k + 1) * B ≤ (last + B - 1) / B * B := Nat.mul_le_mul_right B (by omega)
        have h2 := Nat.div_mul_le_self (last + B - 1) B
        have h3 : (k + 1) * B = k * B + B := by rw [Nat.add_mul]; simp
        omega)
  refine ⟨mins, poss, tpf, hr, hl1, hl2, ⟨hl1, ?_⟩, ?_⟩
  · intro k hk
    obtain ⟨m, p, h1, h2, _, h4, h5, h6, h7, h8⟩ := hall k (by omega)
    simp only [Nat.zero_add] at h4 h5 h6 h7 h8
    exact ⟨m, p, h1, h2, h4, h5, h6, h7, h8⟩
  · intro k hk
    obtain ⟨m, p, h1, _, h3, _⟩ := hall k (by omega)
    exact ⟨m, h1, h3⟩

theorem level_get_cons_succ (m : int_vector) (M : List int_vector) (k : Nat) :
    level_get (m :: M) (k + 1) = level_get M k := by
  funext j
  simp [level_get]

theorem level_get_cons_zero (m : int_vector) (M : List int_vector) :
    level_get (m :: M) 0 = fun j => m.data[j]? := by
  funext j
  simp [level_get]

theorem chainA_cons_succ (prev : List Nat) (m : int_vector) (M : List int_vector) (k : Nat) :
    chainA prev (m :: M) (k + 1) = chainA m.data M k := by
  cases k with
  | zero => exact level_get_cons_zero m M
  | succ k => exact level_get_cons_succ m M k

theorem chainN_cons_succ (n0 : Nat) (m : int_vector) (M : List int_vector) (k : Nat) :
    chainN n0 (m :: M) (k + 1) = chainN m.data.length M k := by
  cases k with
  | zero => simp [chainN, int_vector.size]
  | succ k => simp [chainN]

theorem level_size_chainN (n0 : Nat) (M : List int_vector) (k : Nat) (hk : k < M.length) :
    level_size M k = some (chainN n0 M (k + 1)) := by
  simp [level_size, chainN, List.getElem?_eq_getElem hk]

theorem getElem?_none_of_le (l : List Nat) (j : Nat) (h : l.length ≤ j) : l[j]? = none := by
  simp [h]

theorem other_levels_spec (B n bm bp : Nat) (hB : 0 < B) (hbm : n < 2 ^ bm)
    (hbp : B < 2 ^ bp) :
    ∀ c prev tp, IsArr (fun j => prev[j]?) prev.length n →
      ∃ rest, other_levels B n bm bp c prev tp = some rest ∧ rest.length = c ∧
        ChainOK B n prev (rest.map Prod.fst) (rest.map Prod.snd) := by
  intro c
  induction c with
  | zero =>
    intro prev tp hA
    refine ⟨[], rfl, rfl, ⟨rfl, fun k hk => by simp at hk, ?_, fun k hk => by simp at hk⟩⟩
    intro k hk
    have : k = 0 := by simpa using hk
    subst this
    exact hA
  | succ c ih =>
    intro prev tp hA
    obtain ⟨mins, poss, tpf, hr, hl1, hl2, hS, hA'⟩ :=
      level_loop_summary (fun j => prev[j]?) B n prev.length bm bp tp hB hA
        (fun j hj => getElem?_none_of_le prev j hj) hbm hbp
    obtain ⟨rest, hrest, hlen, hch⟩ := ih mins tpf hA'
    refine ⟨(⟨bm, mins⟩, ⟨bp, poss⟩) :: rest, ?_, by simp [hlen], ?_⟩
    · simp only [other_levels, hr, Option.some_bind, hrest, Option.map_some']
    · simp only [List.map_cons]
      refine ⟨by simp [hch.len], ?_, ?_, ?_⟩
      · intro k hk
        cases k with
        | zero =>
          rw [level_get_cons_zero, level_get_cons_zero]
          simp only [chainN, List.getElem?_cons_zero, Option.map_some', Option.getD_some,
            int_vector.size]
          exact hS
        | succ k =>
          rw [level_get_cons_succ, level_get_cons_succ, chainA_cons_succ, chainN_cons_succ,
            chainN_cons_succ]
          exact hch.summ k (by simpa using hk)
      · intro k hk
        cases k with
        | zero => exact hA
        | succ k =>
          rw [chainA_cons_succ, chainN_cons_succ]
          exact hch.arr k (by simpa using hk)
      · intro k hk
        cases k with
        | zero => simp [level_size, int_vector.size, hl1, hl2]
        | succ k =>
          have := hch.psize k (by simpa using hk)
          simpa [level_size] using this

/-- Sizes of the levels: each level has one entry per block of the level below. -/
theorem ChainOK.size_succ {B n : Nat} {prev : List Nat} {M P : List int_vector}
    (h : ChainOK B n prev M P) {k : Nat} (hk : k < M.length) :
    chainN prev.length M (k + 1) = (chainN prev.length M k + B - 1) / B :=
  (h.summ k hk).size

theorem ceil_div_le_pow (B x m : Nat) (hB : 0 < B) (hx : x ≤ B ^ (m + 1)) :
    (x + B - 1) / B ≤ B ^ m := by
  have h : (x + B - 1) / B < B ^ m + 1 := by
    rw [Nat.div_lt_iff_lt_mul hB]
    have e : (B ^ m + 1) * B = B ^ (m + 1) + B := by
      rw [Nat.add_mul, Nat.pow_succ]
      simp
    omega
  omega

theorem ceil_div_pos (B x : Nat) (hB : 0 < B) (hx : 0 < x) : 0 < (x + B - 1) / B := by
  have : 1 ≤ (x + B - 1) / B := by
    rw [Nat.le_div_iff_mul_le hB]
    omega
  omega

theorem ChainOK.size_bounds {B n : Nat} {prev : List Nat} {M P : List int_vector}
    (h : ChainOK B n prev M P) (hB : 0 < B) (hpos : 0 < prev.length)
    (hpow : prev.length ≤ B ^ M.length) :
    ∀ k, k ≤ M.length → 0 < chainN prev.length M k ∧
      chainN prev.length M k ≤ B ^ (M.length - k) := by
  intro k
  induction k with
  | zero =>
    intro _
    exact ⟨hpos, hpow⟩
  | succ k ih =>
    intro hk
    obtain ⟨h1, h2⟩ := ih (by omega)
    rw [h.size_succ (by omega)]
    refine ⟨ceil_div_pos B _ hB h1, ceil_div_le_pow B _ _ hB ?_⟩
    rw [show M.length - (k + 1) + 1 = M.length - k by omega]
    exact h2

theorem ChainOK.chain_top {B n : Nat} {prev : List Nat} {M P : List int_vector}
    (h : ChainOK B n prev M P) (hB : 0 < B) (hpos : 0 < prev.length)
    (hpow : prev.length ≤ B ^ M.length) : chainN prev.length M M.length = 1 := by
  obtain ⟨h1, h2⟩ := h.size_bounds hB hpos hpow M.length (le_refl _)
  simp at h2
  omega

theorem ChainOK.chain_zero {B n : Nat} {prev : List Nat} {M P : List int_vector}
    (h : ChainOK B n prev M P) (hB : 0 < B) (hpos : 0 < prev.length)
    (hpow : prev.length ≤ B ^ M.length) (h0 : prev[0]? = some 0) :
    ∀ k, k ≤ M.length → chainA prev M k 0 = some 0 := by
  intro k
  induction k with
  | zero =>
    intro _
    exact h0
  | succ k ih =>
    intro hk
    have hz := ih (by omega)
    have hpos' := (h.size_bounds hB hpos hpow (k + 1) hk).1
    obtain ⟨m, p, hm, _, _, _, _, hmin, _⟩ := (h.summ k (by omega)).block 0 hpos'
    have := hmin 0 0 (by simp) (by simpa using hB) hz
    have hm0 : m = 0 := by omega
    subst hm0
    exact hm

/-- Sizes along a chain are the iterates of the rounded-up division by `B`. -/
theorem ChainOK.size_iterate {B n : Nat} {prev : List Nat} {M P : List int_vector}
    (h : ChainOK B n prev M P) :
    ∀ k, k ≤ M.length → chainN prev.length M k = (fun x => (x + B - 1) / B)^[k] prev.length := by
  intro k
  induction k with
  | zero =>
    intro _
    rfl
  | succ k ih =>
    intro hk
    rw [h.size_succ (by omega), ih (by omega), Function.iterate_succ_apply']

theorem cn_construct_eq (B r : Nat) (lcp : List Nat) :
    npr_support_cn.construct B (r + 1) lcp =
      (other_levels B lcp.length (bits_hi lcp.length + 1) (bits_hi B + 1) (r + 1) lcp 0).map
        fun rest => { block_size := B, m_lcp := lcp, min_array := rest.map Prod.fst,
                      pos_array := rest.map Prod.snd } := by
  simp only [npr_support_cn.construct, other_levels]
  cases level_loop (fun j => lcp[j]?) B lcp.length lcp.length (bits_hi lcp.length + 1)
      (bits_hi B + 1) ((lcp.length + B - 1) / B) 0 0 with
  | none => rfl
  | some l0 =>
    simp only [Option.some_bind]
    cases other_levels B lcp.length (bits_hi lcp.length + 1) (bits_hi B + 1) r l0.1 l0.2.2 with
    | none => rfl
    | some rest => rfl

theorem cn_construct_spec (B r : Nat) (lcp : List Nat) (hB : 0 < B)
    (hval : ∀ (j v : Nat), lcp[j]? = some v → v < lcp.length) :
    ∃ s, npr_support_cn.construct B (r + 1) lcp = some s ∧ s.block_size = B ∧ s.m_lcp = lcp ∧
      s.min_array.length = r + 1 ∧ ChainOK B lcp.length lcp s.min_array s.pos_array := by
  have hA : IsArr (fun j => lcp[j]?) lcp.length lcp.length := by
    intro j hj
    exact ⟨lcp[j], by simp [List.getElem?_eq_getElem hj],
      hval j _ (List.getElem?_eq_getElem hj)⟩
  obtain ⟨rest, hr, hlen, hch⟩ := other_levels_spec B lcp.length (bits_hi lcp.length + 1)
    (bits_hi B + 1) hB (lt_two_pow_bits_hi _) (lt_two_pow_bits_hi _) (r + 1) lcp 0 hA
  refine ⟨_, by rw [cn_construct_eq, hr]; rfl, rfl, rfl, by simp [hlen], hch⟩

theorem cn_construct_inv (B r : Nat) (lcp : List Nat) (hB : 0 < B)
    (hval : ∀ (j v : Nat), lcp[j]? = some v → v < lcp.length) (h0 : lcp[0]? = some 0)
    (hpow : lcp.length ≤ B ^ (r + 1)) :
    ∃ s, npr_support_cn.construct B (r + 1) lcp = some s ∧ s.m_lcp = lcp ∧
      s.block_size = B ∧ CnInv s := by
  obtain ⟨s, hs, h1, h2, h3, h4⟩ := cn_construct_spec B r lcp hB hval
  refine ⟨s, hs, h2, h1, ?_⟩
  have hpos : 0 < lcp.length := by
    rcases Nat.eq_zero_or_pos lcp.length with h | h
    · rw [List.length_eq_zero] at h
      subst h
      simp at h0
    · exact h
  exact ⟨by rw [h1]; exact hB, by rw [h1, h2]; exact h4, by rw [h2]; exact hpos,
    by rw [h1, h2, h3]; exact hpow, by rw [h2]; exact h0, by omega⟩

section
variable {s : npr_support_cn}

theorem CnInv.inv_top (hI : CnInv s) : chainN s.m_lcp.length s.min_array s.min_array.length = 1 :=
  hI.chain.chain_top hI.hB hI.pos hI.pow

theorem CnInv.zeroA (hI : CnInv s) (k : Nat) (hk : k ≤ s.min_array.length) :
    chainA s.m_lcp s.min_array k 0 = some 0 :=
  hI.chain.chain_zero hI.hB hI.pos hI.pow hI.zero k hk

theorem CnInv.readable (hI : CnInv s) (k : Nat) (hk : k ≤ s.min_array.length) :
    ∀ j, j < chainN s.m_lcp.length s.min_array k →
      ∃ v, chainA s.m_lcp s.min_array k j = some v := by
  intro j hj
  obtain ⟨v, hv, _⟩ := hI.chain.arr k hk j hj
  exact ⟨v, hv⟩

theorem cn_find_psv_block_spec (hI : CnInv s) (d : Nat) (hd : 0 < d) :
    ∀ fuel k, k + 1 < s.min_array.length → s.min_array.length ≤ fuel + k + 1 →
      ∀ b lv, b < chainN s.m_lcp.length s.min_array (k + 1) →
        ∃ j v, s.find_psv_block fuel d b k lv = some (j, v) ∧
          PsvSpec (chainA s.m_lcp s.min_array (k + 1)) d b j v := by
  intro fuel
  induction fuel with
  | zero =>
    intro k h1 h2
    omega
  | succ fuel ih =>
    intro k h1 h2 b lv hb
    rw [cn_find_psv_block_succ, level_size_chainN s.m_lcp.length _ k (by omega),
      level_size_chainN s.m_lcp.length _ (k + 1) h1]
    refine psv_body_spec s.block_size _ _ _ (chainA s.m_lcp s.min_array (k + 1)) _ _ _ d b lv
      hI.hB (hI.chain.summ (k + 1) h1) (hI.readable (k + 1) (by omega))
      (hI.zeroA (k + 1) (by omega)) hd hb (by omega) ?_
    intro h2M b' lv' hb'
    have htop := hI.inv_top
    have hk2 : k + 2 < s.min_array.length := by
      rcases Nat.lt_or_ge (k + 2) s.min_array.length with h | h
      · exact h
      · have e : k + 1 + 1 = s.min_array.length := by omega
        rw [e, htop] at h2M
        omega
    exact ih (k + 1) hk2 (by omega) b' lv' hb'

theorem cn_bwd_psv_spec (hI : CnInv s) (i d : Nat) (hd : 0 < d) (hi : i < s.m_lcp.length) :
    ∃ j v, s.bwd_psv i d = some (j, v) ∧ PsvSpec (fun q => s.m_lcp[q]?) d i j v := by
  have hlen : 0 < s.min_array.length := hI.levels
  rw [cn_bwd_psv_eq s i d (by omega), level_size_chainN s.m_lcp.length _ 0 hlen]
  refine psv_body_spec s.block_size _ _ _ (chainA s.m_lcp s.min_array 0) _ _ _ d i _
    hI.hB (hI.chain.summ 0 hlen) (hI.readable 0 (by omega)) (hI.zeroA 0 (by omega)) hd hi
    (by omega) ?_
  intro h2M b' lv' hb'
  have htop := hI.inv_top
  have hk2 : 0 + 1 < s.min_array.length := by
    rcases Nat.lt_or_ge 1 s.min_array.length with h | h
    · exact h
    · have e : 0 + 1 = s.min_array.length := by omega
      rw [e, htop] at h2M
      omega
  exact cn_find_psv_block_spec hI d hd s.min_array.length 0 hk2 (by omega) b' lv' hb'

theorem cn_find_rmq_block_spec (hI : CnInv s) :
    ∀ fuel k, k + 1 < s.min_array.length → s.min_array.length ≤ fuel + k + 1 →
      ∀ i j, i ≤ j → j < chainN s.m_lcp.length s.min_array (k + 1) →
        ∃ p v, s.find_rmq_block fuel i j k = some (p, v) ∧
          RmqSpec (chainA s.m_lcp s.min_array (k + 1)) i j p v := by
  intro fuel
  induction fuel with
  | zero =>
    intro k h1 h2
    omega
  | succ fuel ih =>
    intro k h1 h2 i j hij hj
    rw [cn_find_rmq_block_succ]
    refine @rmq_body_spec _ _ _ _ (chainA s.m_lcp s.min_array (k + 1)) _ _ _
      hI.hB (hI.chain.summ (k + 1) h1) (hI.chain.arr (k + 1) (by omega))
      (fun _ _ _ => rfl) _ _ _ hij hj ?_
    intro h2M i' j' hij' hj'
    have htop := hI.inv_top
    have hk2 : k + 2 < s.min_array.length := by
      rcases Nat.lt_or_ge (k + 2) s.min_array.length with h | h
      · exact h
      · have e : k + 1 + 1 = s.min_array.length := by omega
        rw [e, htop] at h2M
        omega
    exact ih (k + 1) hk2 (by omega) i' j' hij' hj'

theorem cn_rmq_spec (hI : CnInv s) (i j : Nat) (hij : i ≤ j) (hj : j < s.m_lcp.length) :
    ∃ p v, s.rmq i j = some (p, v) ∧ RmqSpec (fun q => s.m_lcp[q]?) i j p v := by
  have hlen : 0 < s.min_array.length := hI.levels
  rw [cn_rmq_eq]
  refine @rmq_body_spec _ _ _ _ (chainA s.m_lcp s.min_array 0) _ _ _
    hI.hB (hI.chain.summ 0 hlen) (hI.chain.arr 0 (by omega))
    (fun _ _ _ => rfl) _ _ _ hij hj ?_
  intro h2M i' j' hij' hj'
  have htop := hI.inv_top
  have hk2 : 0 + 1 < s.min_array.length := by
    rcases Nat.lt_or_ge 1 s.min_array.length with h | h
    · exact h
    · have e : 0 + 1 = s.min_array.length := by omega
      rw [e, htop] at h2M
      omega
  exact cn_find_rmq_block_spec hI s.min_array.length 0 hk2 (by omega) i' j' hij' hj'

end

theorem ceil_div_lt (B len : Nat) (hB : 2 ≤ B) (hlen : 1 < len) : (len + B - 1) / B < len := by
  rw [Nat.div_lt_iff_lt_mul (by omega)]
  obtain ⟨b, rfl⟩ : ∃ b, B = b + 2 := ⟨B - 2, by omega⟩
  obtain ⟨l, rfl⟩ : ∃ l, len = l + 2 := ⟨len - 2, by omega⟩
  have e : (l + 2) * (b + 2) = l * b + 2 * l + 2 * b + 4 := by ring
  omega

theorem levels_loop_spec (B : Nat) (hB : 2 ≤ B) :
    ∀ fuel len lv, len ≤ fuel →
      ∃ r, levels_loop B fuel len lv = some r ∧ lv ≤ r ∧
        (fun x => (x + B - 1) / B)^[r - lv] len ≤ 1 := by
  intro fuel
  induction fuel with
  | zero =>
    intro len lv h
    have h0 : len = 0 := by omega
    subst h0
    exact ⟨lv, by simp [levels_loop], le_refl _, by simp⟩
  | succ fuel ih =>
    intro len lv h
    by_cases hc : len > 1
    · have hlt := ceil_div_lt B len hB hc
      obtain ⟨r, hr, h1, h2⟩ := ih ((len + B - 1) / B) (lv + 1) (by omega)
      refine ⟨r, by simp [levels_loop, hc, hr], by omega, ?_⟩
      rw [show r - lv = (r - (lv + 1)) + 1 by omega, Function.iterate_succ_apply]
      exact h2
    · refine ⟨lv, by simp [levels_loop, hc], le_refl _, ?_⟩
      simp only [Nat.sub_self, Function.iterate_zero, id_eq]
      omega

theorem iterate_ceil_pos (B : Nat) (hB : 0 < B) : ∀ k x, 0 < x →
    0 < (fun x => (x + B - 1) / B)^[k] x := by
  intro k
  induction k with
  | zero =>
    intro x hx
    exact hx
  | succ k ih =>
    intro x hx
    rw [Function.iterate_succ_apply]
    exact ih _ (ceil_div_pos B x hB hx)

/-- The summary minima can be read through the recorded positions. -/
theorem IsSummary.through_pos {B nA nM : Nat} {rdA rdM rdP : Nat → Option Nat}
    (hS : IsSummary B rdA nA rdM rdP nM) (rdM' : Nat → Option Nat)
    (h : ∀ k p, rdP k = some p → rdM' k = rdA (k * B + p)) :
    IsSummary B rdA nA rdM' rdP nM := by
  refine ⟨hS.size, ?_⟩
  intro k hk
  obtain ⟨m, p, h1, h2, h3, h4, h5, h6, h7⟩ := hS.block k hk
  exact ⟨m, p, by rw [h k p h2, h5], h2, h3, h4, h5, h6, h7⟩

/-- The minima of a summary of a bounded array form a bounded array. -/
theorem IsSummary.arr {B nA nM n : Nat} {rdA rdM rdP : Nat → Option Nat}
    (hS : IsSummary B rdA nA rdM rdP nM) (hA : IsArr rdA nA n) : IsArr rdM nM n := by
  intro k hk
  obtain ⟨m, p, h1, _, _, h4, h5, _, _⟩ := hS.block k hk
  obtain ⟨v, hv, hvn⟩ := hA _ h4
  rw [h5] at hv
  cases hv
  exact ⟨m, h1, hvn⟩

theorem level0_min_eq (s : npr_support_cnr) (p0 : int_vector) (rest : List int_vector)
    (h : s.pos_array = p0 :: rest) :
    s.level0_min = fun j => (p0.data[j]?).bind fun p => s.m_lcp[s.sbs * j + p]? := by
  funext j
  simp [npr_support_cnr.level0_min, level_get, h]

/-- The constructor of the `cnr` index succeeds on every non-empty array with entries
below its length, and its levels summarise each other. -/
theorem cnr_construct_levels (B sbs : Nat) (lcp : List Nat) (hB : 2 ≤ B) (hsbs : 0 < sbs)
    (hval : ∀ (j v : Nat), lcp[j]? = some v → v < lcp.length) (hpos : 0 < lcp.length) :
    ∃ s, npr_support_cnr.construct B sbs lcp = some s ∧ s.m_lcp = lcp ∧
      s.block_size = B ∧ s.sbs = sbs ∧ CnrLevels s := by
  have hA : IsArr (fun j => lcp[j]?) lcp.length lcp.length := by
    intro j hj
    exact ⟨lcp[j], by simp [List.getElem?_eq_getElem hj],
      hval j _ (List.getElem?_eq_getElem hj)⟩
  -- first level
  obtain ⟨mins0, poss0, tpf0, hr0, hl0, hl0', hS0, _⟩ :=
    level_loop_summary (fun j => lcp[j]?) sbs lcp.length lcp.length (bits_hi lcp.length + 1)
      (bits_hi sbs + 1) 0 hsbs hA (fun j hj => getElem?_none_of_le lcp j hj)
      (lt_two_pow_bits_hi _) (lt_two_pow_bits_hi _)
  have hpl : poss0.length = (lcp.length + sbs - 1) / sbs := hl0'
  -- the virtual minima of level 0
  have hS0v : IsSummary sbs (fun j => lcp[j]?) lcp.length
      (fun j => (poss0[j]?).bind fun p => lcp[sbs * j + p]?) (fun j => poss0[j]?)
      ((lcp.length + sbs - 1) / sbs) := by
    rw [hl0] at hS0
    refine hS0.through_pos _ ?_
    intro k p hp
    simp only [hp, Option.some_bind]
    rw [Nat.mul_comm]
  have hA1 : IsArr (fun j => (poss0[j]?).bind fun p => lcp[sbs * j + p]?) poss0.length
      lcp.length := by
    rw [hpl]
    exact hS0v.arr hA
  by_cases hc : (lcp.length + sbs - 1) / sbs > 1
  · -- at least two levels
    obtain ⟨r, hr, hr2, hrit⟩ := levels_loop_spec B hB
      (((lcp.length + sbs - 1) / sbs + sbs - 1) / sbs) (((lcp.length + sbs - 1) / sbs + sbs - 1) / sbs)
      2 (le_refl _)
    have hcalc : calculate_number_of_levels B sbs lcp.length = some r := by
      simp [calculate_number_of_levels, Nat.pos_iff_ne_zero.1 hpos, hc, hr]
    obtain ⟨mins1, poss1, tpf1, hr1, hl1, hl1', hS1, hA1'⟩ :=
      level_loop_summary (fun j => (poss0[j]?).bind fun p => lcp[sbs * j + p]?) sbs lcp.length
        poss0.length (bits_hi lcp.length + 1) (bits_hi sbs + 1) 0 hsbs hA1
        (fun j hj => by simp [getElem?_none_of_le poss0 j hj])
        (lt_two_pow_bits_hi _) (lt_two_pow_bits_hi _)
    obtain ⟨rest, hrest, hlen, hch⟩ := other_levels_spec B lcp.length (bits_hi lcp.length + 1)
      (bits_hi B + 1) (by omega) (lt_two_pow_bits_hi _) (lt_two_pow_bits_hi _) (r - 2) mins1 0
      hA1'
    refine ⟨{ block_size := B, sbs := sbs, m_lcp := lcp,
              min_array := ⟨bits_hi lcp.length + 1, mins1⟩ :: rest.map Prod.fst,
              pos_array := ⟨bits_hi sbs + 1, poss0⟩ :: ⟨bits_hi sbs + 1, poss1⟩ ::
                rest.map Prod.snd }, ?_, rfl, rfl, rfl, ?_⟩
    · simp only [npr_support_cnr.construct, hcalc, Option.some_bind, hr0, int_vector.size,
        hr1, hrest, Option.map_some']
      rw [if_neg (by omega), if_pos (by omega)]
    · refine ⟨by simp, by simp only; omega, hsbs, hpos, hA, ?_, ?_, Or.inr ?_⟩
      · simp [level_size, int_vector.size, hpl]
      · rw [level0_min_eq _ _ _ rfl, level_get_cons_zero]
        exact hS0v
      · refine ⟨_, _, _, _, _, rfl, rfl, by simp only; omega, ?_, hch, ?_⟩
        · rw [level0_min_eq _ _ _ rfl]
          simp only
          rw [← hpl]
          exact hS1
        · simp only
          rw [hch.size_iterate _ (le_refl _)]
          have h1 := iterate_ceil_pos B (by omega) (rest.map Prod.fst).length mins1.length
            (by rw [hl1, hpl]; exact ceil_div_pos sbs _ hsbs (by omega))
          have h2 : (rest.map Prod.fst).length = r - 2 := by simp [hlen]
          rw [h2] at h1 ⊢
          rw [hl1, hpl] at h1 ⊢
          omega
  · -- a single level
    have hcalc : calculate_number_of_levels B sbs lcp.length = some 1 := by
      simp [calculate_number_of_levels, Nat.pos_iff_ne_zero.1 hpos, hc]
    have h1 := ceil_div_pos sbs lcp.length hsbs hpos
    refine ⟨{ block_size := B, sbs := sbs, m_lcp := lcp, min_array := [],
              pos_array := [⟨bits_hi sbs + 1, poss0⟩] }, ?_, rfl, rfl, rfl, ?_⟩
    · simp only [npr_support_cnr.construct, hcalc, Option.some_bind, hr0]
      simp
    · refine ⟨by simp, by simp only; omega, hsbs, hpos, hA, ?_, ?_, Or.inl ⟨by simp only; omega, rfl⟩⟩
      · simp [level_size, int_vector.size, hpl]
      · rw [level0_min_eq _ _ _ rfl, level_get_cons_zero]
        exact hS0v

theorem cnr_construct_inv (B sbs : Nat) (lcp : List Nat) (hB : 2 ≤ B) (hsbs : 0 < sbs)
    (hval : ∀ (j v : Nat), lcp[j]? = some v → v < lcp.length) (h0 : lcp[0]? = some 0) :
    ∃ s, npr_support_cnr.construct B sbs lcp = some s ∧ s.m_lcp = lcp ∧
      s.block_size = B ∧ s.sbs = sbs ∧ CnrInv s := by
  have hpos : 0 < lcp.length := by
    rcases Nat.eq_zero_or_pos lcp.length with h | h
    · rw [List.length_eq_zero] at h
      subst h
      simp at h0
    · exact h
  obtain ⟨s, hs, h1, h2, h3, hL⟩ := cnr_construct_levels B sbs lcp hB hsbs hval hpos
  exact ⟨s, hs, h1, h2, h3, hL.hB, hL.hsbs, hL.pos, by rw [h1]; exact h0, hL.arr0, hL.size0,
    hL.sum0, hL.upper⟩

theorem ChainOK.size_pos {B n : Nat} {prev : List Nat} {M P : List int_vector}
    (h : ChainOK B n prev M P) (hB : 0 < B) (hpos : 0 < prev.length) :
    ∀ k, k ≤ M.length → 0 < chainN prev.length M k := by
  intro k hk
  rw [h.size_iterate k hk]
  exact iterate_ceil_pos B hB k _ hpos

theorem IsSummary.min_zero {B nA nM : Nat} {rdA rdM rdP : Nat → Option Nat}
    (hS : IsSummary B rdA nA rdM rdP nM) (hB : 0 < B) (hM : 0 < nM) (h0 : rdA 0 = some 0) :
    rdM 0 = some 0 := by
  obtain ⟨m, p, hm, _, _, _, _, hmin, _⟩ := hS.block 0 hM
  have := hmin 0 0 (by simp) (by simpa using hB) h0
  have hm0 : m = 0 := by omega
  subst hm0
  exact hm

theorem ChainOK.zero_of_pos {B n : Nat} {prev : List Nat} {M P : List int_vector}
    (h : ChainOK B n prev M P) (hB : 0 < B) (hpos : 0 < prev.length)
    (h0 : prev[0]? = some 0) : ∀ k, k ≤ M.length → chainA prev M k 0 = some 0 := by
  intro k
  induction k with
  | zero =>
    intro _
    exact h0
  | succ k ih =>
    intro hk
    exact (h.summ k (by omega)).min_zero hB (h.size_pos hB hpos (k + 1) hk) (ih (by omega))

section
variable {s : npr_support_cnr} {m1 : int_vector} {M' : List int_vector} {p0 p1 : int_vector}
  {P' : List int_vector}

theorem CnrInv.arr1 (hI : CnrInv s) :
    IsArr s.level0_min ((s.m_lcp.length + s.sbs - 1) / s.sbs) s.m_lcp.length :=
  hI.sum0.arr hI.arr0

theorem CnrInv.zero1 (hI : CnrInv s) : s.level0_min 0 = some 0 :=
  hI.sum0.min_zero hI.hsbs (ceil_div_pos _ _ hI.hsbs hI.pos) hI.zero

theorem CnrUpper.m1_pos (hI : CnrInv s) (hU : CnrUpper s m1 M' p0 p1 P') :
    0 < m1.data.length := by
  rw [hU.sum1.size]
  exact ceil_div_pos _ _ hI.hsbs (ceil_div_pos _ _ hI.hsbs hI.pos)

theorem CnrUpper.m1_zero (hI : CnrInv s) (hU : CnrUpper s m1 M' p0 p1 P') :
    m1.data[0]? = some 0 :=
  hU.sum1.min_zero hI.hsbs (hU.m1_pos hI) hI.zero1

theorem CnrUpper.e_pos_size (hU : CnrUpper s m1 M' p0 p1 P') (k : Nat) (hk : k ≤ M'.length) :
    level_size s.pos_array (k + 1) = some (chainN m1.data.length M' k) := by
  rw [hU.hP]
  cases k with
  | zero => simp [level_size, chainN, int_vector.size, hU.hsz]
  | succ k =>
    have h1 := hU.chain.psize k (by omega)
    have h2 := level_size_chainN m1.data.length M' k (by omega)
    rw [h2] at h1
    simpa [level_size] using h1

theorem CnrUpper.e_min_below (hU : CnrUpper s m1 M' p0 p1 P') (k : Nat) :
    level_get s.min_array (sub64 (k + 1) 1) = chainA m1.data M' k := by
  rw [sub64_one _ (by omega), hU.hM, Nat.add_sub_cancel]
  exact chainA_cons_succ [] m1 M' k

theorem CnrUpper.e_min (hU : CnrUpper s m1 M' p0 p1 P') (k : Nat) :
    level_get s.min_array (k + 1) = level_get M' k := by
  rw [hU.hM, level_get_cons_succ]

theorem CnrUpper.e_pos (hU : CnrUpper s m1 M' p0 p1 P') (k : Nat) :
    level_get s.pos_array (k + 1 + 1) = level_get P' k := by
  rw [hU.hP, level_get_cons_succ, level_get_cons_succ]

theorem CnrUpper.e_min_size (hU : CnrUpper s m1 M' p0 p1 P') (k : Nat) (hk : k < M'.length) :
    level_size s.min_array (k + 1) = some (chainN m1.data.length M' (k + 1)) := by
  rw [hU.hM]
  have := level_size_chainN m1.data.length M' k hk
  simpa [level_size] using this

theorem CnrUpper.next_level (hU : CnrUpper s m1 M' p0 p1 P') {k : Nat} (hk : k ≤ M'.length)
    (h2 : 2 ≤ chainN m1.data.length M' k) : k < M'.length := by
  rcases Nat.lt_or_ge k M'.length with h | h
  · exact h
  · have e : k = M'.length := by omega
    have := hU.top
    rw [← e] at this
    omega

theorem cnr_find_psv_block_2_spec (hI : CnrInv s) (hU : CnrUpper s m1 M' p0 p1 P') (d : Nat)
    (hd : 0 < d) :
    ∀ fuel k, k < M'.length → M'.length ≤ fuel + k →
      ∀ b lv, b < chainN m1.data.length M' k →
        ∃ j v, s.find_psv_block_2 fuel d b (k + 1) lv = some (j, v) ∧
          PsvSpec (chainA m1.data M' k) d b j v := by
  intro fuel
  induction fuel with
  | zero =>
    intro k h1 h2
    omega
  | succ fuel ih =>
    intro k h1 h2 b lv hb
    rw [cnr_find_psv_block_2_succ, hU.e_pos_size k (by omega), hU.e_min_below, hU.e_min,
      hU.e_pos, hU.e_min_size k h1]
    refine psv_body_spec s.block_size _ _ _ (chainA m1.data M' k) _ _ _ d b lv
      hI.hB (hU.chain.summ k h1) (fun j hj => ?_)
      (hU.chain.zero_of_pos hI.hB (hU.m1_pos hI) (hU.m1_zero hI) k (by omega)) hd hb
      (by omega) ?_
    · obtain ⟨v, hv, _⟩ := hU.chain.arr k (by omega) j hj
      exact ⟨v, hv⟩
    · intro h2M b' lv' hb'
      exact ih (k + 1) (hU.next_level (by omega) h2M) (by omega) b' lv' hb'

theorem cnr_find_psv_block_spec (hI : CnrInv s) (hU : CnrUpper s m1 M' p0 p1 P') (d : Nat)
    (hd : 0 < d) (b lv : Nat) (hb : b < (s.m_lcp.length + s.sbs - 1) / s.sbs) :
    ∃ j v, s.find_psv_block d b lv = some (j, v) ∧ PsvSpec s.level0_min d b j v := by
  have e1 : level_get s.min_array 0 = fun j => m1.data[j]? := by
    rw [hU.hM, level_get_cons_zero]
  have e2 : level_get s.pos_array 1 = fun j => p1.data[j]? := by
    rw [hU.hP, level_get_cons_succ, level_get_cons_zero]
  have e3 : level_size s.pos_array 1 = some m1.data.length := by
    simpa [chainN] using hU.e_pos_size 0 (by omega)
  rw [cnr_find_psv_block_eq, hI.size0, e1, e2, e3]
  refine psv_body_spec s.sbs _ _ _ s.level0_min _ _ _ d b lv hI.hsbs hU.sum1 (fun j hj => ?_)
    hI.zero1 hd hb (by omega) ?_
  · obtain ⟨v, hv, _⟩ := hI.arr1 j hj
    exact ⟨v, hv⟩
  · intro h2M b' lv' hb'
    have hk : 0 < M'.length := hU.next_level (Nat.zero_le _) h2M
    have hlen : s.pos_array.length = M'.length + 2 := by
      rw [hU.hP, ← hU.chain.len]
      simp
    rw [hlen]
    exact cnr_find_psv_block_2_spec hI hU d hd (M'.length + 2) 0 hk (by omega) b' lv' hb'

theorem cnr_level0_min_comm (s : npr_support_cnr) :
    (fun block => (level_get s.pos_array 0 block).bind fun p => s.m_lcp[block * s.sbs + p]?) =
      s.level0_min := by
  funext j
  simp only [npr_support_cnr.level0_min, Nat.mul_comm]

theorem cnr_bwd_psv_spec (hI : CnrInv s) (i d : Nat) (hd : 0 < d) (hi : i < s.m_lcp.length) :
    ∃ j v, s.bwd_psv i d = some (j, v) ∧ PsvSpec (fun q => s.m_lcp[q]?) d i j v := by
  rw [cnr_bwd_psv_eq s i d (by omega), cnr_level0_min_comm, hI.size0]
  refine psv_body_spec s.sbs _ _ _ (fun q => s.m_lcp[q]?) _ _ _ d i _ hI.hsbs hI.sum0
    (fun j hj => ?_) hI.zero hd hi (by omega) ?_
  · obtain ⟨v, hv, _⟩ := hI.arr0 j hj
    exact ⟨v, hv⟩
  · intro h2M b' lv' hb'
    rcases hI.upper with ⟨h1, _⟩ | ⟨m1, M', p0, p1, P', h1, h2, h3, h4, h5, h6⟩
    · omega
    · exact cnr_find_psv_block_spec hI ⟨h1, h2, h3, h4, h5, h6⟩ d hd b' lv' hb'

theorem cnr_find_rmq_block_2_spec (hI : CnrInv s) (hU : CnrUpper s m1 M' p0 p1 P') :
    ∀ fuel k, k < M'.length → M'.length ≤ fuel + k →
      ∀ i j, i ≤ j → j < chainN m1.data.length M' k →
        ∃ p v, s.find_rmq_block_2 fuel i j (k + 1) = some (p, v) ∧
          RmqSpec (chainA m1.data M' k) i j p v := by
  intro fuel
  induction fuel with
  | zero =>
    intro k h1 h2
    omega
  | succ fuel ih =>
    intro k h1 h2 i j hij hj
    rw [cnr_find_rmq_block_2_succ, hU.e_min_below, hU.e_min, hU.e_pos]
    refine @rmq_body_spec _ _ _ _ (chainA m1.data M' k) _ _ _ hI.hB (hU.chain.summ k h1)
      (hU.chain.arr k (by omega)) (fun _ _ _ => rfl) _ _ _ hij hj ?_
    intro h2M i' j' hij' hj'
    exact ih (k + 1) (hU.next_level (by omega) h2M) (by omega) i' j' hij' hj'

theorem cnr_find_rmq_block_spec (hI : CnrInv s) (hU : CnrUpper s m1 M' p0 p1 P') (i j : Nat)
    (hij : i ≤ j) (hj : j < (s.m_lcp.length + s.sbs - 1) / s.sbs) :
    ∃ p v, s.find_rmq_block i j = some (p, v) ∧ RmqSpec s.level0_min i j p v := by
  have e1 : level_get s.min_array 0 = fun j => m1.data[j]? := by
    rw [hU.hM, level_get_cons_zero]
  have e2 : level_get s.pos_array 1 = fun j => p1.data[j]? := by
    rw [hU.hP, level_get_cons_succ, level_get_cons_zero]
  rw [cnr_find_rmq_block_eq, e1, e2]
  refine @rmq_body_spec _ _ _ _ s.level0_min _ _ _ hI.hsbs hU.sum1 hI.arr1
    (fun _ _ _ => rfl) _ _ _ hij hj ?_
  intro h2M i' j' hij' hj'
  have hk : 0 < M'.length := hU.next_level (Nat.zero_le _) h2M
  have hlen : s.pos_array.length = M'.length + 2 := by
    rw [hU.hP, ← hU.chain.len]
    simp
  rw [hlen]
  exact cnr_find_rmq_block_2_spec hI hU (M'.length + 2) 0 hk (by omega) i' j' hij' hj'

theorem cnr_rmq_spec (hI : CnrInv s) (i j : Nat) (hij : i ≤ j) (hj : j < s.m_lcp.length) :
    ∃ p v, s.rmq i j = some (p, v) ∧ RmqSpec (fun q => s.m_lcp[q]?) i j p v := by
  rw [cnr_rmq_eq]
  refine @rmq_body_spec _ _ _ _ (fun q => s.m_lcp[q]?) _ _ _ hI.hsbs hI.sum0 hI.arr0 ?_ _ _ _
    hij hj ?_
  · intro k p hp
    simp only [npr_support_cnr.level0_min, hp, Option.some_bind]
    rw [Nat.mul_comm]
  · intro h2M i' j' hij' hj'
    rcases hI.upper with ⟨h1, _⟩ | ⟨m1, M', p0, p1, P', h1, h2, h3, h4, h5, h6⟩
    · omega
    · exact cnr_find_rmq_block_spec hI ⟨h1, h2, h3, h4, h5, h6⟩ i' j' hij' hj'

end

theorem cn_find_nsv_block_succ (s : npr_support_cn) (fuel d b level lv : Nat) :
    s.find_nsv_block (fuel + 1) d b level lv =
      nsv_body s.block_size (level_size s.min_array level) (level_get s.min_array level)
        (level_get s.min_array (level + 1)) (level_get s.pos_array (level + 1))
        (level_size s.min_array (level + 1))
        (fun b' lv' => s.find_nsv_block fuel d b' (level + 1) lv') d b lv := rfl

theorem cn_fwd_nsv_eq (s : npr_support_cn) (i d : Nat)
    (h : ¬ (d = 0 ∨ i > sub64 s.m_lcp.length 1)) :
    s.fwd_nsv i d =
      nsv_body s.block_size (some s.m_lcp.length) (fun j => s.m_lcp[j]?)
        (level_get s.min_array 0) (level_get s.pos_array 0) (level_size s.min_array 0)
        (fun b' lv' => s.find_nsv_block s.min_array.length d b' 0 lv') d i s.m_lcp.length := by
  unfold npr_support_cn.fwd_nsv
  rw [if_neg h]
  rfl

theorem cnr_find_nsv_block_2_succ (s : npr_support_cnr) (fuel d b level lv : Nat) :
    s.find_nsv_block_2 (fuel + 1) d b level lv =
      nsv_body s.block_size (level_size s.pos_array level)
        (level_get s.min_array (sub64 level 1))
        (level_get s.min_array level) (level_get s.pos_array (level + 1))
        (level_size s.min_array level)
        (fun b' lv' => s.find_nsv_block_2 fuel d b' (level + 1) lv') d b lv := rfl

theorem cnr_find_nsv_block_eq (s : npr_support_cnr) (d b lv : Nat) :
    s.find_nsv_block d b lv =
      nsv_body s.sbs (level_size s.pos_array 0) s.level0_min
        (level_get s.min_array 0) (level_get s.pos_array 1)
        (level_size s.pos_array 1)
        (fun b' lv' => s.find_nsv_block_2 s.pos_array.length d b' 1 lv') d b lv := rfl

theorem cnr_fwd_nsv_eq (s : npr_support_cnr) (i d : Nat)
    (h : ¬ (d = 0 ∨ i > sub64 s.m_lcp.length 1)) :
    s.fwd_nsv i d =
      nsv_body s.sbs (some s.m_lcp.length) (fun j => s.m_lcp[j]?)
        (fun block => (level_get s.pos_array 0 block).bind fun p => s.m_lcp[block * s.sbs + p]?)
        (level_get s.pos_array 0) (level_size s.pos_array 0)
        (fun b' lv' => s.find_nsv_block d b' lv') d i s.m_lcp.length := by
  unfold npr_support_cnr.fwd_nsv
  rw [if_neg h]
  rfl

theorem nsv_body_no_summary (B : Nat) (n : Option Nat) (rdA rdM rdP : Nat → Option Nat)
    (szM : Option Nat) (up : Nat → Nat → Option (Nat × Nat)) (d b lv : Nat)
    (h : rdM (b / B) = none) : nsv_body B n rdA rdM rdP szM up d b lv = none := by
  unfold nsv_body
  cases n with
  | none => rfl
  | some n => simp [h]

theorem level_get_none_of_le (levels : List int_vector) (level j : Nat)
    (h : levels.length ≤ level) : level_get levels level j = none := by
  have e : levels[level]? = none := by simp [h]
  simp [level_get, e]

/-- The recursion bound of `find_nsv_block` is never what ends a search: with at least as
many steps as there are levels above `level`, one more step changes nothing. -/
theorem cn_find_nsv_block_fuel (s : npr_support_cn) (d : Nat) :
    ∀ fuel level b lv, s.min_array.length ≤ fuel + level + 1 →
      s.find_nsv_block (fuel + 1) d b level lv = s.find_nsv_block fuel d b level lv := by
  intro fuel
  induction fuel with
  | zero =>
    intro level b lv h
    rw [cn_find_nsv_block_succ]
    exact nsv_body_no_summary _ _ _ _ _ _ _ _ _ _
      (level_get_none_of_le _ _ _ (by omega))
  | succ fuel ih =>
    intro level b lv h
    rw [cn_find_nsv_block_succ, cn_find_nsv_block_succ]
    have e : (fun b' lv' => s.find_nsv_block (fuel + 1) d b' (level + 1) lv') =
        fun b' lv' => s.find_nsv_block fuel d b' (level + 1) lv' := by
      funext b' lv'
      exact ih (level + 1) b' lv' (by omega)
    rw [e]

/-- The recursion bound of `find_nsv_block_2` is never what ends a search. -/
theorem cnr_find_nsv_block_2_fuel (s : npr_support_cnr) (d : Nat) :
    ∀ fuel level b lv, s.min_array.length ≤ fuel + level →
      s.find_nsv_block_2 (fuel + 1) d b level lv = s.find_nsv_block_2 fuel d b level lv := by
  intro fuel
  induction fuel with
  | zero =>
    intro level b lv h
    rw [cnr_find_nsv_block_2_succ]
    exact nsv_body_no_summary _ _ _ _ _ _ _ _ _ _
      (level_get_none_of_le _ _ _ (by omega))
  | succ fuel ih =>
    intro level b lv h
    rw [cnr_find_nsv_block_2_succ, cnr_find_nsv_block_2_succ]
    have e : (fun b' lv' => s.find_nsv_block_2 (fuel + 1) d b' (level + 1) lv') =
        fun b' lv' => s.find_nsv_block_2 fuel d b' (level + 1) lv' := by
      funext b' lv'
      exact ih (level + 1) b' lv' (by omega)
    rw [e]

theorem first_below_spec (rd : Nat → Option Nat) (d : Nat) :
    ∀ k b, (∀ j, b ≤ j → j < b + k → ∃ v, rd j = some v) →
      (∃ j v, first_below rd d k b = some (some (j, v)) ∧ b ≤ j ∧ j < b + k ∧
        rd j = some v ∧ v < d ∧ ∀ q w, b ≤ q → q < j → rd q = some w → d ≤ w) ∨
      (first_below rd d k b = some none ∧
        ∀ q w, b ≤ q → q < b + k → rd q = some w → d ≤ w) := by
  intro k
  induction k with
  | zero =>
    intro b _
    exact Or.inr ⟨rfl, fun q w h1 h2 _ => by omega⟩
  | succ k ih =>
    intro b hrd
    obtain ⟨v, hv⟩ := hrd b (le_refl _) (by omega)
    by_cases hvd : v < d
    · left
      exact ⟨b, v, by simp [first_below, hv, hvd], le_refl _, by omega, hv, hvd,
        fun q w h1 h2 _ => by omega⟩
    · have hstep : first_below rd d (k + 1) b = first_below rd d k (b + 1) := by
        simp [first_below, hv, hvd]
      have hb : ∀ q w, rd q = some w → q = b → d ≤ w := by
        intro q w hq hqb
        subst hqb
        rw [hv] at hq
        cases hq
        omega
      rcases ih (b + 1) (fun j h1 h2 => hrd j (by omega) (by omega)) with
        ⟨j, w, hr, h1, h2, h3, h4, h5⟩ | ⟨hr, hall⟩
      · left
        refine ⟨j, w, by rw [hstep, hr], by omega, by omega, h3, h4, ?_⟩
        intro q x hq1 hq2 hq
        by_cases hqb : q = b
        · exact hb q x hq hqb
        · exact h5 q x (by omega) hq2 hq
      · right
        refine ⟨by rw [hstep, hr], ?_⟩
        intro q x hq1 hq2 hq
        by_cases hqb : q = b
        · exact hb q x hq hqb
        · exact hall q x (by omega) (by omega) hq

theorem NsvSpec.found {rd : Nat → Option Nat} {nA d b lv j v : Nat} (h1 : b ≤ j)
    (h2 : j < nA) (h3 : rd j = some v) (h4 : v < d)
    (h5 : ∀ q w, b ≤ q → q < j → rd q = some w → d ≤ w) : NsvSpec rd nA d b lv (j, v) :=
  Or.inl ⟨h1, h2, h3, h4, h5⟩

theorem NsvSpec.not_found {rd : Nat → Option Nat} {nA d b lv : Nat}
    (h : ∀ q w, b ≤ q → q < nA → rd q = some w → d ≤ w) : NsvSpec rd nA d b lv (nA, lv) :=
  Or.inr ⟨rfl, rfl, h⟩

theorem nsv_home_spec (B nA : Nat) (rdA : Nat → Option Nat) (d b m : Nat)
    (hA : ∀ j, j < nA → ∃ v, rdA j = some v)
    (hge : d ≤ m → ∀ q w, b ≤ q → q < (b / B + 1) * B → q < nA → rdA q = some w → d ≤ w) :
    ∃ home, nsv_home B nA rdA d b m = some home ∧
      ((∃ j v, home.1 = some (j, v) ∧ b ≤ j ∧ j < nA ∧ rdA j = some v ∧ v < d ∧
          ∀ q w, b ≤ q → q < j → rdA q = some w → d ≤ w) ∨
       (home.1 = none ∧ home.2 = nA ∧ ∀ q w, b ≤ q → q < nA → rdA q = some w → d ≤ w) ∨
       (home.1 = none ∧ home.2 ≠ nA ∧
          ∀ q w, b ≤ q → q < (b / B + 1) * B → q < nA → rdA q = some w → d ≤ w)) := by
  have hmulc : B * (b / B + 1) = (b / B + 1) * B := Nat.mul_comm _ _
  unfold nsv_home
  by_cases hmd : m < d
  · rw [if_pos hmd]
    rcases first_below_spec rdA d (min (B * (b / B + 1)) nA - b) b
        (fun j h1 h2 => hA j (by omega)) with ⟨j, v, hf, h1, h2, h3, h4, h5⟩ | ⟨hf, hall⟩
    · rw [hf]
      exact ⟨_, rfl, Or.inl ⟨j, v, rfl, h1, by omega, h3, h4, h5⟩⟩
    · rw [hf]
      refine ⟨_, rfl, Or.inr ?_⟩
      by_cases hun : min (B * (b / B + 1)) nA = nA
      · left
        exact ⟨rfl, hun, fun q w h1 h2 hq => hall q w h1 (by omega) hq⟩
      · right
        exact ⟨rfl, hun, fun q w h1 h2 h3 hq => hall q w h1 (by omega) hq⟩
  · rw [if_neg hmd]
    refine ⟨_, rfl, Or.inr ?_⟩
    by_cases hun : 0 = nA
    · left
      exact ⟨rfl, hun, fun q w h1 h2 _ => by omega⟩
    · right
      exact ⟨rfl, hun, hge (by omega)⟩

theorem nsv_descend_spec (B nA nM : Nat) (rdA rdM rdP : Nat → Option Nat) (d b lv : Nat)
    (u : Nat × Nat) (hB : 0 < B) (hS : IsSummary B rdA nA rdM rdP nM)
    (hA : ∀ j, j < nA → ∃ v, rdA j = some v) (hb : b < (b / B + 1) * B)
    (hu : NsvSpec rdM nM d (b / B + 1) lv u)
    (hhome : ∀ q w, b ≤ q → q < (b / B + 1) * B → q < nA → rdA q = some w → d ≤ w) :
    ∀ r, nsv_descend B nA rdA rdP (some nM) d u = some r → NsvSpec rdA nA d b lv r := by
  intro r hr
  -- entries of whole blocks whose summary is not below d
  have hblocks : ∀ q w, (b / B + 1) * B ≤ q → q < nA → q / B < u.1 → u.1 ≤ nM →
      (∀ k mk, b / B + 1 ≤ k → k < u.1 → rdM k = some mk → d ≤ mk) →
      rdA q = some w → d ≤ w := by
    intro q w h1 h2 h3 h4 hall hq
    obtain ⟨hq1, hq2⟩ := block_range B q hB
    have hk1 : b / B + 1 ≤ q / B := (Nat.le_div_iff_mul_le hB).2 h1
    obtain ⟨mk, pk, hmk, _, _, _, _, hmink, _⟩ := hS.block (q / B) (by omega)
    have := hall (q / B) mk hk1 h3 hmk
    have := hmink q w hq1 hq2 hq
    omega
  unfold nsv_descend at hr
  rw [Option.some_bind] at hr
  rcases hu with ⟨h1, h2, h3, h4, h5⟩ | ⟨h1, h2, h3⟩
  · -- a block was found one level higher
    obtain ⟨m', p, hm', hp, hpB, hpos, hAm, hmin, hleft⟩ := hS.block u.1 h2
    rw [h3] at hm'
    cases hm'
    have hle : (b / B + 1) * B ≤ u.1 * B := Nat.mul_le_mul_right B h1
    have hmul : (u.1 + 1) * B = u.1 * B + B := by rw [Nat.add_mul]; simp
    rw [if_neg (by omega), hp, Option.some_bind] at hr
    -- entries between b and the found block
    have hbefore : ∀ q w, b ≤ q → q < u.1 * B → rdA q = some w → d ≤ w := by
      intro q w hq1 hq2 hq
      by_cases hqh : q < (b / B + 1) * B
      · exact hhome q w hq1 hqh (by omega) hq
      · refine hblocks q w (by omega) (by omega) ?_ (by omega) (fun k mk g1 g2 g3 =>
          h5 k mk g1 g2 g3) hq
        rw [Nat.div_lt_iff_lt_mul hB]
        exact hq2
    by_cases hd1 : u.2 = sub64 d 1
    · rw [if_pos hd1] at hr
      simp only [Option.some.injEq] at hr
      subst hr
      have hd : sub64 d 1 = d - 1 := sub64_one _ (by omega)
      refine NsvSpec.found (by omega) hpos hAm h4 ?_
      intro q w hq1 hq2 hq
      by_cases hqb : q < u.1 * B
      · exact hbefore q w hq1 hqb hq
      · have := hleft q w (by omega) hq2 hq
        omega
    · rw [if_neg hd1] at hr
      rcases first_below_spec rdA d (u.1 * B + p - u.1 * B) (u.1 * B)
          (fun j g1 g2 => hA j (by omega)) with ⟨j, v, hf, g1, g2, g3, g4, g5⟩ | ⟨hf, hall⟩
      · rw [hf] at hr
        simp only [Option.map_some', Option.some.injEq] at hr
        subst hr
        refine NsvSpec.found (by omega) (by omega) g3 g4 ?_
        intro q w hq1 hq2 hq
        by_cases hqb : q < u.1 * B
        · exact hbefore q w hq1 hqb hq
        · exact g5 q w (by omega) hq2 hq
      · rw [hf] at hr
        simp only [Option.map_some', Option.some.injEq] at hr
        subst hr
        refine NsvSpec.found (by omega) hpos hAm h4 ?_
        intro q w hq1 hq2 hq
        by_cases hqb : q < u.1 * B
        · exact hbefore q w hq1 hqb hq
        · exact hall q w (by omega) (by omega) hq
  · -- nothing was found one level higher
    rw [if_pos h1] at hr
    simp only [Option.some.injEq] at hr
    subst hr
    rw [h2]
    refine NsvSpec.not_found ?_
    intro q w hq1 hq2 hq
    by_cases hqh : q < (b / B + 1) * B
    · exact hhome q w hq1 hqh hq2 hq
    · refine hblocks q w (by omega) hq2 ?_ (by omega) (fun k mk g1 g2 g3 =>
        h3 k mk g1 (by omega) g3) hq
      rw [h1]
      exact block_lt B nA nM q hB hS.size hq2

theorem nsv_body_spec (B nA nM : Nat) (rdA rdM rdP : Nat → Option Nat)
    (up : Nat → Nat → Option (Nat × Nat)) (d b lv : Nat)
    (hB : 0 < B) (hS : IsSummary B rdA nA rdM rdP nM)
    (hA : ∀ j, j < nA → ∃ v, rdA j = some v) (hMnone : ∀ k, nM ≤ k → rdM k = none)
    (hup : ∀ b' lv' r', b' ≤ nM → up b' lv' = some r' → NsvSpec rdM nM d b' lv' r') :
    ∀ r, nsv_body B (some nA) rdA rdM rdP (some nM) up d b lv = some r →
      NsvSpec rdA nA d b lv r := by
  intro r hr
  -- the summary read succeeded, so the home block exists
  have hblk : b / B < nM := by
    rcases Nat.lt_or_ge (b / B) nM with h | h
    · exact h
    · rw [nsv_body_no_summary _ _ _ _ _ _ _ _ _ _ (hMnone _ h)] at hr
      cases hr
  obtain ⟨hbr1, hbr2⟩ := block_range B b hB
  obtain ⟨m, p, hm, hp, hpB, hpos, hAm, hmin, hleft⟩ := hS.block (b / B) hblk
  have hge : d ≤ m → ∀ q w, b ≤ q → q < (b / B + 1) * B → q < nA → rdA q = some w → d ≤ w := by
    intro hd q w h1 h2 _ hq
    have := hmin q w (by omega) h2 hq
    omega
  obtain ⟨home, hh, hcase⟩ := nsv_home_spec B nA rdA d b m hA hge
  unfold nsv_body at hr
  rw [Option.some_bind, hm, Option.some_bind, hh, Option.some_bind] at hr
  rcases hcase with ⟨j, v, h1, h2, h3, h4, h5, h6⟩ | ⟨h1, h2, h3⟩ | ⟨h1, h2, h3⟩
  · rw [h1] at hr
    simp only [Option.some.injEq] at hr
    subst hr
    exact NsvSpec.found h2 h3 h4 h5 h6
  · rw [h1] at hr
    simp only [h2, if_true, Option.some.injEq] at hr
    subst hr
    exact NsvSpec.not_found h3
  · rw [h1] at hr
    simp only [h2, if_false] at hr
    rcases hu : up (b / B + 1) lv with _ | u
    · rw [hu] at hr
      cases hr
    · rw [hu, Option.some_bind] at hr
      exact nsv_descend_spec B nA nM rdA rdM rdP d b lv u hB hS hA hbr2
        (hup _ _ _ (by omega) hu) h3 r hr

theorem level_get_none_of_size (n0 : Nat) (M : List int_vector) (k j : Nat)
    (h : chainN n0 M (k + 1) ≤ j) : level_get M k j = none := by
  unfold level_get
  cases hk : M[k]? with
  | none => rfl
  | some v =>
    simp only [chainN, hk, Option.map_some', Option.getD_some, int_vector.size] at h
    simp [h]

theorem nsv_body_no_size (B : Nat) (rdA rdM rdP : Nat → Option Nat)
    (szM : Option Nat) (up : Nat → Nat → Option (Nat × Nat)) (d b lv : Nat) :
    nsv_body B none rdA rdM rdP szM up d b lv = none := rfl

section
variable {s : npr_support_cn}

theorem cn_find_nsv_block_partial (hI : CnInv s) (d : Nat) :
    ∀ fuel k b lv r, s.find_nsv_block fuel d b k lv = some r →
      NsvSpec (chainA s.m_lcp s.min_array (k + 1))
        (chainN s.m_lcp.length s.min_array (k + 1)) d b lv r := by
  intro fuel
  induction fuel with
  | zero =>
    intro k b lv r h
    cases h
  | succ fuel ih =>
    intro k b lv r h
    rw [cn_find_nsv_block_succ] at h
    rcases Nat.lt_or_ge (k + 1) s.min_array.length with hk | hk
    · rw [level_size_chainN s.m_lcp.length _ k (by omega),
        level_size_chainN s.m_lcp.length _ (k + 1) hk] at h
      exact nsv_body_spec s.block_size _ _ (chainA s.m_lcp s.min_array (k + 1)) _ _ _ d b lv
        hI.hB (hI.chain.summ (k + 1) hk) (hI.readable (k + 1) (by omega))
        (fun j hj => level_get_none_of_size _ _ _ _ hj)
        (fun b' lv' r' _ hr' => ih (k + 1) b' lv' r' hr') r h
    · rw [nsv_body_no_summary _ _ _ _ _ _ _ _ _ _ (level_get_none_of_le _ _ _ hk)] at h
      cases h

theorem cn_fwd_nsv_partial (hI : CnInv s) (i d : Nat) (r : Nat × Nat)
    (h : s.fwd_nsv i d = some r) :
    NsvSpec (fun q => s.m_lcp[q]?) s.m_lcp.length d i s.m_lcp.length r := by
  have hn := hI.pos
  have hs : sub64 s.m_lcp.length 1 = s.m_lcp.length - 1 := sub64_one _ hn
  by_cases hc : d = 0 ∨ i > sub64 s.m_lcp.length 1
  · have hr : r = (s.m_lcp.length, s.m_lcp.length) := by
      unfold npr_support_cn.fwd_nsv at h
      rw [if_pos hc] at h
      simp only [Option.some.injEq] at h
      exact h.symm
    subst hr
    refine NsvSpec.not_found ?_
    intro q w h1 h2 _
    rcases hc with hc | hc
    · omega
    · omega
  · rw [cn_fwd_nsv_eq s i d hc, level_size_chainN s.m_lcp.length _ 0 hI.levels] at h
    exact nsv_body_spec s.block_size _ _ (chainA s.m_lcp s.min_array 0) _ _ _ d i _
      hI.hB (hI.chain.summ 0 hI.levels) (hI.readable 0 (by omega))
      (fun j hj => level_get_none_of_size _ _ _ _ hj)
      (fun b' lv' r' _ hr' => cn_find_nsv_block_partial hI d _ 0 b' lv' r' hr') r h

end

section
variable {s : npr_support_cnr} {m1 : int_vector} {M' : List int_vector} {p0 p1 : int_vector}
  {P' : List int_vector}

theorem cnr_find_nsv_block_2_partial (hI : CnrInv s) (hU : CnrUpper s m1 M' p0 p1 P')
    (d : Nat) :
    ∀ fuel k b lv r, s.find_nsv_block_2 fuel d b (k + 1) lv = some r →
      NsvSpec (chainA m1.data M' k) (chainN m1.data.length M' k) d b lv r := by
  intro fuel
  induction fuel with
  | zero =>
    intro k b lv r h
    cases h
  | succ fuel ih =>
    intro k b lv r h
    rw [cnr_find_nsv_block_2_succ, hU.e_min_below, hU.e_min, hU.e_pos] at h
    rcases Nat.lt_or_ge k M'.length with hk | hk
    · rw [hU.e_pos_size k (by omega), hU.e_min_size k hk] at h
      refine nsv_body_spec s.block_size _ _ (chainA m1.data M' k) _ _ _ d b lv
        hI.hB (hU.chain.summ k hk) (fun j hj => ?_)
        (fun j hj => level_get_none_of_size _ _ _ _ hj)
        (fun b' lv' r' _ hr' => ih (k + 1) b' lv' r' hr') r h
      obtain ⟨v, hv, _⟩ := hU.chain.arr k (by omega) j hj
      exact ⟨v, hv⟩
    · rw [nsv_body_no_summary _ _ _ _ _ _ _ _ _ _ (level_get_none_of_le _ _ _ hk)] at h
      cases h

theorem cnr_find_nsv_block_partial_upper (hI : CnrInv s) (hU : CnrUpper s m1 M' p0 p1 P')
    (d b lv : Nat) (r : Nat × Nat) (h : s.find_nsv_block d b lv = some r) :
    NsvSpec s.level0_min ((s.m_lcp.length + s.sbs - 1) / s.sbs) d b lv r := by
  have e1 : level_get s.min_array 0 = fun j => m1.data[j]? := by
    rw [hU.hM, level_get_cons_zero]
  have e2 : level_get s.pos_array 1 = fun j => p1.data[j]? := by
    rw [hU.hP, level_get_cons_succ, level_get_cons_zero]
  have e3 : level_size s.pos_array 1 = some m1.data.length := by
    simpa [chainN] using hU.e_pos_size 0 (by omega)
  rw [cnr_find_nsv_block_eq, hI.size0, e1, e2, e3] at h
  refine nsv_body_spec s.sbs _ _ s.level0_min _ _ _ d b lv hI.hsbs hU.sum1 (fun j hj => ?_)
    (fun j hj => getElem?_none_of_le _ _ hj)
    (fun b' lv' r' _ hr' => cnr_find_nsv_block_2_partial hI hU d _ 0 b' lv' r' hr') r h
  obtain ⟨v, hv, _⟩ := hI.arr1 j hj
  exact ⟨v, hv⟩

theorem cnr_find_nsv_block_partial (hI : CnrInv s) (d b lv : Nat) (r : Nat × Nat)
    (h : s.find_nsv_block d b lv = some r) :
    NsvSpec s.level0_min ((s.m_lcp.length + s.sbs - 1) / s.sbs) d b lv r := by
  rcases hI.upper with ⟨_, h1⟩ | ⟨m1, M', p0, p1, P', h1, h2, h3, h4, h5, h6⟩
  · -- a single level: `min_array` is empty and the first read fails
    exfalso
    have hl : s.min_array.length ≤ 0 := by simp [h1]
    rw [cnr_find_nsv_block_eq,
      nsv_body_no_summary _ _ _ _ _ _ _ _ _ _ (level_get_none_of_le _ _ _ hl)] at h
    cases h
  · exact cnr_find_nsv_block_partial_upper hI ⟨h1, h2, h3, h4, h5, h6⟩ d b lv r h

theorem cnr_fwd_nsv_partial (hI : CnrInv s) (i d : Nat) (r : Nat × Nat)
    (h : s.fwd_nsv i d = some r) :
    NsvSpec (fun q => s.m_lcp[q]?) s.m_lcp.length d i s.m_lcp.length r := by
  have hn := hI.pos
  have hs : sub64 s.m_lcp.length 1 = s.m_lcp.length - 1 := sub64_one _ hn
  by_cases hc : d = 0 ∨ i > sub64 s.m_lcp.length 1
  · have hr : r = (s.m_lcp.length, s.m_lcp.length) := by
      unfold npr_support_cnr.fwd_nsv at h
      rw [if_pos hc] at h
      simp only [Option.some.injEq] at h
      exact h.symm
    subst hr
    refine NsvSpec.not_found ?_
    intro q w h1 h2 _
    rcases hc with hc | hc
    · omega
    · omega
  · rw [cnr_fwd_nsv_eq s i d hc, cnr_level0_min_comm, hI.size0] at h
    refine nsv_body_spec s.sbs _ _ (fun q => s.m_lcp[q]?) _ _ _ d i _ hI.hsbs hI.sum0
      (fun j hj => ?_) (fun j hj => ?_)
      (fun b' lv' r' _ hr' => cnr_find_nsv_block_partial hI d b' lv' r' hr') r h
    · obtain ⟨v, hv, _⟩ := hI.arr0 j hj
      exact ⟨v, hv⟩
    · have hsz := hI.size0
      unfold npr_support_cnr.level0_min
      have : level_get s.pos_array 0 j = none := by
        unfold level_get level_size at *
        cases hp : s.pos_array[0]? with
        | none => rfl
        | some v =>
          rw [hp] at hsz
          simp only [Option.map_some', Option.some.injEq, int_vector.size] at hsz
          simp only [Option.some_bind]
          exact getElem?_none_of_le _ _ (by omega)
      rw [this]
      rfl

end

theorem n_levels_le_iff (B n r : Nat) (hB : 1 < B) : n_levels B n ≤ r ↔ n ≤ B ^ r :=
  (Nat.le_pow_iff_clog_le hB).symm

theorem values_of_mem (lcp : List Nat) (hval : ∀ v ∈ lcp, v < lcp.length) :
    ∀ (j v : Nat), lcp[j]? = some v → v < lcp.length :=
  fun _ v h => hval v (List.getElem?_mem h)

/-- The `cn` constructor succeeds on admissible input and establishes the invariant. -/
theorem cn_construct_ok (B r : Nat) (lcp : List Nat) (hB : 2 ≤ B) (hr : lcp.length ≤ B ^ r)
    (hn : 2 ≤ lcp.length) (h0 : lcp[0]? = some 0) (hval : ∀ v ∈ lcp, v < lcp.length) :
    ∃ s, npr_support_cn.construct B r lcp = some s ∧ s.m_lcp = lcp ∧ s.block_size = B ∧
      CnInv s := by
  cases r with
  | zero =>
    simp at hr
    omega
  | succ r => exact cn_construct_inv B r lcp (by omega) (values_of_mem lcp hval) h0 hr

/-- The `cnr` constructor succeeds on admissible input and establishes the invariant. -/
theorem cnr_construct_ok (B sbs : Nat) (lcp : List Nat) (hB : 2 ≤ B) (hsbs : 0 < sbs)
    (h0 : lcp[0]? = some 0) (hval : ∀ v ∈ lcp, v < lcp.length) :
    ∃ s, npr_support_cnr.construct B sbs lcp = some s ∧ s.m_lcp = lcp ∧ s.block_size = B ∧
      s.sbs = sbs ∧ CnrInv s :=
  cnr_construct_inv B sbs lcp hB hsbs (values_of_mem lcp hval) h0

theorem naive_min_spec (lcp : List Nat) (i : Nat) :
    ∀ k, i + k < lcp.length →
      (∃ q, i ≤ q ∧ q ≤ i + k ∧ lcp[q]? = some (naive_min lcp i k)) ∧
      ∀ q w, i ≤ q → q ≤ i + k → lcp[q]? = some w → naive_min lcp i k ≤ w := by
  intro k
  induction k with
  | zero =>
    intro h
    have hi : lcp[i]? = some lcp[i] := List.getElem?_eq_getElem (by omega)
    have e : naive_min lcp i 0 = lcp[i] := by simp [naive_min, hi]
    refine ⟨⟨i, le_refl _, by omega, by rw [e, hi]⟩, ?_⟩
    intro q w h1 h2 hq
    have : q = i := by omega
    subst this
    rw [hi] at hq
    cases hq
    omega
  | succ k ih =>
    intro h
    obtain ⟨⟨q0, h1, h2, h3⟩, hall⟩ := ih (by omega)
    have hi : lcp[i + k + 1]? = some lcp[i + k + 1] := List.getElem?_eq_getElem (by omega)
    have e : naive_min lcp i (k + 1) = min (naive_min lcp i k) lcp[i + k + 1] := by
      simp [naive_min, hi]
    rw [e]
    refine ⟨?_, ?_⟩
    · rcases Nat.le_total (naive_min lcp i k) lcp[i + k + 1] with hle | hle
      · rw [Nat.min_eq_left hle]
        exact ⟨q0, h1, by omega, h3⟩
      · rw [Nat.min_eq_right hle]
        exact ⟨i + k + 1, by omega, by omega, hi⟩
    · intro q w hq1 hq2 hq
      by_cases hqk : q ≤ i + k
      · have := hall q w hq1 hqk hq
        have := Nat.min_le_left (naive_min lcp i k) lcp[i + k + 1]
        omega
      · have : q = i + k + 1 := by omega
        subst this
        rw [hi] at hq
        cases hq
        exact Nat.min_le_right _ _

theorem RmqSpec.eq_naive_min {lcp : List Nat} {i j p v : Nat}
    (h : RmqSpec (fun q => lcp[q]?) i j p v) (hj : j < lcp.length) :
    v = naive_min lcp i (j - i) := by
  obtain ⟨h1, h2, h3, h4, _⟩ := h
  obtain ⟨⟨q, g1, g2, g3⟩, gall⟩ := naive_min_spec lcp i (j - i) (by omega)
  have a := h4 q _ g1 (by omega) g3
  have b := gall p v h1 (by omega) h3
  omega

theorem npr_construct_ok (cfg : npr_config) (lcp : List Nat)
    (hcfg : (∃ B r, cfg = .cn B r ∧ 2 ≤ B ∧ lcp.length ≤ B ^ r) ∨
      (∃ B b, cfg = .cnr B b ∧ 2 ≤ B ∧ 0 < b))
    (hn : 2 ≤ lcp.length) (h0 : lcp[0]? = some 0) (hval : ∀ v ∈ lcp, v < lcp.length) :
    ∃ npr, npr_type.construct cfg lcp = some npr ∧ NprOK npr lcp := by
  rcases hcfg with ⟨B, r, rfl, hB, hr⟩ | ⟨B, b, rfl, hB, hb⟩
  · obtain ⟨s, hs, hl, _, hI⟩ := cn_construct_ok B r lcp hB hr hn h0 hval
    refine ⟨.cn s, by simp [npr_type.construct, hs], ?_⟩
    subst hl
    exact ⟨fun i j hij hj => cn_rmq_spec hI i j hij hj,
      fun i d hi hd => cn_bwd_psv_spec hI i d hd hi,
      fun i => by simp [npr_type.bwd_psv, npr_support_cn.bwd_psv],
      fun i => rfl,
      fun i d r h => cn_fwd_nsv_partial hI i d r h,
      fun i => rfl⟩
  · obtain ⟨s, hs, hl, _, _, hI⟩ := cnr_construct_ok B b lcp hB hb h0 hval
    refine ⟨.cnr s, by simp [npr_type.construct, hs], ?_⟩
    subst hl
    exact ⟨fun i j hij hj => cnr_rmq_spec hI i j hij hj,
      fun i d hi hd => cnr_bwd_psv_spec hI i d hd hi,
      fun i => by simp [npr_type.bwd_psv, npr_support_cnr.bwd_psv],
      fun i => rfl,
      fun i d r h => cnr_fwd_nsv_partial hI i d r h,
      fun i => rfl⟩

/-- The interval produced by `get_node(pos)`, whenever one is produced: it contains
`pos`, every entry strictly inside is at least `LCP[pos]`, and each boundary is either the
end of the array or next to a smaller entry. -/
theorem get_node_spec (t : cst_cn) (hok : NprOK t.m_npr t.m_lcp) (h0 : t.m_lcp[0]? = some 0)
    (pos v : Nat) (hv : t.m_lcp[pos]? = some v) (w : node_type)
    (h : t.get_node pos = some w) :
    w.1 ≤ pos ∧ pos ≤ w.2 ∧ w.2 < t.m_lcp.length ∧
      (∀ q x, w.1 < q → q ≤ w.2 → t.m_lcp[q]? = some x → v ≤ x) ∧
      (w.1 < pos ∨ w = (0, t.m_lcp.length - 1)) ∧
      (w.1 = 0 ∨ ∃ x, t.m_lcp[w.1]? = some x ∧ x < v) ∧
      (w.2 + 1 < t.m_lcp.length → ∃ x, t.m_lcp[w.2 + 1]? = some x ∧ x < v) := by
  have hpos : pos < t.m_lcp.length := by
    rcases Nat.lt_or_ge pos t.m_lcp.length with h1 | h1
    · exact h1
    · rw [getElem?_none_of_le _ _ h1] at hv
      cases hv
  unfold cst_cn.get_node at h
  rw [hok.psv, hok.nsv, hv] at h
  simp only [Option.some_bind] at h
  -- the forward search
  rcases hr : t.m_npr.fwd_nsv (pos + 1) v with _ | r
  · rw [hr] at h
    cases hl : (if pos = 0 then some (t.m_lcp.length, t.m_lcp.length)
        else t.m_npr.bwd_psv (pos - 1) v) with
    | none => rw [hl] at h; cases h
    | some l => rw [hl] at h; cases h
  · have hN := hok.fwd_nsv _ _ _ hr
    -- right boundary
    have hright : pos ≤ sub64 r.1 1 ∧ sub64 r.1 1 < t.m_lcp.length ∧
        (∀ q x, pos < q → q ≤ sub64 r.1 1 → t.m_lcp[q]? = some x → v ≤ x) ∧
        (sub64 r.1 1 + 1 < t.m_lcp.length →
          ∃ x, t.m_lcp[sub64 r.1 1 + 1]? = some x ∧ x < v) ∧
        (v = 0 → sub64 r.1 1 = t.m_lcp.length - 1) := by
      rcases hN with ⟨h1, h2, h3, h4, h5⟩ | ⟨h1, _, h3⟩
      · rw [sub64_one _ (by omega)]
        refine ⟨by omega, by omega, fun q x g1 g2 gq => h5 q x (by omega) (by omega) gq,
          fun _ => ?_, fun hz => by omega⟩
        rw [show r.1 - 1 + 1 = r.1 by omega]
        exact ⟨r.2, h3, h4⟩
      · rw [sub64_one _ (by omega), h1]
        exact ⟨by omega, by omega, fun q x g1 g2 gq => h3 q x (by omega) (by omega) gq,
          fun hlt => by omega, fun _ => rfl⟩
    obtain ⟨hr1, hr2, hr3, hr4, hr5⟩ := hright
    rw [hr] at h
    -- left boundary
    have hleft : ∃ l, (if pos = 0 then some (t.m_lcp.length, t.m_lcp.length)
          else t.m_npr.bwd_psv (pos - 1) v) = some l ∧
        ((l.1 = t.m_lcp.length ∧ (pos = 0 ∨ v = 0)) ∨
         (l.1 < pos ∧ (∃ x, t.m_lcp[l.1]? = some x ∧ x < v) ∧
            ∀ q x, l.1 < q → q < pos → t.m_lcp[q]? = some x → v ≤ x)) := by
      by_cases hp0 : pos = 0
      · rw [if_pos hp0]
        exact ⟨_, rfl, Or.inl ⟨rfl, Or.inl hp0⟩⟩
      · rw [if_neg hp0]
        rcases Nat.eq_zero_or_pos v with hz | hz
        · rw [hz, hok.bwd_psv_zero]
          exact ⟨_, rfl, Or.inl ⟨rfl, Or.inr rfl⟩⟩
        · obtain ⟨p, x, hp, g1, g2, g3, g4⟩ := hok.bwd_psv (pos - 1) v (by omega) hz
          rw [hp]
          exact ⟨_, rfl, Or.inr ⟨by simp only; omega, ⟨x, g2, g3⟩,
            fun q y k1 k2 kq => g4 q y k1 (by omega) kq⟩⟩
    obtain ⟨l, hl, hlcase⟩ := hleft
    rw [hl] at h
    simp only [Option.some_bind, Option.map_some', Option.some.injEq] at h
    subst h
    have hvpos : ∀ q x, q = pos → t.m_lcp[q]? = some x → v ≤ x := by
      intro q x hq hx
      subst hq
      rw [hv] at hx
      cases hx
      exact le_refl _
    rcases hlcase with ⟨g1, g2⟩ | ⟨g1, g2, g3⟩
    · simp only [g1, if_true]
      have hroot : pos = 0 ∨ v = 0 → sub64 r.1 1 = t.m_lcp.length - 1 := by
        intro hc
        rcases hc with hc | hc
        · subst hc
          rw [h0] at hv
          cases hv
          exact hr5 rfl
        · exact hr5 hc
      have hvz : v = 0 := by
        rcases g2 with hc | hc
        · subst hc
          rw [h0] at hv
          cases hv
          rfl
        · exact hc
      refine ⟨Nat.zero_le _, hr1, hr2, ?_, Or.inr ?_, Or.inl trivial, hr4⟩
      · intro q x _ _ _
        omega
      · rw [hroot g2]
    · have hne : ¬ l.1 = t.m_lcp.length := by omega
      simp only [hne, if_false]
      refine ⟨by omega, hr1, hr2, ?_, Or.inl g1, Or.inr g2, hr4⟩
      intro q x k1 k2 kq
      by_cases hqp : q < pos
      · exact g3 q x k1 hqp kq
      · by_cases hqe : q = pos
        · exact hvpos q x hqe kq
        · exact hr3 q x (by omega) k2 kq

/-- Whenever `parent` answers for an interval `[lb, rb]` whose inner entries are at least
`h` and whose two delimiting entries are below `h`: the answer is `get_node` of a position
with an entry below `h`, and it contains `[lb, rb]`. -/
theorem parent_spec (t : cst_cn) (hok : NprOK t.m_npr t.m_lcp) (h0 : t.m_lcp[0]? = some 0)
    (lb rb h : Nat) (hlb : lb ≤ rb) (hrb : rb < t.m_lcp.length)
    (hin : ∀ q x, lb < q → q ≤ rb → t.m_lcp[q]? = some x → h ≤ x)
    (hl : ∀ x, t.m_lcp[lb]? = some x → x < h)
    (hr : ∀ x, t.m_lcp[rb + 1]? = some x → x < h)
    (w : node_type) (hp : t.parent (lb, rb) = some w) :
    ∃ pos v, t.m_lcp[pos]? = some v ∧ v < h ∧ t.get_node pos = some w ∧
      w.1 ≤ pos ∧ pos ≤ w.2 ∧ (w.1 < pos ∨ w = (0, t.m_lcp.length - 1)) ∧
      w.1 ≤ lb ∧ rb ≤ w.2 := by
  have ha : t.m_lcp[lb]? = some t.m_lcp[lb] := List.getElem?_eq_getElem (by omega)
  -- the two possible representatives
  have left : t.get_node lb = some w →
      ∃ pos v, t.m_lcp[pos]? = some v ∧ v < h ∧ t.get_node pos = some w ∧
        w.1 ≤ pos ∧ pos ≤ w.2 ∧ (w.1 < pos ∨ w = (0, t.m_lcp.length - 1)) ∧
        w.1 ≤ lb ∧ rb ≤ w.2 := by
    intro hg
    obtain ⟨g1, g2, g3, _, g5, _, g7⟩ := get_node_spec t hok h0 lb _ ha w hg
    refine ⟨lb, _, ha, hl _ ha, hg, g1, g2, g5, g1, ?_⟩
    by_contra hc
    obtain ⟨x, hx, hxa⟩ := g7 (by omega)
    have := hin _ x (by omega) (by omega) hx
    have := hl _ ha
    omega
  have right : ∀ b, t.m_lcp[rb + 1]? = some b → t.get_node (rb + 1) = some w →
      ∃ pos v, t.m_lcp[pos]? = some v ∧ v < h ∧ t.get_node pos = some w ∧
        w.1 ≤ pos ∧ pos ≤ w.2 ∧ (w.1 < pos ∨ w = (0, t.m_lcp.length - 1)) ∧
        w.1 ≤ lb ∧ rb ≤ w.2 := by
    intro b hb hg
    obtain ⟨g1, g2, g3, _, g5, g6, _⟩ := get_node_spec t hok h0 (rb + 1) _ hb w hg
    refine ⟨rb + 1, _, hb, hr _ hb, hg, g1, g2, g5, ?_, by omega⟩
    by_contra hc
    rcases g6 with g6 | ⟨x, hx, hxb⟩
    · omega
    · have hw : w.1 < rb + 1 := by
        rcases g5 with g5 | g5
        · exact g5
        · rw [g5] at hc
          simp at hc
      have := hin _ x (by omega) (by omega) hx
      have := hr _ hb
      omega
  unfold cst_cn.parent at hp
  simp only at hp
  rw [sub64_one _ (by omega)] at hp
  by_cases hlast : rb = t.m_lcp.length - 1
  · rw [if_pos hlast, Option.some_bind] at hp
    exact left hp
  · have hb : t.m_lcp[rb + 1]? = some t.m_lcp[rb + 1] :=
      List.getElem?_eq_getElem (by omega)
    rw [if_neg hlast, ha, hb] at hp
    simp only [Option.some_bind, Option.map_some'] at hp
    by_cases hab : t.m_lcp[lb] > t.m_lcp[rb + 1]
    · rw [if_pos hab] at hp
      exact left hp
    · rw [if_neg hab] at hp
      exact right _ hb hp

/-- Whenever `parent(v)` answers for a node `v = [lb, rb]` (inner LCP entries at least
`h`, delimiting entries below `h`), the answer is an ancestor of `v`. -/
theorem parent_ancestor_of_some (t : cst_cn) (hok : NprOK t.m_npr t.m_lcp)
    (h0 : t.m_lcp[0]? = some 0)
    (lb rb h : Nat) (hlb : lb ≤ rb) (hrb : rb < t.m_lcp.length)
    (hin : ∀ q x, lb < q → q ≤ rb → t.m_lcp[q]? = some x → h ≤ x)
    (hl : ∀ x, t.m_lcp[lb]? = some x → x < h)
    (hr : ∀ x, t.m_lcp[rb + 1]? = some x → x < h)
    (w : node_type) (hp : t.parent (lb, rb) = some w) :
    t.ancestor w (lb, rb) = true := by
  obtain ⟨_, _, _, _, _, _, _, _, g1, g2⟩ :=
    parent_spec t hok h0 lb rb h hlb hrb hin hl hr w hp
  simp [cst_cn.ancestor, g1, g2]

/-- Whenever `parent(v)` answers for a non-root internal node `v = [lb, rb]` of string
depth `h` (the minimum of the inner LCP entries, delimiting entries below it), the depth of
the answer is strictly smaller than the depth of `v`. -/
theorem parent_depth_of_some (t : cst_cn) (hok : NprOK t.m_npr t.m_lcp)
    (h0 : t.m_lcp[0]? = some 0) (hsize : t.m_csa.size = t.m_lcp.length)
    (lb rb h : Nat) (hlb : lb < rb) (hrb : rb < t.m_lcp.length)
    (hroot : (lb, rb) ≠ t.root)
    (hin : ∀ q x, lb < q → q ≤ rb → t.m_lcp[q]? = some x → h ≤ x)
    (hat : ∃ q, lb < q ∧ q ≤ rb ∧ t.m_lcp[q]? = some h)
    (hl : ∀ x, t.m_lcp[lb]? = some x → x < h)
    (hr : ∀ x, t.m_lcp[rb + 1]? = some x → x < h)
    (w : node_type) (hp : t.parent (lb, rb) = some w) :
    ∃ dw, t.depth w = some dw ∧ t.depth (lb, rb) = some h ∧ dw < h := by
  obtain ⟨pos, v, hv, hvh, _, g1, g2, g3, g4, g5⟩ :=
    parent_spec t hok h0 lb rb h (by omega) hrb hin hl hr w hp
  have hpos : pos < t.m_lcp.length := by
    rcases Nat.lt_or_ge pos t.m_lcp.length with h1 | h1
    · exact h1
    · rw [getElem?_none_of_le _ _ h1] at hv
      cases hv
  have hrt : t.root = (0, t.m_lcp.length - 1) := by
    simp only [cst_cn.root, hsize]
    rw [sub64_one _ (by omega)]
  -- depth of v
  have hdv : t.depth (lb, rb) = some h := by
    obtain ⟨p, x, hpx, k1, k2, k3, k4, _⟩ := hok.rmq (lb + 1) rb (by omega) hrb
    obtain ⟨q, q1, q2, q3⟩ := hat
    have e1 := hin p x (by omega) k2 k3
    have e2 := k4 q h (by omega) q2 q3
    have hne : ¬ lb = rb := by omega
    simp only [cst_cn.depth, cst_cn.is_leaf, beq_iff_eq, hne, if_false, hroot, hpx,
      Option.map_some', Bool.false_eq_true]
    congr 1
    omega
  have hw2 : w.2 < t.m_lcp.length ∨ w = t.root := by
    by_cases hwr : w = t.root
    · exact Or.inr hwr
    · left
      have := get_node_spec t hok h0 pos v hv w (by assumption)
      exact this.2.2.1
  have hwne : ¬ w.1 = w.2 := by omega
  by_cases hwr : w = t.root
  · refine ⟨0, ?_, hdv, by omega⟩
    rw [hwr] at hwne ⊢
    simp [cst_cn.depth, cst_cn.is_leaf, hwne]
  · have hw1 : w.1 < pos := by
      rcases g3 with g3 | g3
      · exact g3
      · exact absurd (g3.trans hrt.symm) hwr
    have hw2b : w.2 < t.m_lcp.length := by
      rcases hw2 with h2 | h2
      · exact h2
      · exact absurd h2 hwr
    obtain ⟨p, x, hpx, k1, k2, k3, k4, _⟩ := hok.rmq (w.1 + 1) w.2 (by omega) hw2b
    have e := k4 pos v (by omega) g2 hv
    refine ⟨x, ?_, hdv, by omega⟩
    simp only [cst_cn.depth, cst_cn.is_leaf, beq_iff_eq, hwne, if_false, hwr, hpx,
      Option.map_some', Bool.false_eq_true]

/-- A state of the outer loop of `laqt` that one iteration maps to itself is never left:
when the loop condition holds and `laqs(v, depth(res) + diff)` is `res` again, the inner walk
does nothing, `node_d` and `diff` keep their values, and no budget suffices. -/
theorem laqt_loop_stuck (t : cst_cn) (v : node_type) (d inner : Nat) (res : node_type)
    (node_d diff sd : Nat) (h1 : diff ≠ 0) (h2 : res ≠ v) (h3 : t.depth res = some sd)
    (h4 : t.laqs v (add64 sd diff) = some res) (h5 : 0 < inner)
    (h6 : sub64 d node_d = diff) :
    ∀ fuel, t.laqt_loop v d inner fuel res node_d diff = some none := by
  intro fuel
  induction fuel with
  | zero => rfl
  | succ k ih =>
    obtain ⟨m, rfl⟩ : ∃ m, inner = m + 1 := ⟨inner - 1, by omega⟩
    have hw : t.laqt_walk res (m + 1) res node_d = some (some (res, node_d)) := by
      simp [cst_cn.laqt_walk]
    rw [cst_cn.laqt_loop, if_pos ⟨h1, h2⟩, h3, Option.some_bind, h4, Option.some_bind, hw,
      Option.some_bind]
    simp only [h6]
    exact ih

theorem getElem?_some_of_lt (l : List Nat) (i : Nat) (h : i < l.length) :
    ∃ x, l[i]? = some x :=
  ⟨l[i], List.getElem?_eq_getElem h⟩

/-- Two delimited intervals are nested or disjoint. -/
theorem IsInterval.nested_or_disjoint {lcp : List Nat} {v w : node_type} {hv hw : Nat}
    (h1 : IsInterval lcp v hv) (h2 : IsInterval lcp w hw) :
    (v.1 ≤ w.1 ∧ w.2 ≤ v.2) ∨ (w.1 ≤ v.1 ∧ v.2 ≤ w.2) ∨ v.2 < w.1 ∨ w.2 < v.1 := by
  obtain ⟨a1, a2, a3, a4, a5⟩ := h1
  obtain ⟨b1, b2, b3, b4, b5⟩ := h2
  by_contra hc
  have hcases : (v.1 < w.1 ∧ w.1 ≤ v.2 ∧ v.2 < w.2) ∨ (w.1 < v.1 ∧ v.1 ≤ w.2 ∧ w.2 < v.2) := by
    omega
  rcases hcases with ⟨c1, c2, c3⟩ | ⟨c1, c2, c3⟩
  · obtain ⟨x, hx⟩ := getElem?_some_of_lt lcp w.1 (by omega)
    obtain ⟨y, hy⟩ := getElem?_some_of_lt lcp (v.2 + 1) (by omega)
    have e1 := a3 _ x c1 c2 hx
    have e2 := b3 _ y (by omega) (by omega) hy
    have e3 := a5 y hy
    have e4 := b4 x hx
    omega
  · obtain ⟨x, hx⟩ := getElem?_some_of_lt lcp v.1 (by omega)
    obtain ⟨y, hy⟩ := getElem?_some_of_lt lcp (w.2 + 1) (by omega)
    have e1 := b3 _ x c1 c2 hx
    have e2 := a3 _ y (by omega) (by omega) hy
    have e3 := b5 y hy
    have e4 := a4 x hx
    omega

/-- The node `get_node(k)` for the position `k` of the minimum between two disjoint
delimited intervals `x` (left) and `y` (right), whenever it is produced: it contains both,
and it lies inside every node that contains both. -/
theorem get_node_between (t : cst_cn) (hok : NprOK t.m_npr t.m_lcp) (h0 : t.m_lcp[0]? = some 0)
    (x y : node_type) (hx hy : Nat) (h1 : IsInterval t.m_lcp x hx)
    (h2 : IsInterval t.m_lcp y hy) (hd : x.2 < y.1) (k : Nat × Nat)
    (hk : t.m_npr.rmq (x.2 + 1) y.1 = some k) (u : node_type)
    (hu : t.get_node k.1 = some u) :
    (u.1 ≤ x.1 ∧ y.2 ≤ u.2) ∧
      ∀ a, IsNode t.m_lcp a → a.1 ≤ x.1 → y.2 ≤ a.2 → a.1 ≤ u.1 ∧ u.2 ≤ a.2 := by
  obtain ⟨a1, a2, a3, a4, a5⟩ := h1
  obtain ⟨b1, b2, b3, b4, b5⟩ := h2
  obtain ⟨p, l, hp, r1, r2, r3, r4, _⟩ := hok.rmq (x.2 + 1) y.1 (by omega) (by omega)
  rw [hk] at hp
  cases hp
  simp only at hu r3
  obtain ⟨g1, g2, g3, g4, _, g6, g7⟩ := get_node_spec t hok h0 p l r3 u hu
  have hleft : u.1 ≤ x.1 := by
    by_contra hc
    rcases g6 with g6 | ⟨z, hz, hzl⟩
    · omega
    · by_cases hin : u.1 ≤ x.2
      · obtain ⟨y1, hy1⟩ := getElem?_some_of_lt t.m_lcp (x.2 + 1) (by omega)
        have e1 := a3 _ z (by omega) hin hz
        have e2 := a5 y1 hy1
        have e3 := r4 _ y1 (le_refl _) (by omega) hy1
        omega
      · have e1 := r4 _ z (by omega) (by omega) hz
        omega
  have hright : y.2 ≤ u.2 := by
    by_contra hc
    obtain ⟨z, hz, hzl⟩ := g7 (by omega)
    by_cases hin : u.2 + 1 ≤ y.1
    · have e1 := r4 _ z (by omega) hin hz
      omega
    · obtain ⟨y1, hy1⟩ := getElem?_some_of_lt t.m_lcp y.1 (by omega)
      have e1 := b3 _ z (by omega) (by omega) hz
      have e2 := b4 y1 hy1
      have e3 := r4 _ y1 (by omega) (le_refl _) hy1
      omega
  refine ⟨⟨hleft, hright⟩, ?_⟩
  intro a ha c1 c2
  rcases ha with ha | ⟨h, d1, d2, d3, d4, d5⟩
  · rw [ha]
    simp only
    omega
  · have hl : h ≤ l := d3 p l (by omega) (by omega) r3
    constructor
    · by_contra hc
      obtain ⟨z, hz⟩ := getElem?_some_of_lt t.m_lcp a.1 (by omega)
      have e1 := g4 _ z (by omega) (by omega) hz
      have e2 := d4 z hz
      omega
    · by_contra hc
      obtain ⟨z, hz⟩ := getElem?_some_of_lt t.m_lcp (a.2 + 1) (by omega)
      have e1 := g4 _ z (by omega) (by omega) hz
      have e2 := d5 z hz
      omega

/-- Whenever `lca(v, w)` answers for two nodes, the answer contains both, and it lies
inside every node that contains both. -/
theorem lca_spec_of_some (t : cst_cn) (hok : NprOK t.m_npr t.m_lcp) (h0 : t.m_lcp[0]? = some 0)
    (v w : node_type) (hv : IsNode t.m_lcp v) (hw : IsNode t.m_lcp w)
    (hv2 : v.2 < t.m_lcp.length) (hw2 : w.2 < t.m_lcp.length)
    (u : node_type) (hu : t.lca v w = some u) :
    (t.ancestor u v = true ∧ t.ancestor u w = true) ∧
      ∀ a, IsNode t.m_lcp a → t.ancestor a v = true → t.ancestor a w = true →
        t.ancestor a u = true := by
  simp only [cst_cn.ancestor, Bool.and_eq_true, decide_eq_true_eq, ge_iff_le] at *
  unfold cst_cn.lca at hu
  simp only [cst_cn.ancestor, Bool.and_eq_true, decide_eq_true_eq, ge_iff_le] at hu
  by_cases c1 : v.1 ≤ w.1 ∧ w.2 ≤ v.2
  · rw [if_pos c1] at hu
    cases hu
    exact ⟨⟨⟨le_refl _, le_refl _⟩, c1⟩, fun a _ h1 _ => h1⟩
  · rw [if_neg c1] at hu
    by_cases c2 : w.1 ≤ v.1 ∧ v.2 ≤ w.2
    · rw [if_pos c2] at hu
      cases hu
      exact ⟨⟨c2, ⟨le_refl _, le_refl _⟩⟩, fun a _ _ h2 => h2⟩
    · rw [if_neg c2] at hu
      have hvi : ∃ h, IsInterval t.m_lcp v h := by
        rcases hv with hv | hv
        · exfalso
          apply c1
          rw [hv]
          simp only
          omega
        · exact hv
      have hwi : ∃ h, IsInterval t.m_lcp w h := by
        rcases hw with hw | hw
        · exfalso
          apply c2
          rw [hw]
          simp only
          omega
        · exact hw
      obtain ⟨h1, i1⟩ := hvi
      obtain ⟨h2, i2⟩ := hwi
      by_cases c3 : v.2 < w.1
      · rw [if_pos c3] at hu
        rcases hk : t.m_npr.rmq (v.2 + 1) w.1 with _ | k
        · rw [hk] at hu
          cases hu
        · rw [hk, Option.some_bind] at hu
          obtain ⟨⟨e1, e2⟩, e3⟩ := get_node_between t hok h0 v w h1 h2 i1 i2 c3 k hk u hu
          have := i1.1
          have := i2.1
          refine ⟨⟨⟨e1, by omega⟩, ⟨by omega, e2⟩⟩, ?_⟩
          intro a ha g1 g2
          exact e3 a ha g1.1 g2.2
      · rw [if_neg c3] at hu
        have c4 : w.2 < v.1 := by
          rcases i1.nested_or_disjoint i2 with h | h | h | h
          · exact absurd h c1
          · exact absurd h c2
          · exact absurd h c3
          · exact h
        rcases hk : t.m_npr.rmq (w.2 + 1) v.1 with _ | k
        · rw [hk] at hu
          cases hu
        · rw [hk, Option.some_bind] at hu
          obtain ⟨⟨e1, e2⟩, e3⟩ := get_node_between t hok h0 w v h2 h1 i2 i1 c4 k hk u hu
          have := i1.1
          have := i2.1
          refine ⟨⟨⟨by omega, e2⟩, ⟨e1, by omega⟩⟩, ?_⟩
          intro a ha g1 g2
          exact e3 a ha g2.1 g1.2

/-- The identifier of every internal node is `n + 1`: the logical `||` reduces the shifted
value and the tag to `1`. -/
theorem id_of_internal (t : cst_cn) (v : node_type) (hleaf : v.1 ≠ v.2)
    (hn : 0 < t.m_lcp.length) (hsmall : t.m_lcp.length + v.1 < 2 ^ 63) (x : Nat)
    (h : t.id v = some x) : x = t.m_lcp.length + 1 := by
  unfold cst_cn.id at h
  simp only [cst_cn.is_leaf, beq_iff_eq, hleaf, if_false, Bool.false_eq_true,
    Option.map_eq_some'] at h
  obtain ⟨c, _, hc⟩ := h
  rw [← hc]
  have h64 : (2 : Nat) ^ 64 = 2 * 2 ^ 63 := by norm_num
  cases c
  · have hne : (t.m_lcp.length + v.1) * 2 % 2 ^ 64 ≠ 0 := by
      rw [Nat.mod_eq_of_lt (by omega)]
      omega
    simp only [Bool.false_eq_true, if_false, hne, ne_eq, not_false_eq_true, not_true_eq_false,
      or_false, if_true, add64]
    rw [Nat.mod_eq_of_lt (by omega)]
  · simp only [if_true, ne_eq, one_ne_zero, not_false_eq_true, or_true, add64]
    rw [Nat.mod_eq_of_lt (by omega)]

/-- The Weiner link of an internal node is the interval of the backward search, also when
that interval is empty. -/
theorem wl_of_internal (t : cst_cn) (v : node_type) (c : Nat) (h : v.1 ≠ v.2) :
    t.wl v c = t.m_csa.backward_search v.1 v.2 c := by
  simp [cst_cn.wl, h]

/-- What `laqs(v, d)` computes for `0 < d`, whenever it answers: the left end is the last
position up to `v.first` with an entry at most `d`; the right end is `v.second - 1` when the
entry at `v.second` itself is at most `d`, and otherwise the last position before the next
entry at most `d`. -/
theorem laqs_spec (t : cst_cn) (hok : NprOK t.m_npr t.m_lcp) (v : node_type) (d : Nat)
    (hd : 0 < d) (hd64 : d + 1 < 2 ^ 64) (hv1 : v.1 < t.m_lcp.length)
    (hv2 : v.2 < t.m_lcp.length) (w : node_type) (h : t.laqs v d = some w) :
    (w.1 ≤ v.1 ∧ (∃ x, t.m_lcp[w.1]? = some x ∧ x ≤ d) ∧
      ∀ q x, w.1 < q → q ≤ v.1 → t.m_lcp[q]? = some x → d < x) ∧
    ((∃ x, t.m_lcp[v.2]? = some x ∧ x ≤ d ∧ w.2 = sub64 v.2 1) ∨
      (v.2 ≤ w.2 ∧ w.2 < t.m_lcp.length ∧
        (∀ q x, v.2 ≤ q → q ≤ w.2 → t.m_lcp[q]? = some x → d < x) ∧
        ∀ x, t.m_lcp[w.2 + 1]? = some x → x ≤ d)) := by
  unfold cst_cn.laqs at h
  have e : add64 d 1 = d + 1 := Nat.mod_eq_of_lt hd64
  rw [if_neg (by omega), e] at h
  obtain ⟨p, x, hp, g1, g2, g3, g4⟩ := hok.bwd_psv v.1 (d + 1) hv1 (by omega)
  rw [hp, Option.some_bind] at h
  rcases hr : t.m_npr.fwd_nsv v.2 (d + 1) with _ | r
  · rw [hr] at h
    cases h
  · rw [hr] at h
    simp only [Option.map_some', Option.some.injEq] at h
    have hN := hok.fwd_nsv _ _ _ hr
    have hpn : ¬ p = t.m_lcp.length := by omega
    rw [if_neg hpn] at h
    subst h
    refine ⟨⟨g1, ⟨x, g2, by omega⟩, fun q y k1 k2 kq => ?_⟩, ?_⟩
    · have := g4 q y k1 k2 kq
      omega
    · rcases hN with ⟨n1, n2, n3, n4, n5⟩ | ⟨n1, _, n3⟩
      · by_cases hrv : r.1 = v.2
        · left
          refine ⟨r.2, by rw [← hrv]; exact n3, by omega, by rw [hrv]⟩
        · right
          simp only
          rw [sub64_one _ (by omega)]
          refine ⟨by omega, by omega, fun q y k1 k2 kq => ?_, fun y hy => ?_⟩
          · have := n5 q y k1 (by omega) kq
            omega
          · rw [show r.1 - 1 + 1 = r.1 by omega] at hy
            have n3b : t.m_lcp[r.1]? = some r.2 := n3
            rw [n3b] at hy
            cases hy
            omega
      · right
        simp only
        rw [n1, sub64_one _ (by omega)]
        refine ⟨by omega, by omega, fun q y k1 k2 kq => ?_, fun y hy => ?_⟩
        · have := n3 q y k1 (by omega) kq
          omega
        · rw [show t.m_lcp.length - 1 + 1 = t.m_lcp.length by omega,
            getElem?_none_of_le _ _ (le_refl _)] at hy
          cases hy

/-- The step to the next child, whenever it answers: the next interval starts right after
`ch`, is non-empty and stays inside `v`. -/
theorem next_child_spec (t : cst_cn) (hok : NprOK t.m_npr t.m_lcp) (v : node_type)
    (l : Nat) (hv2 : v.2 < t.m_lcp.length)
    (hdel : ∀ x, t.m_lcp[v.2 + 1]? = some x → x ≤ l)
    (ch : node_type) (hch : ch.2 < v.2) (c : node_type)
    (h : t.next_child v l ch = some c) :
    c.1 = ch.2 + 1 ∧ c.1 ≤ c.2 ∧ c.2 ≤ v.2 := by
  unfold cst_cn.next_child at h
  simp only at h
  by_cases hl : ch.2 + 1 = v.2
  · rw [if_pos hl] at h
    simp only [Option.map_some', Option.some.injEq] at h
    subst h
    exact ⟨rfl, le_refl _, le_of_eq hl⟩
  · rw [if_neg hl] at h
    rcases hr : t.m_npr.fwd_nsv (ch.2 + 1 + 1) (l + 1) with _ | r
    · rw [hr] at h
      cases h
    · rw [hr] at h
      simp only [Option.map_some', Option.some.injEq] at h
      subst h
      simp only
      rcases hok.fwd_nsv _ _ _ hr with ⟨n1, n2, _, _, n5⟩ | ⟨n1, _, n3⟩
      · rw [sub64_one _ (by omega)]
        refine ⟨trivial, by omega, ?_⟩
        by_contra hc
        obtain ⟨x, hx⟩ := getElem?_some_of_lt t.m_lcp (v.2 + 1) (by omega)
        have e1 := hdel x hx
        have e2 := n5 (v.2 + 1) x (by omega) (by omega) hx
        omega
      · rw [n1, sub64_one _ (by omega)]
        refine ⟨trivial, by omega, ?_⟩
        by_contra hc
        obtain ⟨x, hx⟩ := getElem?_some_of_lt t.m_lcp (v.2 + 1) (by omega)
        have e1 := hdel x hx
        have e2 := n3 (v.2 + 1) x (by omega) (by omega) hx
        omega

/-- The loop of `degree` and the loop of `select_child` walk the same chain of children:
when the count `k` is returned from `ch` on, the children from `ch` on tile `v`, there are
`k - count` of them, and `select_child` reaches each of them. -/
theorem degree_loop_spec (t : cst_cn) (hok : NprOK t.m_npr t.m_lcp) (v : node_type)
    (l : Nat) (hv2 : v.2 < t.m_lcp.length)
    (hroot : t.root = (0, t.m_lcp.length - 1))
    (hdel : ∀ x, t.m_lcp[v.2 + 1]? = some x → x ≤ l) :
    ∀ fuel ch count k, ch.1 ≤ ch.2 → ch.2 ≤ v.2 → (0 < ch.1 ∨ ch.2 < v.2) →
      t.degree_loop v l fuel ch count = some (some k) →
      ∃ cs, k = count + cs.length + 1 ∧ ChildChain v ch cs ∧
        ∀ i x, (ch :: cs)[i]? = some x → t.select_child_loop v l i ch = some x := by
  intro fuel
  induction fuel with
  | zero =>
    intro ch count k _ _ _ h
    simp [cst_cn.degree_loop] at h
  | succ f ih =>
    intro ch count k h1 h2 h3 h
    have hne : ch ≠ t.root := by
      rw [hroot]
      intro hc
      rw [hc] at h3
      simp only at h3
      omega
    rw [cst_cn.degree_loop, if_neg hne] at h
    by_cases hlast : ch.2 ≥ v.2
    · rw [if_pos hlast] at h
      have hk : k = count + 1 := by
        cases f with
        | zero => simp [cst_cn.degree_loop] at h
        | succ g =>
          simp only [cst_cn.degree_loop, if_true, Option.some.injEq] at h
          omega
      refine ⟨[], by simpa using hk, ⟨h1, by omega⟩, ?_⟩
      intro i x hx
      cases i with
      | zero =>
        simp only [List.getElem?_cons_zero, Option.some.injEq] at hx
        subst hx
        rfl
      | succ j => simp at hx
    · rw [if_neg hlast] at h
      rcases hc : t.next_child v l ch with _ | c
      · rw [hc] at h
        cases h
      · rw [hc, Option.some_bind] at h
        obtain ⟨e1, e2, e3⟩ := next_child_spec t hok v l hv2 hdel ch (by omega) c hc
        obtain ⟨cs, g1, g2, g3⟩ := ih c (count + 1) k e2 e3 (Or.inl (by omega)) h
        refine ⟨c :: cs, by simp only [List.length_cons]; omega, ⟨h1, by omega, e1, g2⟩, ?_⟩
        intro i x hx
        cases i with
        | zero =>
          simp only [List.getElem?_cons_zero, Option.some.injEq] at hx
          subst hx
          rfl
        | succ j =>
          rw [List.getElem?_cons_succ] at hx
          rw [cst_cn.select_child_loop, if_neg hlast, hc, Option.some_bind]
          exact g3 j x hx

/-- The sizes along a chain of children add up to the part of `v` they tile. -/
theorem ChildChain.sum_sizes (t : cst_cn) (v : node_type) (h64 : v.2 + 1 < 2 ^ 64) :
    ∀ cs ch, ChildChain v ch cs →
      ((ch :: cs).map t.node_size).sum = v.2 - ch.1 + 1 := by
  have hsize : ∀ c : node_type, c.1 ≤ c.2 → c.2 ≤ v.2 → t.node_size c = c.2 - c.1 + 1 := by
    intro c h1 h2
    simp only [cst_cn.node_size, add64, sub64, if_pos h1]
    exact Nat.mod_eq_of_lt (by omega)
  intro cs
  induction cs with
  | nil =>
    intro ch h
    obtain ⟨h1, h2⟩ := h
    simp only [List.map_cons, List.map_nil, List.sum_cons, List.sum_nil, Nat.add_zero]
    rw [hsize ch h1 (by omega), h2]
  | cons c cs ih =>
    intro ch h
    obtain ⟨h1, h2, h3, h4⟩ := h
    have := ih c h4
    rw [List.map_cons, List.sum_cons, this, hsize ch h1 (by omega)]
    have hc : c.1 ≤ v.2 := by omega
    omega

/-- Whenever `degree(v)` answers `k` for an internal node `v`: `select_child(v, 1)`, ...,
`select_child(v, k)` answer too, they tile `v` from `v.first` to `v.second` in order, and
their sizes add up to `size(v)`. -/
theorem children_partition_of_some (t : cst_cn) (hok : NprOK t.m_npr t.m_lcp)
    (hsize : t.m_csa.size = t.m_lcp.length) (v : node_type) (hv : IsNode t.m_lcp v)
    (hint : v.1 < v.2) (hv2 : v.2 < t.m_lcp.length) (h64 : v.2 + 1 < 2 ^ 64)
    (fuel k : Nat) (hk : t.degree fuel v = some (some k)) :
    ∃ c cs, k = cs.length + 1 ∧ c.1 = v.1 ∧ ChildChain v c cs ∧
      (∀ i x, (c :: cs)[i]? = some x → t.select_child v (i + 1) = some x) ∧
      ((c :: cs).map t.node_size).sum = t.node_size v := by
  have hroot : t.root = (0, t.m_lcp.length - 1) := by
    simp only [cst_cn.root, hsize]
    rw [sub64_one _ (by omega)]
  have hleaf : t.is_leaf v = false := by
    simp only [cst_cn.is_leaf, beq_eq_false_iff_ne, ne_eq]
    omega
  unfold cst_cn.degree at hk
  rw [hleaf] at hk
  simp only [Bool.false_eq_true, if_false] at hk
  obtain ⟨p, l, hp, r1, r2, r3, r4, _⟩ := hok.rmq (v.1 + 1) v.2 (by omega) hv2
  rw [hp, Option.some_bind] at hk
  simp only at hk
  have hdel : ∀ x, t.m_lcp[v.2 + 1]? = some x → x ≤ l := by
    intro x hx
    rcases hv with hv | ⟨h, _, _, d3, _, d5⟩
    · rw [hv] at hx
      simp only at hx
      rw [getElem?_none_of_le _ _ (by omega)] at hx
      cases hx
    · have e1 := d3 p l (by omega) r2 r3
      have e2 := d5 x hx
      omega
  have hp1 : sub64 p 1 = p - 1 := sub64_one _ (by omega)
  rw [hp1] at hk
  obtain ⟨cs, g1, g2, g3⟩ := degree_loop_spec t hok v l hv2 hroot hdel fuel (v.1, p - 1) 0 k
    (by simp only; omega) (by simp only; omega) (Or.inr (by simp only; omega)) hk
  refine ⟨(v.1, p - 1), cs, by omega, rfl, g2, ?_, ?_⟩
  · intro i x hx
    unfold cst_cn.select_child
    rw [hleaf]
    simp only [Bool.false_eq_true, if_false]
    rw [hp, Option.some_bind]
    simp only
    rw [hp1, sub64_one _ (by omega), Nat.add_sub_cancel]
    exact g3 i x hx
  · rw [ChildChain.sum_sizes t v h64 cs _ g2]
    simp only [cst_cn.node_size, add64, sub64, if_pos (show v.1 ≤ v.2 by omega)]
    rw [Nat.mod_eq_of_lt (by omega)]

theorem ceil_lt_iff (a x k : Nat) (ha : 0 < a) : k < (x + a - 1) / a ↔ k * a < x := by
  have h : k + 1 ≤ (x + a - 1) / a ↔ (k + 1) * a ≤ x + a - 1 := Nat.le_div_iff_mul_le ha
  have e : (k + 1) * a = k * a + a := by rw [Nat.add_mul]; simp
  omega

/-- One summary step: when the entries of `rdA` are the minima of `lcp` over consecutive
windows of width `W`, the entries of its block summary are the minima over windows of
width `B * W`. -/
theorem IsSummary.range_step {B nA nM W : Nat} {rdA rdM rdP : Nat → Option Nat}
    {lcp : List Nat} (hS : IsSummary B rdA nA rdM rdP nM) (hB : 0 < B) (hW : 0 < W)
    (hcount : ∀ j, j < nA ↔ j * W < lcp.length)
    (hprev : ∀ j, j < nA → ∃ mj, rdA j = some mj ∧
      RangeMin lcp (j * W) (min ((j + 1) * W) lcp.length) mj) :
    (∀ k, k < nM ↔ k * (B * W) < lcp.length) ∧
      ∀ k, k < nM → ∃ m, rdM k = some m ∧
        RangeMin lcp (k * (B * W)) (min ((k + 1) * (B * W)) lcp.length) m := by
  have hcnt : ∀ k, k < nM ↔ k * (B * W) < lcp.length := by
    intro k
    rw [hS.size, ceil_lt_iff B nA k hB, hcount, Nat.mul_assoc]
  refine ⟨hcnt, ?_⟩
  intro k hk
  obtain ⟨m, p, hm, _, hpB, hpos, hAm, hmin, _⟩ := hS.block k hk
  refine ⟨m, hm, ?_, ?_⟩
  · obtain ⟨mj, hmj, ⟨q, q1, q2, q3⟩, _⟩ := hprev (k * B + p) hpos
    rw [hAm] at hmj
    cases hmj
    have e1 : k * (B * W) ≤ (k * B + p) * W := by
      rw [← Nat.mul_assoc]
      exact Nat.mul_le_mul_right W (by omega)
    have e2 : (k * B + p + 1) * W ≤ (k + 1) * (B * W) := by
      rw [← Nat.mul_assoc]
      refine Nat.mul_le_mul_right W ?_
      rw [Nat.add_mul]
      omega
    exact ⟨q, by omega, by omega, q3⟩
  · intro q w h1 h2 hq
    have hqn : q < lcp.length := by omega
    obtain ⟨r1, r2⟩ := block_range W q hW
    have hj : q / W < nA := (hcount _).2 (by omega)
    have hj1 : k * B ≤ q / W := by
      rw [Nat.le_div_iff_mul_le hW, Nat.mul_assoc]
      exact h1
    have hj2 : q / W < (k + 1) * B := by
      rw [Nat.div_lt_iff_lt_mul hW, Nat.mul_assoc]
      omega
    obtain ⟨mj, hmj, _, hall⟩ := hprev (q / W) hj
    have g1 := hmin (q / W) mj hj1 hj2 hmj
    have g2 := hall q w r1 (by omega) hq
    omega

/-- Along a chain of summaries with block size `B`, entry `j` of level `l` is the minimum
of the base array over the window `[j * B^l, (j + 1) * B^l)`, cut at its end. -/
theorem ChainOK.range_min {B n : Nat} {prev : List Nat} {M P : List int_vector}
    (h : ChainOK B n prev M P) (hB : 0 < B) :
    ∀ l, l ≤ M.length →
      (∀ j, j < chainN prev.length M l ↔ j * B ^ l < prev.length) ∧
      ∀ j, j < chainN prev.length M l → ∃ mj, chainA prev M l j = some mj ∧
        RangeMin prev (j * B ^ l) (min ((j + 1) * B ^ l) prev.length) mj := by
  intro l
  induction l with
  | zero =>
    intro _
    refine ⟨fun j => by simp [chainN], ?_⟩
    intro j hj
    simp only [chainN] at hj
    obtain ⟨x, hx⟩ : ∃ x, prev[j]? = some x := ⟨prev[j], List.getElem?_eq_getElem hj⟩
    refine ⟨x, hx, ⟨j, by simp, by simp; omega, hx⟩, ?_⟩
    intro q w h1 h2 hq
    simp only [pow_zero, Nat.mul_one] at h1 h2
    have : q = j := by omega
    subst this
    rw [hx] at hq
    cases hq
    exact le_refl _
  | succ l ih =>
    intro hl
    obtain ⟨ih1, ih2⟩ := ih (by omega)
    have hstep := (h.summ l (by omega)).range_step hB (Nat.pow_pos hB) ih1 ih2
    have e : B * B ^ l = B ^ (l + 1) := by rw [Nat.pow_succ, Nat.mul_comm]
    rw [e] at hstep
    exact hstep

theorem cn_construct_levels (B r : Nat) (lcp : List Nat) (hB : 0 < B) (hr : 0 < r)
    (hval : ∀ v ∈ lcp, v < lcp.length) :
    ∃ s, npr_support_cn.construct B r lcp = some s ∧ s.min_array.length = r ∧
      ChainOK B lcp.length lcp s.min_array s.pos_array := by
  obtain ⟨r', rfl⟩ : ∃ r', r = r' + 1 := ⟨r - 1, by omega⟩
  obtain ⟨s, hs, _, _, h3, h4⟩ := cn_construct_spec B r' lcp hB (values_of_mem lcp hval)
  exact ⟨s, hs, h3, h4⟩

theorem nsv_descend_total (B nA nM : Nat) (rdA rdM rdP : Nat → Option Nat) (d b lv : Nat)
    (u : Nat × Nat) (hS : IsSummary B rdA nA rdM rdP nM)
    (hA : ∀ j, j < nA → ∃ v, rdA j = some v)
    (hu : NsvSpec rdM nM d b lv u) :
    ∃ r, nsv_descend B nA rdA rdP (some nM) d u = some r := by
  unfold nsv_descend
  rw [Option.some_bind]
  rcases hu with ⟨_, h2, _, _, _⟩ | ⟨h1, _, _⟩
  · obtain ⟨m', p, _, hp, hpB, hpos, _, _, _⟩ := hS.block u.1 h2
    rw [if_neg (by omega), hp, Option.some_bind]
    by_cases hd1 : u.2 = sub64 d 1
    · rw [if_pos hd1]
      exact ⟨_, rfl⟩
    · rw [if_neg hd1]
      rcases first_below_spec rdA d (u.1 * B + p - u.1 * B) (u.1 * B)
          (fun j g1 g2 => hA j (by omega)) with ⟨j, v, hf, _⟩ | ⟨hf, _⟩
      · rw [hf]
        exact ⟨_, rfl⟩
      · rw [hf]
        exact ⟨_, rfl⟩
  · rw [if_pos h1]
    exact ⟨_, rfl⟩

/-- The common body of the forward searches answers whenever an entry below `d` exists
from `b` on, provided the search one level higher does so too. -/
theorem nsv_body_total (B nA nM : Nat) (rdA rdM rdP : Nat → Option Nat)
    (up : Nat → Nat → Option (Nat × Nat)) (d b lv : Nat)
    (hB : 0 < B) (hS : IsSummary B rdA nA rdM rdP nM)
    (hA : ∀ j, j < nA → ∃ v, rdA j = some v)
    (hex : ∃ q w, b ≤ q ∧ q < nA ∧ rdA q = some w ∧ w < d)
    (hupt : ∀ lv', (∃ k mk, b / B + 1 ≤ k ∧ k < nM ∧ rdM k = some mk ∧ mk < d) →
      ∃ r', up (b / B + 1) lv' = some r')
    (hups : ∀ lv' r', up (b / B + 1) lv' = some r' → NsvSpec rdM nM d (b / B + 1) lv' r') :
    ∃ r, nsv_body B (some nA) rdA rdM rdP (some nM) up d b lv = some r := by
  obtain ⟨q, w, hq1, hq2, hq3, hq4⟩ := hex
  have hblk : b / B < nM := block_lt B nA nM b hB hS.size (by omega)
  obtain ⟨m, p, hm, hp, hpB, hpos, hAm, hmin, hleft⟩ := hS.block (b / B) hblk
  have hge : d ≤ m → ∀ q w, b ≤ q → q < (b / B + 1) * B → q < nA → rdA q = some w → d ≤ w := by
    intro hd q w h1 h2 _ hq
    obtain ⟨hbr1, _⟩ := block_range B b hB
    have := hmin q w (by omega) h2 hq
    omega
  obtain ⟨home, hh, hcase⟩ := nsv_home_spec B nA rdA d b m hA hge
  unfold nsv_body
  rw [Option.some_bind, hm, Option.some_bind, hh, Option.some_bind]
  rcases hcase with ⟨j, v, h1, _⟩ | ⟨h1, h2, _⟩ | ⟨h1, h2, h3⟩
  · rw [h1]
    exact ⟨_, rfl⟩
  · rw [h1]
    simp only [h2, if_true]
    exact ⟨_, rfl⟩
  · rw [h1]
    simp only [h2, if_false]
    -- the entry below `d` lies in a later block
    have hqb : (b / B + 1) * B ≤ q := by
      by_contra hc
      have := h3 q w hq1 (by omega) hq2 hq3
      omega
    have hk1 : b / B + 1 ≤ q / B := (Nat.le_div_iff_mul_le hB).2 hqb
    have hk2 : q / B < nM := block_lt B nA nM q hB hS.size hq2
    obtain ⟨mk, pk, hmk, _, _, _, _, hmink, _⟩ := hS.block (q / B) hk2
    obtain ⟨r1, r2⟩ := block_range B q hB
    have hmkd : mk < d := by
      have := hmink q w r1 r2 hq3
      omega
    obtain ⟨u, hu⟩ := hupt lv ⟨q / B, mk, hk1, hk2, hmk, hmkd⟩
    rw [hu, Option.some_bind]
    exact nsv_descend_total B nA nM rdA rdM rdP d (b / B + 1) lv u hS hA (hups lv u hu)

section
variable {s : npr_support_cn}

theorem cn_find_nsv_block_total (hI : CnInv s) (d : Nat) :
    ∀ fuel k b lv, s.min_array.length ≤ fuel + k + 1 → 0 < b →
      (∃ q w, b ≤ q ∧ q < chainN s.m_lcp.length s.min_array (k + 1) ∧
        chainA s.m_lcp s.min_array (k + 1) q = some w ∧ w < d) →
      ∃ r, s.find_nsv_block fuel d b k lv = some r := by
  intro fuel
  induction fuel with
  | zero =>
    intro k b lv hf hb hex
    exfalso
    obtain ⟨q, w, h1, h2, _, _⟩ := hex
    rcases Nat.lt_or_ge s.min_array.length (k + 1) with hk | hk
    · have e : chainN s.m_lcp.length s.min_array (k + 1) = 0 := by
        have : s.min_array[k]? = none := by simp; omega
        simp [chainN, this]
      omega
    · have e : k + 1 = s.min_array.length := by omega
      have := hI.inv_top
      rw [← e] at this
      omega
  | succ fuel ih =>
    intro k b lv hf hb hex
    have hk : k + 1 < s.min_array.length := by
      obtain ⟨q, w, h1, h2, _, _⟩ := hex
      rcases Nat.lt_or_ge (k + 1) s.min_array.length with hk | hk
      · exact hk
      · exfalso
        rcases Nat.lt_or_ge s.min_array.length (k + 1) with hk' | hk'
        · have e : chainN s.m_lcp.length s.min_array (k + 1) = 0 := by
            have : s.min_array[k]? = none := by simp; omega
            simp [chainN, this]
          omega
        · have e : k + 1 = s.min_array.length := by omega
          have := hI.inv_top
          rw [← e] at this
          omega
    rw [cn_find_nsv_block_succ, level_size_chainN s.m_lcp.length _ k (by omega),
      level_size_chainN s.m_lcp.length _ (k + 1) hk]
    exact nsv_body_total s.block_size _ _ (chainA s.m_lcp s.min_array (k + 1)) _ _ _ d b lv
      hI.hB (hI.chain.summ (k + 1) hk) (hI.readable (k + 1) (by omega)) hex
      (fun lv' hx => ih (k + 1) _ lv' (by omega) (Nat.succ_pos _) hx)
      (fun lv' r' hr' => cn_find_nsv_block_partial hI d _ (k + 1) _ lv' r' hr')

theorem cn_fwd_nsv_total (hI : CnInv s) (i d : Nat)
    (hex : ∃ q w, i ≤ q ∧ s.m_lcp[q]? = some w ∧ w < d) :
    ∃ r, s.fwd_nsv i d = some r := by
  obtain ⟨q, w, h1, h2, h3⟩ := hex
  have hq : q < s.m_lcp.length := by
    rcases Nat.lt_or_ge q s.m_lcp.length with h | h
    · exact h
    · rw [getElem?_none_of_le _ _ h] at h2
      cases h2
  have hs : sub64 s.m_lcp.length 1 = s.m_lcp.length - 1 := sub64_one _ hI.pos
  have hc : ¬ (d = 0 ∨ i > sub64 s.m_lcp.length 1) := by
    rw [hs]
    omega
  rw [cn_fwd_nsv_eq s i d hc, level_size_chainN s.m_lcp.length _ 0 hI.levels]
  exact nsv_body_total s.block_size _ _ (chainA s.m_lcp s.min_array 0) _ _ _ d i _
    hI.hB (hI.chain.summ 0 hI.levels) (hI.readable 0 (by omega)) ⟨q, w, h1, hq, h2, h3⟩
    (fun lv' hx => cn_find_nsv_block_total hI d _ 0 _ lv' (by omega) (Nat.succ_pos _) hx)
    (fun lv' r' hr' => cn_find_nsv_block_partial hI d _ 0 _ lv' r' hr')

end

section
variable {s : npr_support_cnr} {m1 : int_vector} {M' : List int_vector} {p0 p1 : int_vector}
  {P' : List int_vector}

theorem cnr_find_nsv_block_2_total (hI : CnrInv s) (hU : CnrUpper s m1 M' p0 p1 P')
    (d : Nat) :
    ∀ fuel k b lv, M'.length ≤ fuel + k → 0 < b →
      (∃ q w, b ≤ q ∧ q < chainN m1.data.length M' k ∧ chainA m1.data M' k q = some w ∧
        w < d) →
      ∃ r, s.find_nsv_block_2 fuel d b (k + 1) lv = some r := by
  intro fuel
  induction fuel with
  | zero =>
    intro k b lv hf hb hex
    exfalso
    obtain ⟨q, w, h1, h2, h3, _⟩ := hex
    rcases Nat.lt_or_ge M'.length k with hk | hk
    · have e : chainN m1.data.length M' k = 0 := by
        obtain ⟨j, rfl⟩ : ∃ j, k = j + 1 := ⟨k - 1, by omega⟩
        have : M'[j]? = none := by simp; omega
        simp [chainN, this]
      omega
    · have := hU.next_level (k := k) (by omega) (by omega)
      omega
  | succ fuel ih =>
    intro k b lv hf hb hex
    have hk : k < M'.length := by
      obtain ⟨q, w, h1, h2, h3, _⟩ := hex
      rcases Nat.lt_or_ge M'.length k with hk | hk
      · exfalso
        have e : chainN m1.data.length M' k = 0 := by
          obtain ⟨j, rfl⟩ : ∃ j, k = j + 1 := ⟨k - 1, by omega⟩
          have : M'[j]? = none := by simp; omega
          simp [chainN, this]
        omega
      · exact hU.next_level (k := k) (by omega) (by omega)
    rw [cnr_find_nsv_block_2_succ, hU.e_min_below, hU.e_min, hU.e_pos,
      hU.e_pos_size k (by omega), hU.e_min_size k hk]
    refine nsv_body_total s.block_size _ _ (chainA m1.data M' k) _ _ _ d b lv
      hI.hB (hU.chain.summ k hk) (fun j hj => ?_) hex
      (fun lv' hx => ih (k + 1) _ lv' (by omega) (Nat.succ_pos _) hx)
      (fun lv' r' hr' => cnr_find_nsv_block_2_partial hI hU d _ (k + 1) _ lv' r' hr')
    obtain ⟨v, hv, _⟩ := hU.chain.arr k (by omega) j hj
    exact ⟨v, hv⟩

theorem cnr_find_nsv_block_total (hI : CnrInv s) (d b lv : Nat) (hb : 0 < b)
    (hex : ∃ q w, b ≤ q ∧ q < (s.m_lcp.length + s.sbs - 1) / s.sbs ∧
      s.level0_min q = some w ∧ w < d) :
    ∃ r, s.find_nsv_block d b lv = some r := by
  rcases hI.upper with ⟨h1, _⟩ | ⟨m1, M', p0, p1, P', h1, h2, h3, h4, h5, h6⟩
  · exfalso
    obtain ⟨q, w, g1, g2, _, _⟩ := hex
    omega
  · have hU : CnrUpper s m1 M' p0 p1 P' := ⟨h1, h2, h3, h4, h5, h6⟩
    have e1 : level_get s.min_array 0 = fun j => m1.data[j]? := by
      rw [hU.hM, level_get_cons_zero]
    have e2 : level_get s.pos_array 1 = fun j => p1.data[j]? := by
      rw [hU.hP, level_get_cons_succ, level_get_cons_zero]
    have e3 : level_size s.pos_array 1 = some m1.data.length := by
      simpa [chainN] using hU.e_pos_size 0 (by omega)
    have hlen : s.pos_array.length = M'.length + 2 := by
      rw [hU.hP]
      have := hU.chain.len
      simp only [List.length_cons]
      omega
    rw [cnr_find_nsv_block_eq, hI.size0, e1, e2, e3]
    refine nsv_body_total s.sbs _ _ s.level0_min _ _ _ d b lv hI.hsbs hU.sum1
      (fun j hj => ?_) hex
      (fun lv' hx => cnr_find_nsv_block_2_total hI hU d _ 0 _ lv' (by omega)
        (Nat.succ_pos _) hx)
      (fun lv' r' hr' => cnr_find_nsv_block_2_partial hI hU d _ 0 _ lv' r' hr')
    obtain ⟨v, hv, _⟩ := hI.arr1 j hj
    exact ⟨v, hv⟩

theorem cnr_fwd_nsv_total (hI : CnrInv s) (i d : Nat)
    (hex : ∃ q w, i ≤ q ∧ s.m_lcp[q]? = some w ∧ w < d) :
    ∃ r, s.fwd_nsv i d = some r := by
  obtain ⟨q, w, h1, h2, h3⟩ := hex
  have hq : q < s.m_lcp.length := by
    rcases Nat.lt_or_ge q s.m_lcp.length with h | h
    · exact h
    · rw [getElem?_none_of_le _ _ h] at h2
      cases h2
  have hs : sub64 s.m_lcp.length 1 = s.m_lcp.length - 1 := sub64_one _ hI.pos
  have hc : ¬ (d = 0 ∨ i > sub64 s.m_lcp.length 1) := by
    rw [hs]
    omega
  rw [cnr_fwd_nsv_eq s i d hc, cnr_level0_min_comm, hI.size0]
  refine nsv_body_total s.sbs _ _ (fun q => s.m_lcp[q]?) _ _ _ d i _ hI.hsbs hI.sum0
    (fun j hj => ?_) ⟨q, w, h1, hq, h2, h3⟩
    (fun lv' hx => cnr_find_nsv_block_total hI d _ lv' (Nat.succ_pos _) hx)
    (fun lv' r' hr' => cnr_find_nsv_block_partial hI d _ lv' r' hr')
  obtain ⟨v, hv, _⟩ := hI.arr0 j hj
  exact ⟨v, hv⟩

end

/-- Both variants, once constructed, satisfy the contract `NprOK` and find what there is
to find in a forward search. -/
theorem npr_construct_found (cfg : npr_config) (lcp : List Nat)
    (hcfg : (∃ B r, cfg = .cn B r ∧ 2 ≤ B ∧ lcp.length ≤ B ^ r) ∨
      (∃ B b, cfg = .cnr B b ∧ 2 ≤ B ∧ 0 < b))
    (hn : 2 ≤ lcp.length) (h0 : lcp[0]? = some 0) (hval : ∀ v ∈ lcp, v < lcp.length) :
    ∃ npr, npr_type.construct cfg lcp = some npr ∧ NprOK npr lcp ∧ NsvFound npr lcp := by
  obtain ⟨npr, hnpr, hok⟩ := npr_construct_ok cfg lcp hcfg hn h0 hval
  refine ⟨npr, hnpr, hok, ?_⟩
  rcases hcfg with ⟨B, r, rfl, hB, hr⟩ | ⟨B, b, rfl, hB, hb⟩
  · obtain ⟨s, hs, hl, _, hI⟩ := cn_construct_ok B r lcp hB hr hn h0 hval
    have e : npr = .cn s := by
      simp only [npr_type.construct, hs, Option.map_some', Option.some.injEq] at hnpr
      exact hnpr.symm
    subst e
    subst hl
    intro i d hex
    exact cn_fwd_nsv_total hI i d hex
  · obtain ⟨s, hs, hl, _, _, hI⟩ := cnr_construct_ok B b lcp hB hb h0 hval
    have e : npr = .cnr s := by
      simp only [npr_type.construct, hs, Option.map_some', Option.some.injEq] at hnpr
      exact hnpr.symm
    subst e
    subst hl
    intro i d hex
    exact cnr_fwd_nsv_total hI i d hex

theorem bits_hi_loop_eq_log : ∀ fuel x, x ≤ fuel → bits_hi_loop fuel x = Nat.log 2 x := by
  intro fuel
  induction fuel with
  | zero =>
    intro x hx
    have : x = 0 := by omega
    subst this
    simp [bits_hi_loop]
  | succ fuel ih =>
    intro x hx
    unfold bits_hi_loop
    by_cases h2 : x < 2
    · rw [if_pos h2, Nat.log_of_lt h2]
    · rw [if_neg h2, ih (x / 2) (by omega),
        Nat.log_of_one_lt_of_le (by decide) (by omega : 2 ≤ x)]

/-- The function `bits::hi` is the rounded-down binary logarithm. -/
theorem bits_hi_eq_log (x : Nat) : bits_hi x = Nat.log 2 x :=
  bits_hi_loop_eq_log x x (le_refl _)

/-- For `n >= 1`, `hi(n) + 1` is the rounded-up binary logarithm of `n + 1`. -/
theorem bits_hi_succ_eq_clog (n : Nat) (hn : 0 < n) : bits_hi n + 1 = Nat.clog 2 (n + 1) := by
  rw [bits_hi_eq_log]
  apply le_antisymm
  · by_contra hlt
    have h1 : Nat.clog 2 (n + 1) ≤ Nat.log 2 n := by omega
    have h2 : n + 1 ≤ 2 ^ Nat.clog 2 (n + 1) := Nat.le_pow_clog (by decide) _
    have h3 : 2 ^ Nat.clog 2 (n + 1) ≤ 2 ^ Nat.log 2 n := Nat.pow_le_pow_right (by decide) h1
    have h4 : 2 ^ Nat.log 2 n ≤ n := Nat.pow_log_le_self 2 (by omega)
    omega
  · rw [← Nat.le_pow_iff_clog_le (by decide)]
    exact Nat.lt_pow_succ_log_self (by decide) n

theorem other_levels_width (B n bm bp : Nat) :
    ∀ c prev tp rest, other_levels B n bm bp c prev tp = some rest →
      ∀ x ∈ rest, x.1.width = bm ∧ x.2.width = bp := by
  intro c
  induction c with
  | zero =>
    intro prev tp rest h x hx
    simp only [other_levels, Option.some.injEq] at h
    subst h
    simp at hx
  | succ c ih =>
    intro prev tp rest h x hx
    simp only [other_levels, Option.bind_eq_some, Option.map_eq_some'] at h
    obtain ⟨l, _, rest', h2, h3⟩ := h
    subst h3
    rcases List.mem_cons.1 hx with rfl | hx'
    · exact ⟨rfl, rfl⟩
    · exact ih _ _ _ h2 x hx'

/-- Widths of the levels of a constructed `cn` index. -/
theorem cn_construct_width (B r : Nat) (lcp : List Nat) (s : npr_support_cn)
    (h : npr_support_cn.construct B r lcp = some s) :
    (∀ v ∈ s.min_array, v.width = bits_hi lcp.length + 1) ∧
      ∀ v ∈ s.pos_array, v.width = bits_hi B + 1 := by
  cases r with
  | zero => simp [npr_support_cn.construct] at h
  | succ r =>
    simp only [npr_support_cn.construct, Option.bind_eq_some, Option.map_eq_some'] at h
    obtain ⟨l0, _, rest, h2, h3⟩ := h
    subst h3
    have hw := other_levels_width _ _ _ _ _ _ _ _ h2
    constructor
    · intro v hv
      rcases List.mem_cons.1 hv with rfl | hv'
      · rfl
      · obtain ⟨x, hx, rfl⟩ := List.mem_map.1 hv'
        exact (hw x hx).1
    · intro v hv
      rcases List.mem_cons.1 hv with rfl | hv'
      · rfl
      · obtain ⟨x, hx, rfl⟩ := List.mem_map.1 hv'
        exact (hw x hx).2

/-- Widths of the levels of a constructed `cnr` index. -/
theorem cnr_construct_width (B b : Nat) (lcp : List Nat) (s : npr_support_cnr)
    (h : npr_support_cnr.construct B b lcp = some s) :
    (∀ v ∈ s.min_array, v.width = bits_hi lcp.length + 1) ∧
      ∀ l v, s.pos_array[l]? = some v →
        v.width = if l < 2 then bits_hi b + 1 else bits_hi B + 1 := by
  simp only [npr_support_cnr.construct, Option.bind_eq_some] at h
  obtain ⟨n_lev, _, h⟩ := h
  split_ifs at h with h0 h1
  · simp only [Option.bind_eq_some, Option.map_eq_some'] at h
    obtain ⟨l0, _, l1, _, rest, h2, h3⟩ := h
    subst h3
    have hw := other_levels_width _ _ _ _ _ _ _ _ h2
    constructor
    · intro v hv
      rcases List.mem_cons.1 hv with rfl | hv'
      · rfl
      · obtain ⟨x, hx, rfl⟩ := List.mem_map.1 hv'
        exact (hw x hx).1
    · intro l v hv
      match l with
      | 0 =>
        simp only [List.getElem?_cons_zero, Option.some.injEq] at hv
        subst hv
        rfl
      | 1 =>
        simp only [List.getElem?_cons_succ, List.getElem?_cons_zero, Option.some.injEq] at hv
        subst hv
        rfl
      | l + 2 =>
        simp only [List.getElem?_cons_succ] at hv
        obtain ⟨x, hx, rfl⟩ := List.mem_map.1 (List.getElem?_mem hv)
        rw [if_neg (by omega)]
        exact (hw x hx).2
  · simp only [Option.bind_eq_some, Option.some.injEq] at h
    obtain ⟨l0, _, h3⟩ := h
    subst h3
    constructor
    · intro v hv
      simp at hv
    · intro l v hv
      match l with
      | 0 =>
        simp only [List.getElem?_cons_zero, Option.some.injEq] at hv
        subst hv
        rfl
      | l + 1 => simp at hv

/-- The loop of `serialize` writes the remaining levels pairwise. -/
theorem serialize_loop_eq (s : npr_support_cnr)
    (hlen : s.pos_array.length = s.min_array.length + 1) :
    ∀ c i, 1 ≤ i → i + c = s.pos_array.length →
      s.serialize_loop c i =
        some (((s.min_array.drop (i - 1)).zip (s.pos_array.drop i)).flatMap fun x =>
          [stream_item.vector x.1, stream_item.vector x.2]) := by
  intro c
  induction c with
  | zero =>
    intro i hi hc
    have e : s.pos_array.drop i = [] := List.drop_eq_nil_of_le (by omega)
    simp [npr_support_cnr.serialize_loop, e]
  | succ c ih =>
    intro i hi hc
    have h1 : i - 1 < s.min_array.length := by omega
    have h2 : i < s.pos_array.length := by omega
    have e1 : s.min_array.drop (i - 1) = s.min_array[i - 1] :: s.min_array.drop i := by
      rw [List.drop_eq_getElem_cons h1]
      congr 2
      omega
    have e2 : s.pos_array.drop i = s.pos_array[i] :: s.pos_array.drop (i + 1) :=
      List.drop_eq_getElem_cons h2
    unfold npr_support_cnr.serialize_loop
    rw [List.getElem?_eq_getElem h1, List.getElem?_eq_getElem h2, Option.some_bind,
      Option.some_bind, ih (i + 1) (by omega) (by omega), e1, e2]
    simp only [Nat.add_sub_cancel, Option.map_some', List.zip_cons_cons, List.flatMap_cons,
      List.cons_append, List.nil_append]

/-- The loop of `load` reads what the loop of `serialize` wrote and fills the remaining
levels, whatever they held before. -/
theorem load_loop_spec (M P : List int_vector) (hlen : P.length = M.length + 1)
    (rest : List stream_item) :
    ∀ c i mins poss, 1 ≤ i → i + c = P.length → mins.length = M.length →
      poss.length = P.length → (∀ j, j < i - 1 → mins[j]? = M[j]?) →
      (∀ j, j < i → poss[j]? = P[j]?) →
      npr_support_cnr.load_loop c i mins poss
          ((((M.drop (i - 1)).zip (P.drop i)).flatMap fun x =>
            [stream_item.vector x.1, stream_item.vector x.2]) ++ rest) =
        some (M, P, rest) := by
  intro c
  induction c with
  | zero =>
    intro i mins poss hi hc hm hp h1 h2
    have e : P.drop i = [] := List.drop_eq_nil_of_le (by omega)
    have em : mins = M := by
      apply List.ext_getElem? 
      intro j
      by_cases hj : j < i - 1
      · exact h1 j hj
      · rw [List.getElem?_eq_none (by omega), List.getElem?_eq_none (by omega)]
    have ep : poss = P := by
      apply List.ext_getElem?
      intro j
      by_cases hj : j < i
      · exact h2 j hj
      · rw [List.getElem?_eq_none (by omega), List.getElem?_eq_none (by omega)]
    simp [npr_support_cnr.load_loop, e, em, ep]
  | succ c ih =>
    intro i mins poss hi hc hm hp h1 h2
    have g1 : i - 1 < M.length := by omega
    have g2 : i < P.length := by omega
    have e1 : M.drop (i - 1) = M[i - 1] :: M.drop i := by
      rw [List.drop_eq_getElem_cons g1]
      congr 2
      omega
    have e2 : P.drop i = P[i] :: P.drop (i + 1) := List.drop_eq_getElem_cons g2
    rw [e1, e2]
    simp only [List.zip_cons_cons, List.flatMap_cons, List.cons_append, List.nil_append,
      npr_support_cnr.load_loop]
    rw [if_pos ⟨by omega, by omega⟩]
    have := ih (i + 1) (mins.set (i - 1) M[i - 1]) (poss.set i P[i]) (by omega) (by omega)
      (by simp [hm]) (by simp [hp]) ?_ ?_
    · simpa using this
    · intro j hj
      rw [List.getElem?_set]
      by_cases hji : i - 1 = j
      · subst hji
        simp [hm, g1]
      · rw [if_neg hji]
        exact h1 j (by omega)
    · intro j hj
      rw [List.getElem?_set]
      by_cases hji : i = j
      · subst hji
        simp [hp, g2]
      · rw [if_neg hji]
        exact h2 j (by omega)

theorem resize_levels_length (xs : List int_vector) (k : Nat) :
    (resize_levels xs k).length = k := by
  simp [resize_levels]
  omega

theorem last_below_none (rd : Nat → Option Nat) (d u : Nat) :
    ∀ b, u ≤ b → rd b = none → last_below rd d u b = none := by
  intro b hu hb
  cases b with
  | zero =>
    have : ¬ 0 < u := by omega
    simp [last_below, this, hb]
  | succ j =>
    have : ¬ j + 1 < u := by omega
    simp [last_below, this, hb]

/-- A backward search that starts at or beyond the end of the array and answers gives the
answer of the search from the last position: the home block is the last block, its scan
would read outside, so its summary is not below `d` and the search goes on as from the last
position. -/
theorem psv_body_beyond (B nA : Nat) (n : Option Nat) (rdA rdM rdP : Nat → Option Nat)
    (szM : Option Nat) (up : Nat → Nat → Option (Nat × Nat)) (d b lv : Nat)
    (hB : 0 < B) (hnA : 0 < nA) (hb : nA ≤ b) (hA : ∀ j, nA ≤ j → rdA j = none)
    (hM : ∀ k, (nA + B - 1) / B ≤ k → rdM k = none) (r : Nat × Nat)
    (h : psv_body B n rdA rdM rdP szM up d b lv = some r) :
    psv_body B n rdA rdM rdP szM up d (nA - 1) lv = some r := by
  cases n with
  | none => simp [psv_body] at h
  | some n =>
    by_cases hk : (nA + B - 1) / B ≤ b / B
    · simp [psv_body, hM _ hk] at h
    · have e1 : (nA + B - 1) / B = (nA - 1) / B + 1 := by
        rw [show nA + B - 1 = nA - 1 + B by omega, Nat.add_div_right _ hB]
      have e2 : (nA - 1) / B ≤ b / B := Nat.div_le_div_right (by omega)
      have hblock : b / B = (nA - 1) / B := by omega
      simp only [psv_body, Option.some_bind] at h ⊢
      rw [hblock] at h
      cases hm : rdM ((nA - 1) / B) with
      | none => simp [hm] at h
      | some m =>
        rw [hm] at h
        simp only [Option.some_bind] at h ⊢
        by_cases hmd : m < d
        · have hu : B * ((nA - 1) / B) ≤ b := by
            have := Nat.mul_div_le (nA - 1) B
            omega
          rw [if_pos hmd, last_below_none rdA d _ b hu (hA b hb)] at h
          simp at h
        · rw [if_neg hmd] at h ⊢
          exact h

theorem level_get_none_of_level_size (L : List int_vector) (l sz j : Nat)
    (h : level_size L l = some sz) (hj : sz ≤ j) : level_get L l j = none := by
  unfold level_size at h
  unfold level_get
  cases hl : L[l]? with
  | none => rfl
  | some v =>
    rw [hl] at h
    simp only [Option.map_some', Option.some.injEq, int_vector.size] at h
    simp [h, hj]

theorem cn_bwd_psv_beyond {s : npr_support_cn} (hI : CnInv s) (i d : Nat)
    (hi : s.m_lcp.length ≤ i) (r : Nat × Nat) (h : s.bwd_psv i d = some r) :
    s.bwd_psv (s.m_lcp.length - 1) d = some r := by
  by_cases hd : d = 0
  · subst hd
    simpa [npr_support_cn.bwd_psv] using h
  · rw [cn_bwd_psv_eq s i d hd] at h
    rw [cn_bwd_psv_eq s _ d hd]
    refine psv_body_beyond s.block_size s.m_lcp.length _ _ _ _ _ _ d i _ hI.hB hI.pos hi
      (fun j hj => getElem?_none_of_le _ _ hj) (fun k hk => ?_) r h
    apply level_get_none_of_size s.m_lcp.length
    rw [hI.chain.size_succ hI.levels]
    exact hk

theorem cnr_bwd_psv_beyond {s : npr_support_cnr} (hI : CnrInv s) (i d : Nat)
    (hi : s.m_lcp.length ≤ i) (r : Nat × Nat) (h : s.bwd_psv i d = some r) :
    s.bwd_psv (s.m_lcp.length - 1) d = some r := by
  by_cases hd : d = 0
  · subst hd
    simpa [npr_support_cnr.bwd_psv] using h
  · rw [cnr_bwd_psv_eq s i d hd] at h
    rw [cnr_bwd_psv_eq s _ d hd]
    refine psv_body_beyond s.sbs s.m_lcp.length _ _ _ _ _ _ d i _ hI.hsbs hI.pos hi
      (fun j hj => getElem?_none_of_le _ _ hj) (fun k hk => ?_) r h
    rw [level_get_none_of_level_size _ _ _ _ hI.size0 hk]
    rfl

/-- The value reported by a backward search of either variant belongs to the position it
returns, for every start and every threshold. -/
theorem bwd_psv_l_value (cfg : npr_config) (lcp : List Nat)
    (hcfg : (∃ B r, cfg = .cn B r ∧ 2 ≤ B ∧ lcp.length ≤ B ^ r) ∨
      (∃ B b, cfg = .cnr B b ∧ 2 ≤ B ∧ 0 < b))
    (hn : 2 ≤ lcp.length) (h0 : lcp[0]? = some 0) (hval : ∀ v ∈ lcp, v < lcp.length) :
    ∃ npr, npr_type.construct cfg lcp = some npr ∧ NprOK npr lcp ∧ NsvFound npr lcp ∧
      ∀ i d r, npr.bwd_psv i d = some r →
        (r.1 < lcp.length ∧ lcp[r.1]? = some r.2) ∨ (r.1 = lcp.length ∧ r.2 = lcp.length) := by
  obtain ⟨npr, hnpr, hok, hf⟩ := npr_construct_found cfg lcp hcfg hn h0 hval
  refine ⟨npr, hnpr, hok, hf, ?_⟩
  have key : ∀ i d r, i < lcp.length → npr.bwd_psv i d = some r →
      (r.1 < lcp.length ∧ lcp[r.1]? = some r.2) ∨ (r.1 = lcp.length ∧ r.2 = lcp.length) := by
    intro i d r hi h
    by_cases hd : d = 0
    · subst hd
      rw [hok.bwd_psv_zero] at h
      cases h
      exact Or.inr ⟨rfl, rfl⟩
    · obtain ⟨p, v, hp, h1, h2, _⟩ := hok.bwd_psv i d hi (by omega)
      rw [hp] at h
      cases h
      exact Or.inl ⟨by omega, h2⟩
  intro i d r h
  by_cases hi : i < lcp.length
  · exact key i d r hi h
  · refine key (lcp.length - 1) d r (by omega) ?_
    rcases hcfg with ⟨B, r', rfl, hB, hr⟩ | ⟨B, b, rfl, hB, hb⟩
    · obtain ⟨s, hs, hl, _, hI⟩ := cn_construct_ok B r' lcp hB hr hn h0 hval
      simp only [npr_type.construct, hs, Option.map_some', Option.some.injEq] at hnpr
      subst hnpr
      subst hl
      exact cn_bwd_psv_beyond hI i d (by omega) r h
    · obtain ⟨s, hs, hl, _, _, hI⟩ := cnr_construct_ok B b lcp hB hb h0 hval
      simp only [npr_type.construct, hs, Option.map_some', Option.some.injEq] at hnpr
      subst hnpr
      subst hl
      exact cnr_bwd_psv_beyond hI i d (by omega) r h

/-- The inner walk of `laqt` ends only at `res`. -/
theorem laqt_walk_end (t : cst_cn) (res : node_type) :
    ∀ fuel aux node_d aux1 node_d1,
      t.laqt_walk res fuel aux node_d = some (some (aux1, node_d1)) → aux1 = res := by
  intro fuel
  induction fuel with
  | zero =>
    intro aux node_d aux1 node_d1 h
    simp [cst_cn.laqt_walk] at h
  | succ fuel ih =>
    intro aux node_d aux1 node_d1 h
    unfold cst_cn.laqt_walk at h
    by_cases he : aux = res
    · rw [if_pos he] at h
      simp only [Option.some.injEq, Prod.mk.injEq] at h
      rw [← h.1, he]
    · rw [if_neg he] at h
      cases hp : t.parent aux with
      | none => simp [hp] at h
      | some p =>
        rw [hp, Option.some_bind] at h
        exact ih _ _ _ _ h

/-- The outer loop of `laqt` never changes `res`. -/
theorem laqt_loop_result (t : cst_cn) (v : node_type) (d inner : Nat) :
    ∀ fuel res node_d diff r,
      t.laqt_loop v d inner fuel res node_d diff = some (some r) → r = res := by
  intro fuel
  induction fuel with
  | zero =>
    intro res node_d diff r h
    simp [cst_cn.laqt_loop] at h
  | succ fuel ih =>
    intro res node_d diff r h
    unfold cst_cn.laqt_loop at h
    by_cases hc : diff ≠ 0 ∧ res ≠ v
    · rw [if_pos hc] at h
      simp only [Option.bind_eq_some] at h
      obtain ⟨node_sd, _, aux, _, walked, hw, h⟩ := h
      cases walked with
      | none => simp at h
      | some w =>
        obtain ⟨aux1, node_d1⟩ := w
        have e := laqt_walk_end t res inner aux node_d aux1 node_d1 hw
        subst e
        exact ih _ _ _ _ h
    · rw [if_neg hc] at h
      simp only [Option.some.injEq] at h
      exact h.symm

/-- The first child `[v.first, rmq(v.first + 1, v.second).pos - 1]` is a child. -/
theorem first_child_is_child (lcp : List Nat) (v : node_type) (p1 h : Nat)
    (hR : RmqSpec (fun q => lcp[q]?) (v.1 + 1) v.2 p1 h) :
    IsChild lcp v h (v.1, sub64 p1 1) := by
  obtain ⟨r1, r2, r3, _, r5⟩ := hR
  rw [sub64_one _ (by omega)]
  refine ⟨le_refl _, ?_, ?_, Or.inl rfl, Or.inr ?_, ?_⟩
  · show v.1 ≤ p1 - 1
    omega
  · show p1 - 1 ≤ v.2
    omega
  · show lcp[p1 - 1 + 1]? = some h
    rw [show p1 - 1 + 1 = p1 by omega]
    exact r3
  · intro q x hq1 hq2 hx
    exact r5 q x (Nat.succ_le_of_lt hq1) (by
      have : q ≤ p1 - 1 := hq2
      omega) hx

/-- The step to the next child, whenever it answers, yields the child that starts right
after `ch`. -/
theorem next_child_is_child (t : cst_cn) (hok : NprOK t.m_npr t.m_lcp) (v : node_type)
    (h : Nat) (hv2 : v.2 < t.m_lcp.length)
    (hge : ∀ q x, v.1 < q → q ≤ v.2 → t.m_lcp[q]? = some x → h ≤ x)
    (hdel : ∀ x, t.m_lcp[v.2 + 1]? = some x → x ≤ h)
    (ch : node_type) (hch : IsChild t.m_lcp v h ch) (hlt : ch.2 < v.2) (c : node_type)
    (hc : t.next_child v h ch = some c) :
    IsChild t.m_lcp v h c ∧ c.1 = ch.2 + 1 := by
  obtain ⟨c1, c2, _, _, c5, _⟩ := hch
  have hstart : t.m_lcp[ch.2 + 1]? = some h := by
    rcases c5 with c5 | c5
    · omega
    · exact c5
  unfold cst_cn.next_child at hc
  simp only at hc
  by_cases hl : ch.2 + 1 = v.2
  · rw [if_pos hl] at hc
    simp only [Option.map_some', Option.some.injEq] at hc
    subst hc
    refine ⟨⟨?_, le_refl _, le_of_eq hl, Or.inr hstart, Or.inl hl, ?_⟩, rfl⟩
    · show v.1 ≤ ch.2 + 1
      omega
    · intro q x hq1 hq2 _
      have a : ch.2 + 1 < q := hq1
      have b : q ≤ ch.2 + 1 := hq2
      omega
  · rw [if_neg hl] at hc
    rcases hr : t.m_npr.fwd_nsv (ch.2 + 1 + 1) (h + 1) with _ | r
    · rw [hr] at hc
      cases hc
    · rw [hr] at hc
      simp only [Option.map_some', Option.some.injEq] at hc
      subst hc
      rcases hok.fwd_nsv _ _ _ hr with ⟨n1, n2, n3, n4, n5⟩ | ⟨n1, _, n3⟩
      · have n3b : t.m_lcp[r.1]? = some r.2 := n3
        have hle : r.1 ≤ v.2 + 1 := by
          by_contra hcon
          obtain ⟨x, hx⟩ := getElem?_some_of_lt t.m_lcp (v.2 + 1) (by omega)
          have e1 := hdel x hx
          have e2 := n5 (v.2 + 1) x (by omega) (by omega) hx
          omega
        rw [sub64_one _ (by omega)]
        refine ⟨⟨?_, ?_, ?_, Or.inr hstart, ?_, ?_⟩, rfl⟩
        · show v.1 ≤ ch.2 + 1
          omega
        · show ch.2 + 1 ≤ r.1 - 1
          omega
        · show r.1 - 1 ≤ v.2
          omega
        · show r.1 - 1 = v.2 ∨ t.m_lcp[r.1 - 1 + 1]? = some h
          by_cases he : r.1 = v.2 + 1
          · exact Or.inl (by omega)
          · right
            rw [show r.1 - 1 + 1 = r.1 by omega, n3b]
            have := hge r.1 r.2 (by omega) (by omega) n3b
            exact congrArg some (by omega)
        · intro q x hq1 hq2 hx
          have a : ch.2 + 1 < q := hq1
          have b : q ≤ r.1 - 1 := hq2
          have := n5 q x (by omega) (by omega) hx
          omega
      · have hlast : v.2 + 1 = t.m_lcp.length := by
          by_contra hcon
          obtain ⟨x, hx⟩ := getElem?_some_of_lt t.m_lcp (v.2 + 1) (by omega)
          have e1 := hdel x hx
          have e2 := n3 (v.2 + 1) x (by omega) (by omega) hx
          omega
        rw [n1, sub64_one _ (by omega)]
        refine ⟨⟨?_, ?_, ?_, Or.inr hstart, Or.inl ?_, ?_⟩, rfl⟩
        · show v.1 ≤ ch.2 + 1
          omega
        · show ch.2 + 1 ≤ t.m_lcp.length - 1
          omega
        · show t.m_lcp.length - 1 ≤ v.2
          omega
        · show t.m_lcp.length - 1 = v.2
          omega
        · intro q x hq1 hq2 hx
          have a : ch.2 + 1 < q := hq1
          have b : q ≤ t.m_lcp.length - 1 := hq2
          have := n3 q x (by omega) (by omega) hx
          omega

/-- Every interval that the loop of `select_child` returns is a child of `v`, or the
sentinel `root()` of a count beyond the last child. -/
theorem select_child_loop_is_child (t : cst_cn) (hok : NprOK t.m_npr t.m_lcp)
    (v : node_type) (h : Nat) (hv2 : v.2 < t.m_lcp.length)
    (hge : ∀ q x, v.1 < q → q ≤ v.2 → t.m_lcp[q]? = some x → h ≤ x)
    (hdel : ∀ x, t.m_lcp[v.2 + 1]? = some x → x ≤ h) :
    ∀ i ch w, IsChild t.m_lcp v h ch → t.select_child_loop v h i ch = some w →
      IsChild t.m_lcp v h w ∨ w = t.root := by
  intro i
  induction i with
  | zero =>
    intro ch w hch hw
    simp only [cst_cn.select_child_loop, Option.some.injEq] at hw
    subst hw
    exact Or.inl hch
  | succ i ih =>
    intro ch w hch hw
    unfold cst_cn.select_child_loop at hw
    by_cases hlt : ch.2 ≥ v.2
    · rw [if_pos hlt] at hw
      simp only [Option.some.injEq] at hw
      exact Or.inr hw.symm
    · rw [if_neg hlt] at hw
      simp only [Option.bind_eq_some] at hw
      obtain ⟨c, hc, hw⟩ := hw
      exact ih c w (next_child_is_child t hok v h hv2 hge hdel ch hch (by omega) c hc).1 hw

/-- Whenever `degree` counts `k` children from `ch` on, the loop of `select_child` reaches
after `k - count - 1` steps a child that ends at `v.second`. -/
theorem degree_loop_last (t : cst_cn) (hok : NprOK t.m_npr t.m_lcp) (v : node_type)
    (h : Nat) (hv2 : v.2 < t.m_lcp.length)
    (hge : ∀ q x, v.1 < q → q ≤ v.2 → t.m_lcp[q]? = some x → h ≤ x)
    (hdel : ∀ x, t.m_lcp[v.2 + 1]? = some x → x ≤ h)
    (hnr : ∀ w, IsChild t.m_lcp v h w → w ≠ t.root) :
    ∀ fuel ch count k, IsChild t.m_lcp v h ch →
      t.degree_loop v h fuel ch count = some (some k) →
      ∃ x, count < k ∧ t.select_child_loop v h (k - count - 1) ch = some x ∧
        IsChild t.m_lcp v h x ∧ x.2 = v.2 := by
  intro fuel
  induction fuel with
  | zero =>
    intro ch count k _ hk
    simp [cst_cn.degree_loop] at hk
  | succ fuel ih =>
    intro ch count k hch hk
    unfold cst_cn.degree_loop at hk
    rw [if_neg (hnr ch hch)] at hk
    by_cases hlt : ch.2 ≥ v.2
    · rw [if_pos hlt] at hk
      cases fuel with
      | zero => simp [cst_cn.degree_loop] at hk
      | succ fuel =>
        unfold cst_cn.degree_loop at hk
        rw [if_pos rfl] at hk
        simp only [Option.some.injEq] at hk
        subst hk
        refine ⟨ch, by omega, ?_, hch, ?_⟩
        · rw [show count + 1 - count - 1 = 0 by omega]
          rfl
        · have := hch.2.2.1
          omega
    · rw [if_neg hlt] at hk
      simp only [Option.bind_eq_some] at hk
      obtain ⟨c, hc, hk⟩ := hk
      have hcc := (next_child_is_child t hok v h hv2 hge hdel ch hch (by omega) c hc).1
      obtain ⟨x, h1, h2, h3, h4⟩ := ih c (count + 1) k hcc hk
      refine ⟨x, by omega, ?_, h3, h4⟩
      rw [show k - count - 1 = (k - (count + 1) - 1) + 1 by omega]
      unfold cst_cn.select_child_loop
      rw [if_neg hlt, hc, Option.some_bind]
      exact h2

/-- The last child located directly: `select_last_child(v)` answers `[p, v.second]` where
`p` is the last position of `v` that holds the head `h`. -/
theorem select_last_child_spec (t : cst_cn) (hok : NprOK t.m_npr t.m_lcp) (v : node_type)
    (hlt : v.1 < v.2) (hv2 : v.2 < t.m_lcp.length) :
    ∃ p p1 h, t.m_npr.rmq (v.1 + 1) v.2 = some (p1, h) ∧
      RmqSpec (fun q => t.m_lcp[q]?) (v.1 + 1) v.2 p1 h ∧
      t.select_last_child v = some (p, v.2) ∧ v.1 < p ∧ p ≤ v.2 ∧ t.m_lcp[p]? = some h ∧
      ∀ q x, p < q → q ≤ v.2 → t.m_lcp[q]? = some x → h < x := by
  obtain ⟨p1, h, hp, hR⟩ := hok.rmq (v.1 + 1) v.2 (by omega) hv2
  obtain ⟨p, x, hb, b1, b2, b3, b4⟩ := hok.bwd_psv v.2 (h + 1) hv2 (by omega)
  have b2b : t.m_lcp[p]? = some x := b2
  obtain ⟨r1, r2, r3, r4, _⟩ := hR
  have r3b : t.m_lcp[p1]? = some h := r3
  have hp1 : p1 ≤ p := by
    by_contra hcon
    have := b4 p1 h (by omega) r2 r3
    omega
  have hx : x = h := by
    have := r4 p x (by omega) b1 b2
    omega
  subst hx
  refine ⟨p, p1, x, hp, ⟨r1, r2, r3, r4, by assumption⟩, ?_, by omega, b1, b2b, ?_⟩
  · unfold cst_cn.select_last_child
    have hleaf : t.is_leaf v = false := by
      simp only [cst_cn.is_leaf, beq_eq_false_iff_ne, ne_eq]
      omega
    rw [hleaf]
    simp [hp, hb]
  · intro q y hq1 hq2 hy
    have := b4 q y hq1 hq2 hy
    omega

/-- A child of `v` that ends at `v.second` and is not all of `v` starts at the last
position of `v` that holds the head. -/
theorem IsChild.last_start {lcp : List Nat} {v : node_type} {h : Nat} {w : node_type}
    (hw : IsChild lcp v h w) (he : w.2 = v.2) (p : Nat) (hp1 : v.1 < p) (hp2 : p ≤ v.2)
    (hp : lcp[p]? = some h) (hafter : ∀ q x, p < q → q ≤ v.2 → lcp[q]? = some x → h < x) :
    w.1 = p := by
  obtain ⟨w1, w2, w3, w4, _, w6⟩ := hw
  have hne : w.1 ≠ v.1 := by
    intro hcon
    have := w6 p h (by omega) (by omega) hp
    omega
  have hs : lcp[w.1]? = some h := by
    rcases w4 with w4 | w4
    · exact absurd w4 hne
    · exact w4
  by_contra hcon
  rcases Nat.lt_or_gt_of_ne hcon with hlt | hgt
  · have := w6 p h hlt (by omega) hp
    omega
  · have := hafter w.1 h hgt (by omega) hs
    omega

/-- The node `get_node(pos)` for a position `pos` inside `v` that holds the head `h` of
`v`, whenever it is produced, is `v`: `v` is the only interval around `pos` whose inner
entries are at least `h` and whose delimiting entries are below `h`. -/
theorem get_node_of_head (t : cst_cn) (hok : NprOK t.m_npr t.m_lcp)
    (h0 : t.m_lcp[0]? = some 0) (v : node_type) (h : Nat) (hv2 : v.2 < t.m_lcp.length)
    (hA : ∀ q x, v.1 < q → q ≤ v.2 → t.m_lcp[q]? = some x → h ≤ x)
    (hB : v.1 = 0 ∨ ∃ x, t.m_lcp[v.1]? = some x ∧ x < h)
    (hC : v.2 + 1 = t.m_lcp.length ∨ ∃ x, t.m_lcp[v.2 + 1]? = some x ∧ x < h)
    (pos : Nat) (hp1 : v.1 < pos) (hp2 : pos ≤ v.2) (hp : t.m_lcp[pos]? = some h)
    (u : node_type) (hu : t.get_node pos = some u) : u = v := by
  obtain ⟨g1, g2, g3, g4, _, g6, g7⟩ := get_node_spec t hok h0 pos h hp u hu
  have e1 : u.1 = v.1 := by
    by_contra hne
    rcases Nat.lt_or_gt_of_ne hne with hlt | hgt
    · rcases hB with hB | ⟨x, hx, hxh⟩
      · omega
      · have := g4 v.1 x hlt (by omega) hx
        omega
    · rcases g6 with g6 | ⟨x, hx, hxh⟩
      · omega
      · have := hA u.1 x hgt (by omega) hx
        omega
  have e2 : u.2 = v.2 := by
    by_contra hne
    rcases Nat.lt_or_gt_of_ne hne with hlt | hgt
    · obtain ⟨x, hx, hxh⟩ := g7 (by omega)
      have := hA (u.2 + 1) x (by omega) (by omega) hx
      omega
    · rcases hC with hC | ⟨x, hx, hxh⟩
      · omega
      · have := g4 (v.2 + 1) x (by omega) (by omega) hx
        omega
  exact Prod.ext e1 e2

/-- The parent of a child of `v`, whenever `parent` answers, is `v`. -/
theorem parent_of_child (t : cst_cn) (hok : NprOK t.m_npr t.m_lcp)
    (h0 : t.m_lcp[0]? = some 0) (v : node_type) (h : Nat) (hv2 : v.2 < t.m_lcp.length)
    (hA : ∀ q x, v.1 < q → q ≤ v.2 → t.m_lcp[q]? = some x → h ≤ x)
    (hB : v.1 = 0 ∨ ∃ x, t.m_lcp[v.1]? = some x ∧ x < h)
    (hC : v.2 + 1 = t.m_lcp.length ∨ ∃ x, t.m_lcp[v.2 + 1]? = some x ∧ x < h)
    (hatt : ∃ q, v.1 < q ∧ q ≤ v.2 ∧ t.m_lcp[q]? = some h)
    (w : node_type) (hw : IsChild t.m_lcp v h w) (p : node_type)
    (hp : t.parent w = some p) : p = v := by
  obtain ⟨w1, w2, w3, w4, w5, w6⟩ := hw
  obtain ⟨q0, q1, q2, q3⟩ := hatt
  have hnot : ¬ (w.1 = v.1 ∧ w.2 = v.2) := by
    rintro ⟨a, b⟩
    have := w6 q0 h (by omega) (by omega) q3
    omega
  have hn : 0 < t.m_lcp.length := by omega
  unfold cst_cn.parent at hp
  rw [sub64_one _ hn] at hp
  by_cases hlast : w.2 = t.m_lcp.length - 1
  · rw [if_pos hlast, Option.some_bind] at hp
    have hwv : w.2 = v.2 := by omega
    have hne : w.1 ≠ v.1 := fun a => hnot ⟨a, hwv⟩
    have hs : t.m_lcp[w.1]? = some h := by
      rcases w4 with w4 | w4
      · exact absurd w4 hne
      · exact w4
    exact get_node_of_head t hok h0 v h hv2 hA hB hC w.1 (by omega) (by omega) hs p hp
  · rw [if_neg hlast] at hp
    obtain ⟨a, ha⟩ := getElem?_some_of_lt t.m_lcp w.1 (by omega)
    obtain ⟨b, hb⟩ := getElem?_some_of_lt t.m_lcp (w.2 + 1) (by omega)
    rw [ha, hb] at hp
    simp only [Option.some_bind, Option.map_some'] at hp
    by_cases hwv : w.2 = v.2
    · have hne : w.1 ≠ v.1 := fun e => hnot ⟨e, hwv⟩
      have hs : t.m_lcp[w.1]? = some h := by
        rcases w4 with w4 | w4
        · exact absurd w4 hne
        · exact w4
      have hah : a = h := by
        rw [ha] at hs
        exact Option.some.inj hs
      have hbh : b < h := by
        rcases hC with hC | ⟨x, hx, hxh⟩
        · omega
        · rw [← hwv, hb] at hx
          cases hx
          exact hxh
      rw [if_pos (by omega)] at hp
      exact get_node_of_head t hok h0 v h hv2 hA hB hC w.1 (by omega) (by omega) hs p hp
    · have hs : t.m_lcp[w.2 + 1]? = some h := by
        rcases w5 with w5 | w5
        · exact absurd w5 hwv
        · exact w5
      have hbh : b = h := by
        rw [hb] at hs
        exact Option.some.inj hs
      have hah : a ≤ h := by
        rcases w4 with w4 | w4
        · rcases hB with hB | ⟨x, hx, hxh⟩
          · rw [w4, hB, h0] at ha
            cases ha
            omega
          · rw [w4, hx] at ha
            cases ha
            omega
        · rw [ha] at w4
          cases w4
          exact le_refl _
      rw [if_neg (by omega)] at hp
      exact get_node_of_head t hok h0 v h hv2 hA hB hC (w.2 + 1) (by omega) (by omega) hs p hp

/-- Facts about an internal node `v` (the root or a delimited interval) and its head `h`,
the minimum of its inner entries: the entries that delimit `v` are below `h`. -/
theorem IsNode.head_facts {lcp : List Nat} {v : node_type} (hv : IsNode lcp v)
    (hlt : v.1 < v.2) (hv2 : v.2 < lcp.length) {p1 h : Nat}
    (hR : RmqSpec (fun q => lcp[q]?) (v.1 + 1) v.2 p1 h) :
    (∀ q x, v.1 < q → q ≤ v.2 → lcp[q]? = some x → h ≤ x) ∧
      (v.1 = 0 ∨ ∃ x, lcp[v.1]? = some x ∧ x < h) ∧
      (v.2 + 1 = lcp.length ∨ ∃ x, lcp[v.2 + 1]? = some x ∧ x < h) ∧
      (∃ q, v.1 < q ∧ q ≤ v.2 ∧ lcp[q]? = some h) ∧
      ∀ x, lcp[v.2 + 1]? = some x → x ≤ h := by
  obtain ⟨r1, r2, r3, r4, _⟩ := hR
  have r3b : lcp[p1]? = some h := r3
  have hA : ∀ q x, v.1 < q → q ≤ v.2 → lcp[q]? = some x → h ≤ x :=
    fun q x a b c => r4 q x (by omega) b c
  have hatt : ∃ q, v.1 < q ∧ q ≤ v.2 ∧ lcp[q]? = some h := ⟨p1, by omega, r2, r3b⟩
  rcases hv with hv | ⟨h', i1, i2, i3, i4, i5⟩
  · have e1 : v.1 = 0 := by rw [hv]
    have e2 : v.2 = lcp.length - 1 := by rw [hv]
    refine ⟨hA, Or.inl e1, Or.inl (by omega), hatt, ?_⟩
    intro x hx
    have : lcp[v.2 + 1]? = none := getElem?_none_of_le _ _ (by omega)
    rw [this] at hx
    cases hx
  · have hh : h' ≤ h := i3 p1 h (by omega) r2 r3b
    obtain ⟨x, hx⟩ := getElem?_some_of_lt lcp v.1 (by omega)
    refine ⟨hA, Or.inr ⟨x, hx, by have := i4 x hx; omega⟩, ?_, hatt, ?_⟩
    · by_cases he : v.2 + 1 = lcp.length
      · exact Or.inl he
      · obtain ⟨y, hy⟩ := getElem?_some_of_lt lcp (v.2 + 1) (by omega)
        exact Or.inr ⟨y, hy, by have := i5 y hy; omega⟩
    · intro y hy
      have := i5 y hy
      omega

/-- No child of an internal node is the interval of the root. -/
theorem IsChild.ne_root {lcp : List Nat} {v : node_type} {h : Nat} {w : node_type}
    (hw : IsChild lcp v h w) (hv2 : v.2 < lcp.length)
    (hatt : ∃ q, v.1 < q ∧ q ≤ v.2 ∧ lcp[q]? = some h) : w ≠ (0, lcp.length - 1) := by
  intro hcon
  obtain ⟨w1, _, w3, _, _, w6⟩ := hw
  obtain ⟨q, q1, q2, q3⟩ := hatt
  have e1 : w.1 = 0 := by rw [hcon]
  have e2 : w.2 = lcp.length - 1 := by rw [hcon]
  have := w6 q h (by omega) (by omega) q3
  omega

/-- Whenever `degree(v)` answers `k` for an internal node `v`, the `k`-th child reached by
the sibling chain is the last child located directly: `select_child(v, k)` is
`select_last_child(v)`. -/
theorem select_child_degree_last (t : cst_cn) (hok : NprOK t.m_npr t.m_lcp)
    (hroot : t.root = (0, t.m_lcp.length - 1)) (v : node_type) (hv : IsNode t.m_lcp v)
    (hlt : v.1 < v.2) (hv2 : v.2 < t.m_lcp.length) (fuel k : Nat)
    (hk : t.degree fuel v = some (some k)) :
    ∃ w, t.select_last_child v = some w ∧ t.select_child v k = some w := by
  obtain ⟨p, p1, h, hp, hR, hl, l1, l2, l3, l4⟩ := select_last_child_spec t hok v hlt hv2
  obtain ⟨hA, _, _, hatt, hdel⟩ := hv.head_facts hlt hv2 hR
  have hleaf : t.is_leaf v = false := by
    simp only [cst_cn.is_leaf, beq_eq_false_iff_ne, ne_eq]
    omega
  unfold cst_cn.degree at hk
  rw [hleaf] at hk
  simp only [Bool.false_eq_true, if_false, hp, Option.some_bind] at hk
  obtain ⟨x, x1, x2, x3, x4⟩ := degree_loop_last t hok v h hv2 hA hdel
    (fun w hw => by rw [hroot]; exact hw.ne_root hv2 hatt) fuel _ 0 k
    (first_child_is_child t.m_lcp v p1 h hR) hk
  have e : x.1 = p := x3.last_start x4 p l1 l2 l3 l4
  have ex : x = (p, v.2) := Prod.ext e x4
  refine ⟨(p, v.2), hl, ?_⟩
  unfold cst_cn.select_child
  rw [hleaf]
  simp only [Bool.false_eq_true, if_false, hp, Option.some_bind]
  rw [sub64_one _ x1, ← ex]
  simpa using x2

/-- Whenever `select_child(v, i)` answers a child of an internal node `v` (not the sentinel
`root()` of a count beyond the last child) and `parent` answers for this child, the parent
is `v`. -/
theorem parent_select_child_of_some (t : cst_cn) (hok : NprOK t.m_npr t.m_lcp)
    (h0 : t.m_lcp[0]? = some 0) (v : node_type) (hv : IsNode t.m_lcp v)
    (hlt : v.1 < v.2) (hv2 : v.2 < t.m_lcp.length) (i : Nat) (w p : node_type)
    (hw : t.select_child v i = some w) (hwr : w ≠ t.root) (hp : t.parent w = some p) :
    p = v := by
  obtain ⟨p1, h, hr, hR⟩ := hok.rmq (v.1 + 1) v.2 (by omega) hv2
  obtain ⟨hA, hB, hC, hatt, hdel⟩ := hv.head_facts hlt hv2 hR
  have hleaf : t.is_leaf v = false := by
    simp only [cst_cn.is_leaf, beq_eq_false_iff_ne, ne_eq]
    omega
  unfold cst_cn.select_child at hw
  rw [hleaf] at hw
  simp only [Bool.false_eq_true, if_false, hr, Option.some_bind] at hw
  rcases select_child_loop_is_child t hok v h hv2 hA hdel _ _ w
      (first_child_is_child t.m_lcp v p1 h hR) hw with hc | hc
  · exact parent_of_child t hok h0 v h hv2 hA hB hC hatt w hc p hp
  · exact absurd hc hwr

/-- A constructed `cnr` index has one `min_array` level less than `pos_array` levels. -/
theorem cnr_construct_plen (B b : Nat) (lcp : List Nat) (s : npr_support_cnr)
    (h : npr_support_cnr.construct B b lcp = some s) :
    s.pos_array.length = s.min_array.length + 1 := by
  simp only [npr_support_cnr.construct, Option.bind_eq_some] at h
  obtain ⟨n_lev, _, h⟩ := h
  split_ifs at h with h0 h1
  · simp only [Option.bind_eq_some, Option.map_eq_some'] at h
    obtain ⟨l0, _, l1, _, rest, _, h3⟩ := h
    subst h3
    simp
  · simp only [Option.bind_eq_some, Option.some.injEq] at h
    obtain ⟨l0, _, h3⟩ := h
    subst h3
    simp

/-! ## Claims -/

/-- C2. For the `cn` index built (block size `B >= 2`, in particular 8, 16, 32; any
level count `r` with `n <= B^r`) over an LCP array of length `n >= 2` with `LCP[0] = 0` and
values below `n`: for every `i < n` and every threshold `d`, `bwd_psv(i, d)` returns the
greatest position `p <= i` with `LCP[p] < d` (together with `LCP[p]`), and returns `n`
when no such position exists. -/
theorem cn_bwd_psv_correct (B r : Nat) (lcp : List Nat) (hB : 2 ≤ B)
    (hr : lcp.length ≤ B ^ r) (hn : 2 ≤ lcp.length) (h0 : lcp[0]? = some 0)
    (hval : ∀ v ∈ lcp, v < lcp.length) (i d : Nat) (hi : i < lcp.length) :
    ∃ s p l, npr_support_cn.construct B r lcp = some s ∧ s.bwd_psv i d = some (p, l) ∧
      ((p ≤ i ∧ lcp[p]? = some l ∧ l < d ∧
          ∀ q w, p < q → q ≤ i → lcp[q]? = some w → d ≤ w) ∨
       (p = lcp.length ∧ ∀ q w, q ≤ i → lcp[q]? = some w → d ≤ w)) := by
  obtain ⟨s, hs, hl, _, hI⟩ := cn_construct_ok B r lcp hB hr hn h0 hval
  rcases Nat.eq_zero_or_pos d with hd | hd
  · subst hd
    refine ⟨s, lcp.length, lcp.length, hs, by simp [npr_support_cn.bwd_psv, hl], Or.inr ?_⟩
    exact ⟨rfl, fun _ _ _ _ => Nat.zero_le _⟩
  · obtain ⟨p, l, hp, h1, h2, h3, h4⟩ := cn_bwd_psv_spec hI i d hd (by rw [hl]; exact hi)
    rw [hl] at h2 h4
    exact ⟨s, p, l, hs, hp, Or.inl ⟨h1, h2, h3, h4⟩⟩

/-- Instance of C2 on the LCP array of `banana$` with block size 8. -/
theorem cn_bwd_psv_correct_witness :
    ∃ s p l, npr_support_cn.construct 8 1 [0, 0, 1, 3, 0, 0, 2] = some s ∧
      s.bwd_psv 3 2 = some (p, l) ∧
      ((p ≤ 3 ∧ [0, 0, 1, 3, 0, 0, 2][p]? = some l ∧ l < 2 ∧
          ∀ q w, p < q → q ≤ 3 → [0, 0, 1, 3, 0, 0, 2][q]? = some w → 2 ≤ w) ∨
       (p = [0, 0, 1, 3, 0, 0, 2].length ∧
          ∀ q w, q ≤ 3 → [0, 0, 1, 3, 0, 0, 2][q]? = some w → 2 ≤ w)) :=
  cn_bwd_psv_correct 8 1 [0, 0, 1, 3, 0, 0, 2] (by decide) (by decide) (by decide)
    (by decide) (by decide) 3 2 (by decide)

/-- C3. For the `cn` index built over an LCP array of length `n >= 2` with `LCP[0] = 0`
and values below `n`: for every `i <= j < n`, `rmq(i, j)` returns `(p, LCP[p])` where
`p` is the smallest index of `[i, j]` at which the minimum of `LCP[i..j]` is attained. -/
theorem cn_rmq_correct (B r : Nat) (lcp : List Nat) (hB : 2 ≤ B)
    (hr : lcp.length ≤ B ^ r) (hn : 2 ≤ lcp.length) (h0 : lcp[0]? = some 0)
    (hval : ∀ v ∈ lcp, v < lcp.length) (i j : Nat) (hij : i ≤ j) (hj : j < lcp.length) :
    ∃ s p v, npr_support_cn.construct B r lcp = some s ∧ s.rmq i j = some (p, v) ∧
      i ≤ p ∧ p ≤ j ∧ lcp[p]? = some v ∧
      (∀ q w, i ≤ q → q ≤ j → lcp[q]? = some w → v ≤ w) ∧
      (∀ q w, i ≤ q → q < p → lcp[q]? = some w → v < w) := by
  obtain ⟨s, hs, hl, _, hI⟩ := cn_construct_ok B r lcp hB hr hn h0 hval
  obtain ⟨p, v, hp, h1, h2, h3, h4, h5⟩ := cn_rmq_spec hI i j hij (by rw [hl]; exact hj)
  rw [hl] at h3 h4 h5
  exact ⟨s, p, v, hs, hp, h1, h2, h3, h4, h5⟩

/-- Instance of C3 on the LCP array of `banana$` with block size 8. -/
theorem cn_rmq_correct_witness :
    ∃ s p v, npr_support_cn.construct 8 1 [0, 0, 1, 3, 0, 0, 2] = some s ∧
      s.rmq 1 6 = some (p, v) ∧ 1 ≤ p ∧ p ≤ 6 ∧ [0, 0, 1, 3, 0, 0, 2][p]? = some v ∧
      (∀ q w, 1 ≤ q → q ≤ 6 → [0, 0, 1, 3, 0, 0, 2][q]? = some w → v ≤ w) ∧
      (∀ q w, 1 ≤ q → q < p → [0, 0, 1, 3, 0, 0, 2][q]? = some w → v < w) :=
  cn_rmq_correct 8 1 [0, 0, 1, 3, 0, 0, 2] (by decide) (by decide) (by decide)
    (by decide) (by decide) 1 6 (by decide) (by decide)

/-- C5. For the `cnr` index built (block size `B >= 2`, small block size `b >= 1`, in
particular `B` in 8, 16, 32 and `b` in 4, 8) over an LCP array of length `n` (any `n >= 1`, so also
every `n >= 2`) with `LCP[0] = 0` and values below `n`: for every `i < n` and every
threshold `d`, `bwd_psv(i, d)` returns the greatest position `p <= i` with `LCP[p] < d`
(together with `LCP[p]`), and returns `n` when no such position exists. -/
theorem cnr_bwd_psv_correct (B sbs : Nat) (lcp : List Nat) (hB : 2 ≤ B) (hsbs : 0 < sbs)
    (h0 : lcp[0]? = some 0)
    (hval : ∀ v ∈ lcp, v < lcp.length) (i d : Nat) (hi : i < lcp.length) :
    ∃ s p l, npr_support_cnr.construct B sbs lcp = some s ∧ s.bwd_psv i d = some (p, l) ∧
      ((p ≤ i ∧ lcp[p]? = some l ∧ l < d ∧
          ∀ q w, p < q → q ≤ i → lcp[q]? = some w → d ≤ w) ∨
       (p = lcp.length ∧ ∀ q w, q ≤ i → lcp[q]? = some w → d ≤ w)) := by
  obtain ⟨s, hs, hl, _, _, hI⟩ := cnr_construct_ok B sbs lcp hB hsbs h0 hval
  rcases Nat.eq_zero_or_pos d with hd | hd
  · subst hd
    refine ⟨s, lcp.length, lcp.length, hs, by simp [npr_support_cnr.bwd_psv, hl], Or.inr ?_⟩
    exact ⟨rfl, fun _ _ _ _ => Nat.zero_le _⟩
  · obtain ⟨p, l, hp, h1, h2, h3, h4⟩ := cnr_bwd_psv_spec hI i d hd (by rw [hl]; exact hi)
    rw [hl] at h2 h4
    exact ⟨s, p, l, hs, hp, Or.inl ⟨h1, h2, h3, h4⟩⟩

/-- Instance of C5 on the LCP array of `banana$` with block sizes 8 and 4. -/
theorem cnr_bwd_psv_correct_witness :
    ∃ s p l, npr_support_cnr.construct 8 4 [0, 0, 1, 3, 0, 0, 2] = some s ∧
      s.bwd_psv 6 1 = some (p, l) ∧
      ((p ≤ 6 ∧ [0, 0, 1, 3, 0, 0, 2][p]? = some l ∧ l < 1 ∧
          ∀ q w, p < q → q ≤ 6 → [0, 0, 1, 3, 0, 0, 2][q]? = some w → 1 ≤ w) ∨
       (p = [0, 0, 1, 3, 0, 0, 2].length ∧
          ∀ q w, q ≤ 6 → [0, 0, 1, 3, 0, 0, 2][q]? = some w → 1 ≤ w)) :=
  cnr_bwd_psv_correct 8 4 [0, 0, 1, 3, 0, 0, 2] (by decide) (by decide) (by decide)
    (by decide) 6 1 (by decide)

/-- C6. For the `cnr` index built over an LCP array of length `n` (any `n >= 1`, so also
every `n >= 2`) with `LCP[0] = 0` and values below `n`: for every `i <= j < n`, `rmq(i, j)` returns `(p, LCP[p])` where
`p` is the smallest index of `[i, j]` at which the minimum of `LCP[i..j]` is attained. -/
theorem cnr_rmq_correct (B sbs : Nat) (lcp : List Nat) (hB : 2 ≤ B) (hsbs : 0 < sbs)
    (h0 : lcp[0]? = some 0)
    (hval : ∀ v ∈ lcp, v < lcp.length) (i j : Nat) (hij : i ≤ j) (hj : j < lcp.length) :
    ∃ s p v, npr_support_cnr.construct B sbs lcp = some s ∧ s.rmq i j = some (p, v) ∧
      i ≤ p ∧ p ≤ j ∧ lcp[p]? = some v ∧
      (∀ q w, i ≤ q → q ≤ j → lcp[q]? = some w → v ≤ w) ∧
      (∀ q w, i ≤ q → q < p → lcp[q]? = some w → v < w) := by
  obtain ⟨s, hs, hl, _, _, hI⟩ := cnr_construct_ok B sbs lcp hB hsbs h0 hval
  obtain ⟨p, v, hp, h1, h2, h3, h4, h5⟩ := cnr_rmq_spec hI i j hij (by rw [hl]; exact hj)
  rw [hl] at h3 h4 h5
  exact ⟨s, p, v, hs, hp, h1, h2, h3, h4, h5⟩

/-- Instance of C6 on the LCP array of `banana$` with block sizes 8 and 4. -/
theorem cnr_rmq_correct_witness :
    ∃ s p v, npr_support_cnr.construct 8 4 [0, 0, 1, 3, 0, 0, 2] = some s ∧
      s.rmq 2 6 = some (p, v) ∧ 2 ≤ p ∧ p ≤ 6 ∧ [0, 0, 1, 3, 0, 0, 2][p]? = some v ∧
      (∀ q w, 2 ≤ q → q ≤ 6 → [0, 0, 1, 3, 0, 0, 2][q]? = some w → v ≤ w) ∧
      (∀ q w, 2 ≤ q → q < p → [0, 0, 1, 3, 0, 0, 2][q]? = some w → v < w) :=
  cnr_rmq_correct 8 4 [0, 0, 1, 3, 0, 0, 2] (by decide) (by decide) (by decide)
    (by decide) 2 6 (by decide) (by decide)

/-- Range minima of a constructed NPR index of either variant. -/
theorem npr_rmq_spec (cfg : npr_config) (lcp : List Nat)
    (hcfg : (∃ B r, cfg = .cn B r ∧ 2 ≤ B ∧ lcp.length ≤ B ^ r) ∨
      (∃ B b, cfg = .cnr B b ∧ 2 ≤ B ∧ 0 < b))
    (hn : 2 ≤ lcp.length) (h0 : lcp[0]? = some 0) (hval : ∀ v ∈ lcp, v < lcp.length) :
    ∃ npr, npr_type.construct cfg lcp = some npr ∧
      ∀ i j, i ≤ j → j < lcp.length →
        ∃ p v, npr.rmq i j = some (p, v) ∧ RmqSpec (fun q => lcp[q]?) i j p v := by
  rcases hcfg with ⟨B, r, rfl, hB, hr⟩ | ⟨B, b, rfl, hB, hb⟩
  · obtain ⟨s, hs, hl, _, hI⟩ := cn_construct_ok B r lcp hB hr hn h0 hval
    refine ⟨.cn s, by simp [npr_type.construct, hs], ?_⟩
    intro i j hij hj
    have := cn_rmq_spec hI i j hij (by rw [hl]; exact hj)
    rw [hl] at this
    exact this
  · obtain ⟨s, hs, hl, _, _, hI⟩ := cnr_construct_ok B b lcp hB hb h0 hval
    refine ⟨.cnr s, by simp [npr_type.construct, hs], ?_⟩
    intro i j hij hj
    have := cnr_rmq_spec hI i j hij (by rw [hl]; exact hj)
    rw [hl] at this
    exact this

/-- C10. In the tree built over an LCP array of length `n >= 2` (`LCP[0] = 0`, values
below `n`, as many leaves as LCP entries) with either NPR variant: for every non-root
internal interval `v = [lb, rb]`, `0 <= lb < rb < n`, `depth(v)` is the naively computed
minimum of `LCP[lb+1..rb]`; and `depth(root()) = 0`. -/
theorem depth_correct (cfg : npr_config) (csa : csa_type) (lcp : List Nat)
    (hcfg : (∃ B r, cfg = .cn B r ∧ 2 ≤ B ∧ lcp.length ≤ B ^ r) ∨
      (∃ B b, cfg = .cnr B b ∧ 2 ≤ B ∧ 0 < b))
    (hsize : csa.size = lcp.length) (hn : 2 ≤ lcp.length) (h0 : lcp[0]? = some 0)
    (hval : ∀ v ∈ lcp, v < lcp.length) :
    ∃ t, cst_cn.construct cfg csa lcp = some t ∧ t.depth t.root = some 0 ∧
      ∀ lb rb, lb < rb → rb < lcp.length → (lb, rb) ≠ t.root →
        t.depth (lb, rb) = some (naive_min lcp (lb + 1) (rb - lb - 1)) := by
  obtain ⟨npr, hnpr, hrmq⟩ := npr_rmq_spec cfg lcp hcfg hn h0 hval
  refine ⟨{ m_csa := csa, m_lcp := lcp, m_npr := npr }, by simp [cst_cn.construct, hnpr],
    ?_, ?_⟩
  · have h1 : sub64 csa.size 1 = csa.size - 1 := sub64_one _ (by omega)
    have h2 : ¬ (0 = csa.size - 1) := by omega
    simp [cst_cn.depth, cst_cn.is_leaf, cst_cn.root, h1, h2]
  · intro lb rb hlt hrb hroot
    obtain ⟨p, v, hp, hspec⟩ := hrmq (lb + 1) rb (by omega) hrb
    have hv := hspec.eq_naive_min hrb
    have hne : ¬ lb = rb := by omega
    simp only [cst_cn.depth, cst_cn.is_leaf, beq_iff_eq, hne, if_false, hroot, hp,
      Option.map_some', Bool.false_eq_true]
    rw [hv, show rb - (lb + 1) = rb - lb - 1 by omega]

/-- Instance of C10 on `banana$` (suffix array `[6,5,3,1,0,4,2]`) with the `cn` index of
block size 8. -/
theorem depth_correct_witness :
    ∃ t, cst_cn.construct (.cn 8 1)
        { size := 7, sa := fun i => [6, 5, 3, 1, 0, 4, 2].getD i 0, psi := fun i => i,
          char2comp := fun c => c, C := fun c => c, F := fun p => p,
          backward_search := fun l r _ => (l, r), get_char_pos := fun i _ => i }
        [0, 0, 1, 3, 0, 0, 2] = some t ∧
      t.depth t.root = some 0 ∧
      ∀ lb rb, lb < rb → rb < [0, 0, 1, 3, 0, 0, 2].length → (lb, rb) ≠ t.root →
        t.depth (lb, rb) = some (naive_min [0, 0, 1, 3, 0, 0, 2] (lb + 1) (rb - lb - 1)) :=
  depth_correct (.cn 8 1) _ [0, 0, 1, 3, 0, 0, 2] (Or.inl ⟨8, 1, rfl, by decide, by decide⟩)
    rfl (by decide) (by decide) (by decide)

/-- C1 fails on the code. Block size 8, LCP `[0, 1, 1, ..., 1]` of length 57 (two levels,
eight blocks, one top entry): `fwd_nsv(56, 1)` finds the minimum of the last block not below
`d`, calls `find_nsv_block(1, 8, 0)`, and that reads `min_array[1][8 / 8]`, one past the single
entry of the top level. There is no position `p >= 56` with `LCP[p] < 1`, so the claimed
result is `n = 57`. -/
theorem cn_fwd_nsv_out_of_bounds :
    (npr_support_cn.construct 8 2 (0 :: List.replicate 56 1)).map
        (fun s => (level_size s.min_array 0, level_size s.min_array 1,
          level_get s.min_array 1 (8 / 8), s.fwd_nsv 56 1)) =
      some (some 8, some 1, none, none) := by
  decide

/-- C4 fails on the code. Block size 8, small block size 4, LCP `[0, 1, ..., 1]` of length
13 (four small blocks, one entry on level 1): `fwd_nsv(12, 1)` finds the minimum of the last
small block not below `d`, calls `find_nsv_block(1, 4)`, and that reads `min_array[0][4 / 4]`,
one past the single entry. The claimed result is `n = 13`. -/
theorem cnr_fwd_nsv_out_of_bounds :
    (npr_support_cnr.construct 8 4 (0 :: List.replicate 12 1)).map
        (fun s => (level_size s.pos_array 0, level_size s.min_array 0,
          level_get s.min_array 0 (4 / 4), s.fwd_nsv 12 1)) =
      some (some 4, some 1, none, none) := by
  decide

/-- C7 fails on the code. On the LCP array `[0, 0, 1, ..., 11]` of `a^12 $` (length 13) the
`cn` index with block size 8 answers `nsv(11)` with the sentinel 13, while the `cnr` index
with block sizes 8 and 4 reads outside `min_array[0]` and has no answer. -/
theorem cn_cnr_nsv_differ :
    (npr_support_cn.construct 8 2 (0 :: List.range 12)).map (fun s => s.nsv 11) =
        some (some (13, 13)) ∧
      (npr_support_cnr.construct 8 4 (0 :: List.range 12)).map (fun s => s.nsv 11) =
        some none := by
  decide

/-- C8 fails on the code. Tree of `a^12 $` (LCP `[0, 0, 1, ..., 11]`) with the `cnr` index
(block sizes 8 and 4): for the internal node `[11, 12]` (head 11, `LCP[11] = 10`),
`parent` asks for `nsv(11)`, whose forward search reads outside `min_array[0]`; no parent
interval is produced. -/
theorem parent_out_of_bounds (csa : csa_type) :
    (cst_cn.construct (.cnr 8 4) csa (0 :: List.range 12)).map (fun t => t.parent (11, 12)) =
      some none := by
  rfl

/-- C9 fails on the code. Tree of `a^56 $` (LCP `[0, 0, 1, ..., 55]`) with the `cn` index
of block size 8: the internal node `[55, 56]` has depth 55, but `parent([55, 56])` asks for
`nsv(55)`, whose forward search reads outside `min_array[1]`; there is no parent whose
depth could be compared. -/
theorem parent_depth_out_of_bounds (csa : csa_type) :
    (cst_cn.construct (.cn 8 2) csa (0 :: List.range 56)).map
        (fun t => (t.depth (55, 56), (t.parent (55, 56)).bind t.depth)) =
      some (some 55, none) := by
  rfl

/-- C11 fails on the code. Text `aaaaaaaaaabb$` (n = 13, suffix array
`[12, 0, 1, ..., 9, 11, 10]`, LCP `[0, 0, 9, 8, ..., 1, 0, 1]`), `cnr` index with block size 8
and small block size 4, `v = root() = [0, 12]` with children `[0, 0]`, `[1, 10]`, `[11, 12]`:
`select_child(v, 1)` and `select_child(v, 2)` are the first two, but the third child and
`degree(v)` call `fwd_nsv(12, 1)`, which reads `min_array[0][1]` past the single entry of
that level, so neither the third child nor the number of children is produced. -/
theorem children_out_of_bounds :
    (cst_cn.construct (.cnr 8 4) (csa_of_sa [12, 0, 1, 2, 3, 4, 5, 6, 7, 8, 9, 11, 10])
        [0, 0, 9, 8, 7, 6, 5, 4, 3, 2, 1, 0, 1]).map
      (fun t => (t.select_child (0, 12) 1, t.select_child (0, 12) 2,
        t.select_child (0, 12) 3, t.degree 13 (0, 12))) =
    some (some (0, 0), some (1, 10), none, none) := by
  decide

/-- C12 fails on the code. Text `a^12 $` (n = 13, LCP `[0, 0, 1, ..., 11]`), `cnr` index
with block size 8 and small block size 4, leaves `v = [10, 10]` and `w = [11, 11]`:
`lca(v, w)` takes `k = rmq(11, 11) = 11` and `get_node(11)` calls
`nsv(11) = fwd_nsv(12, 10)`, which reads `min_array[0][1]` past the single entry of that
level; no node is produced, where the claim has the node `[10, 12]` containing both. One
pair of leaves to the left the answer is produced: `lca([9, 9], [10, 10]) = [9, 12]`. -/
theorem lca_out_of_bounds (csa : csa_type) :
    (cst_cn.construct (.cnr 8 4) csa (0 :: List.range 12)).map
      (fun t => (t.lca (10, 10) (11, 11), t.lca (9, 9) (10, 10))) =
    some (none, some (9, 12)) := by
  rfl

/-- C13 fails on the code. Text `a^56 $` (n = 57, LCP `[0, 0, 1, ..., 55]`), `cn` index
with block size 8 and two levels, leaves `v = [54, 54]` and `w = [55, 55]`: `lca(v, w)`
takes `k = rmq(55, 55) = 55` and `get_node(55)` calls `nsv(55) = fwd_nsv(56, 54)`, which
reads `min_array[1][1]` past the single entry of the top level; no node is produced, so
there is no node to be contained in the common ancestors `[54, 56]`, `[53, 56]`, ... of
`v` and `w`. -/
theorem lca_depth_out_of_bounds (csa : csa_type) :
    (cst_cn.construct (.cn 8 2) csa (0 :: List.range 56)).map
      (fun t => (t.lca (54, 54) (55, 55), t.lca (53, 53) (54, 54))) =
    some (none, some (53, 56)) := by
  rfl

/-- C14 fails on the code. Text `banana$` (n = 7, LCP `[0, 0, 1, 3, 0, 0, 2]`), internal
node `v = [1, 3]`: `id(v)` is `n + 1 = 8`, because `((n + val) << 1) || is_second` is the
logical or, and `inv_id(8)` computes `i = (1 >> 1) - 7` modulo `2^64`, `j = i - 1` and reads
`m_lcp[j]` far outside the array: the round trip does not give `v` back. -/
theorem inv_id_of_id_fails :
    (cst_cn.construct (.cn 8 1) banana_csa [0, 0, 1, 3, 0, 0, 2]).map
      (fun t => (t.id (1, 3), (t.id (1, 3)).bind t.inv_id, sub64 (sub64 (1 / 2) 7) 1)) =
    some (some 8, none, 2 ^ 64 - 8) := by
  decide

/-- C15 fails on the code. Text `banana$` (n = 7): the distinct internal nodes `[1, 3]`
and `[5, 6]` (and the root `[0, 6]`) all get the identifier `n + 1 = 8`, because
`((n + val) << 1) || is_second` is the logical or and evaluates to `1`. -/
theorem id_not_injective :
    (cst_cn.construct (.cn 8 1) banana_csa [0, 0, 1, 3, 0, 0, 2]).map
      (fun t => (t.id (1, 3), t.id (5, 6), t.id (0, 6))) =
    some (some 8, some 8, some 8) := by
  decide

/-- C16 fails on the code. Text `banana$` (LCP `[0, 0, 1, 3, 0, 0, 2]`), internal node
`v = [5, 6]` (string depth 2), `d = 2`: `laqs(v, 2)` is `[bwd_psv(5, 3), fwd_nsv(6, 3) - 1]`
and the forward search starts at `v.second = 6` itself, where `LCP[6] = 2 < 3`, so the
result is `[5, 5]`, which does not contain `v`. -/
theorem laqs_not_ancestor :
    (cst_cn.construct (.cn 8 1) banana_csa [0, 0, 1, 3, 0, 0, 2]).map
      (fun t => (t.laqs (5, 6) 2, (t.laqs (5, 6) 2).map fun w => t.ancestor w (5, 6))) =
    some (some (5, 5), some false) := by
  decide

/-- C17 fails on the code. Text `banana$` (LCP `[0, 0, 1, 3, 0, 0, 2]`), leaf `v = [3, 3]`,
`d = 1`: `laqs(v, 1) = [bwd_psv(3, 2), fwd_nsv(3, 2) - 1] = [2, 3]`, the widest interval
around `v` whose inner LCP entries exceed `d`; its string depth is `LCP[3] = 3 > 1`. -/
theorem laqs_depth_above :
    (cst_cn.construct (.cn 8 1) banana_csa [0, 0, 1, 3, 0, 0, 2]).map
      (fun t => (t.laqs (3, 3) 1, (t.laqs (3, 3) 1).bind t.depth)) =
    some (some (2, 3), some 3) := by
  decide

/-- C18 fails on the code. Text `banana$`, internal node `v = [1, 3]` (node depth 1),
`d = 3`: `laqt(v, 3)` starts from `laqs(v, 3) = [1, 2]`, counts `node_depth([1, 2]) = 3`
(its `parent` chain is `[2, 3]`, `[1, 3]`, `[0, 6]`), gets `diff = 0` and returns `[1, 2]`,
which is not an ancestor of `v`; the lowest ancestor of node depth at most 3 is `v`. -/
theorem laqt_not_ancestor :
    (cst_cn.construct (.cn 8 1) banana_csa [0, 0, 1, 3, 0, 0, 2]).map
      (fun t => (t.laqt 7 (1, 3) 3, t.node_depth 7 (1, 2), t.node_depth 7 (1, 3),
        t.ancestor (1, 2) (1, 3))) =
    some (some (some (1, 2)), some (some 3), some (some 1), false) := by
  decide

/-- C19 fails on the code. Text `banana$`, leaf `v = [3, 3]`, `d = 1`: `laqs(v, 1)` is
`res = [2, 3]` of node depth 2, so `diff = 1 - 2` wraps to `2^64 - 1`; in the loop
`depth(res) = 3`, `laqs(v, 3 + diff) = laqs(v, 2) = [2, 3] = res`, the inner walk does
nothing, and `res`, `node_d`, `diff` are unchanged: with every iteration budget the loop is
still running. -/
theorem laqt_diverges :
    ∀ fuel, (cst_cn.construct (.cn 8 1) banana_csa [0, 0, 1, 3, 0, 0, 2]).map
      (fun t => t.laqt fuel (3, 3) 1) = some (some none) := by
  intro fuel
  have hfacts : (cst_cn.construct (.cn 8 1) banana_csa [0, 0, 1, 3, 0, 0, 2]).map
      (fun t => (t.laqs (3, 3) 1, t.root, t.parent (2, 3), t.parent (1, 3), t.depth (2, 3),
        t.laqs (3, 3) (add64 3 (sub64 1 2)))) =
      some (some (2, 3), (0, 6), some (1, 3), some (0, 6), some 3, some (2, 3)) := by rfl
  rcases hc : cst_cn.construct (.cn 8 1) banana_csa [0, 0, 1, 3, 0, 0, 2] with _ | t
  · rw [hc] at hfacts
    cases hfacts
  · rw [hc] at hfacts
    simp only [Option.map_some', Option.some.injEq, Prod.mk.injEq] at hfacts
    obtain ⟨f1, f2, f3, f4, f5, f6⟩ := hfacts
    simp only [Option.map_some', Option.some.injEq, cst_cn.laqt, cst_cn.node_depth, f1,
      Option.some_bind, if_neg (show ¬ (1 = 0) by decide)]
    rcases fuel with _ | _ | _ | k
    · rfl
    · simp [cst_cn.node_depth_loop, f2, f3]
    · simp [cst_cn.node_depth_loop, f2, f3, f4]
    · have hd : t.node_depth_loop (k + 3) (2, 3) 0 = some (some 2) := by
        simp [cst_cn.node_depth_loop, f2, f3, f4, add64]
      rw [hd, Option.some_bind]
      exact laqt_loop_stuck t (3, 3) 1 (k + 3) (2, 3) 2 (sub64 1 2) 3 (by decide) (by decide)
        f5 f6 (by omega) rfl (k + 3)

/-- C20 fails on the code. Text `banana$`, internal node `v = [1, 3]` (the suffixes that
start with `a`), character `a` (code 97): no suffix starts with `aa`, the backward search
yields the empty interval `(2, 1)`, and `wl(v, a)` returns `(2, 1)` instead of
`root() = (0, 6)`: the result of the backward search is returned without a test. -/
theorem wl_empty_not_root :
    (cst_cn.construct (.cn 8 1) banana_csa [0, 0, 1, 3, 0, 0, 2]).map
      (fun t => (t.m_csa.backward_search 1 3 97, t.wl (1, 3) 97, t.root)) =
    some ((2, 1), (2, 1), (0, 6)) := by
  decide

/-- C22 fails on the code. Text `aaaaaaaaaabb$` (n = 13, LCP `[0, 0, 9, 8, ..., 1, 0, 1]`),
`cnr` index with block size 8 and small block size 4, `p = root() = [0, 12]` with children
`c_1 = [0, 0]`, `c_2 = [1, 10]`, `c_3 = [11, 12]`: `sibling(c_1)` is `c_2`, but
`sibling(c_2)` calls `fwd_nsv(12, LCP[11] + 1) = fwd_nsv(12, 1)`, which reads
`min_array[0][1]` past the single entry of that level, so `c_3` is not produced. -/
theorem sibling_out_of_bounds :
    (cst_cn.construct (.cnr 8 4) (csa_of_sa [12, 0, 1, 2, 3, 4, 5, 6, 7, 8, 9, 11, 10])
        [0, 0, 9, 8, 7, 6, 5, 4, 3, 2, 1, 0, 1]).map
      (fun t => (t.parent (1, 10), t.sibling (0, 0), t.sibling (1, 10))) =
    some (some (0, 12), some (1, 10), none) := by
  decide

/-- C23 fails on the code. Text `a^54 bb$` (n = 57, LCP `[0, 0, 53, 52, ..., 1, 0, 1]`),
`cn` index with block size 8 and two levels, `v = root() = [0, 56]` with head 0 and the two
positions 1 and 55 of value 0 in `[1, 56]`, so three children: `degree(v)` walks from
`[0, 0]` to `[1, 54]` and then calls `fwd_nsv(56, 1)`, which reads `min_array[1][1]` past the
single entry of the top level; no number of children is produced. -/
theorem degree_out_of_bounds :
    (cst_cn.construct (.cn 8 2) (csa_of_sa (56 :: List.range 54 ++ [55, 54]))
        (0 :: 0 :: (List.range 53).reverse.map (fun x => x + 1) ++ [0, 1])).map
      (fun t => (t.m_lcp.length, t.select_child (0, 56) 2, t.degree 57 (0, 56),
        t.degree 57 (1, 54))) =
    some (57, some (1, 54), none, some (some 2)) := by
  decide

/-- C24. In both variants and for every index structure and every start `i`, a search
with threshold `0` returns the sentinel `n` (with `l_value = n`): `fwd_nsv(i, 0) = n` and
`bwd_psv(i, 0) = n`. -/
theorem zero_threshold_not_found (s : npr_support_cn) (s2 : npr_support_cnr) (i : Nat) :
    s.fwd_nsv i 0 = some (s.m_lcp.length, s.m_lcp.length) ∧
      s.bwd_psv i 0 = some (s.m_lcp.length, s.m_lcp.length) ∧
      s2.fwd_nsv i 0 = some (s2.m_lcp.length, s2.m_lcp.length) ∧
      s2.bwd_psv i 0 = some (s2.m_lcp.length, s2.m_lcp.length) := by
  simp [npr_support_cn.fwd_nsv, npr_support_cn.bwd_psv, npr_support_cnr.fwd_nsv,
    npr_support_cnr.bwd_psv]

/-- C25 as stated fails. LCP `[0, 0, 1, ..., 7]` of `a^8 $` (n = 9), `cn` index with block
size 8 and two levels: `bwd_psv(9, 5)` starts outside the array, finds the minimum 7 of the
last block not below 5, continues in block 0 and returns position 5 (value 4), not the
sentinel 9; and `bwd_psv(16, 5)` reads `min_array[0][2]` outside its two entries. -/
theorem bwd_psv_out_of_range_start :
    (npr_support_cn.construct 8 2 (0 :: List.range 8)).map
      (fun s => (s.m_lcp.length, s.bwd_psv 9 5, s.bwd_psv 16 5)) =
    some (9, some (5, 4), none) := by
  decide

/-- C25, amended to the forward search. In both variants and for every index structure
over a non-empty LCP array: for every start `i >= n` and every `d`, `fwd_nsv(i, d)` returns
the sentinel `n` (with `l_value = n`) by its first test, whatever the arrays hold. -/
theorem fwd_nsv_out_of_range_start (s : npr_support_cn) (s2 : npr_support_cnr) (i d : Nat)
    (hn : 0 < s.m_lcp.length) (hn2 : 0 < s2.m_lcp.length) (hi : s.m_lcp.length ≤ i)
    (hi2 : s2.m_lcp.length ≤ i) :
    s.fwd_nsv i d = some (s.m_lcp.length, s.m_lcp.length) ∧
      s2.fwd_nsv i d = some (s2.m_lcp.length, s2.m_lcp.length) := by
  have e1 : i > sub64 s.m_lcp.length 1 := by
    rw [sub64_one _ hn]
    omega
  have e2 : i > sub64 s2.m_lcp.length 1 := by
    rw [sub64_one _ hn2]
    omega
  simp [npr_support_cn.fwd_nsv, npr_support_cnr.fwd_nsv, e1, e2]

/-- Instance of the amended C25: the empty index structures over `[0, 0, 1, 3, 0, 0, 2]`,
which have no level to read, with `i = 7` and `d = 3`. -/
theorem fwd_nsv_out_of_range_start_witness :
    (0 < 7 ∧ 7 ≤ 7) ∧
      (npr_support_cn.mk 8 [0, 0, 1, 3, 0, 0, 2] [] []).fwd_nsv 7 3 = some (7, 7) ∧
      (npr_support_cnr.mk 8 4 [0, 0, 1, 3, 0, 0, 2] [] []).fwd_nsv 7 3 = some (7, 7) :=
  ⟨by decide, fwd_nsv_out_of_range_start (npr_support_cn.mk 8 [0, 0, 1, 3, 0, 0, 2] [] [])
    (npr_support_cnr.mk 8 4 [0, 0, 1, 3, 0, 0, 2] [] []) 7 3 (by decide) (by decide)
    (by decide) (by decide)⟩

/-- C26. Text `banana$` with every configuration of the index (one level for `cn`):
`rmq(1, 6)` is position 1 with value 0, the first child of `root() = [0, 6]` is `[0, 0]`,
`sibling` leads from it to `[1, 3]`, `[4, 4]` and `[5, 6]`, and the string depths of
`[1, 3]` and `[5, 6]` are 1 and 2. -/
theorem banana_scenario :
    ∀ cfg ∈ standard_configs 1,
      (cst_cn.construct cfg banana_csa [0, 0, 1, 3, 0, 0, 2]).map
        (fun t => ((t.root, t.m_npr.rmq 1 6, t.select_child t.root 1),
          (t.sibling (0, 0), t.sibling (1, 3), t.sibling (4, 4)),
          (t.depth (1, 3), t.depth (5, 6)))) =
      some (((0, 6), some (1, 0), some (0, 0)), (some (1, 3), some (4, 4), some (5, 6)),
        (some 1, some 2)) := by
  intro cfg hcfg
  simp only [standard_configs, List.mem_cons, List.mem_singleton, List.not_mem_nil,
    or_false] at hcfg
  rcases hcfg with rfl | rfl | rfl | rfl | rfl | rfl | rfl | rfl | rfl <;> rfl

/-- Instance of C26 for the `cnr` index with block size 32 and small block size 8. -/
theorem banana_scenario_witness :
    npr_config.cnr 32 8 ∈ standard_configs 1 ∧
      (cst_cn.construct (.cnr 32 8) banana_csa [0, 0, 1, 3, 0, 0, 2]).map
        (fun t => ((t.root, t.m_npr.rmq 1 6, t.select_child t.root 1),
          (t.sibling (0, 0), t.sibling (1, 3), t.sibling (4, 4)),
          (t.depth (1, 3), t.depth (5, 6)))) =
      some (((0, 6), some (1, 0), some (0, 0)), (some (1, 3), some (4, 4), some (5, 6)),
        (some 1, some 2)) :=
  ⟨by decide, banana_scenario (.cnr 32 8) (by decide)⟩

/-- C27 as stated fails. Text `banana$`, `cn` index with block size 8: `select_leaf(3)`
and `select_leaf(6)` are the leaves `[2, 2]` (suffix `ana$`) and `[5, 5]` (suffix `na$`),
the minimum of `LCP[3..5]` is 0 at position 4, and `lca` is `get_node(4) = [0, 6]`, the
root, not `[1, 3]`. -/
theorem banana_lca_is_root :
    (cst_cn.construct (.cn 8 1) banana_csa [0, 0, 1, 3, 0, 0, 2]).map
      (fun t => (t.select_leaf 3, t.select_leaf 6, t.m_npr.rmq 3 5,
        t.lca (t.select_leaf 3) (t.select_leaf 6))) =
    some ((2, 2), (5, 5), some (4, 0), some (0, 6)) := by
  decide

/-- C27, amended. Text `banana$` with every configuration of the index:
`lca(select_leaf(3), select_leaf(6))` is the root `[0, 6]`. -/
theorem banana_lca :
    ∀ cfg ∈ standard_configs 1,
      (cst_cn.construct cfg banana_csa [0, 0, 1, 3, 0, 0, 2]).map
        (fun t => (t.lca (t.select_leaf 3) (t.select_leaf 6), t.root)) =
      some (some (0, 6), (0, 6)) := by
  decide

/-- Instance of the amended C27 for the `cnr` index with block size 8 and small block
size 4. -/
theorem banana_lca_witness :
    npr_config.cnr 8 4 ∈ standard_configs 1 ∧
      (cst_cn.construct (.cnr 8 4) banana_csa [0, 0, 1, 3, 0, 0, 2]).map
        (fun t => (t.lca (t.select_leaf 3) (t.select_leaf 6), t.root)) =
      some (some (0, 6), (0, 6)) :=
  ⟨by decide, banana_lca (.cnr 8 4) (by decide)⟩

/-- C28 as stated fails. Text `aaaa$` (suffix array `[4, 3, 2, 1, 0]`, so
`Psi = [4, 0, 1, 2, 3]`, LCP `[0, 0, 1, 2, 3]`), `cn` index with block size 8: for
`v = [1, 4]`, `x = Psi[1] = 0` and `y = Psi[4] = 3`, the minimum of `LCP[1..3]` is 0 at
position 1, and `sl(v)` is `get_node(1) = [0, 4]`, the root, not `[1, 4]`. -/
theorem aaaa_sl_is_root :
    (cst_cn.construct (.cn 8 1) (csa_of_sa [4, 3, 2, 1, 0]) [0, 0, 1, 2, 3]).map
      (fun t => ((List.range 5).map t.m_csa.psi, t.m_npr.rmq 1 3, t.sl (1, 4))) =
    some ([4, 0, 1, 2, 3], some (1, 0), some (0, 4)) := by
  decide

/-- C28, amended. Text `aaaa$` with every configuration of the index: the root `[0, 4]`
has exactly the two children `[0, 0]` and `[1, 4]` (a third one is not there: the
no-sibling sentinel `root()` is returned), and `sl([1, 4])` is the root `[0, 4]`. -/
theorem aaaa_scenario :
    ∀ cfg ∈ standard_configs 1,
      (cst_cn.construct cfg (csa_of_sa [4, 3, 2, 1, 0]) [0, 0, 1, 2, 3]).map
        (fun t => ((t.root, t.degree 5 t.root),
          (t.select_child t.root 1, t.select_child t.root 2, t.select_child t.root 3),
          t.sl (1, 4))) =
      some (((0, 4), some (some 2)), (some (0, 0), some (1, 4), some (0, 4)),
        some (0, 4)) := by
  intro cfg hcfg
  simp only [standard_configs, List.mem_cons, List.mem_singleton, List.not_mem_nil,
    or_false] at hcfg
  rcases hcfg with rfl | rfl | rfl | rfl | rfl | rfl | rfl | rfl | rfl <;> rfl

/-- Instance of the amended C28 for the `cn` index with block size 32. -/
theorem aaaa_scenario_witness :
    npr_config.cn 32 1 ∈ standard_configs 1 ∧
      (cst_cn.construct (.cn 32 1) (csa_of_sa [4, 3, 2, 1, 0]) [0, 0, 1, 2, 3]).map
        (fun t => ((t.root, t.degree 5 t.root),
          (t.select_child t.root 1, t.select_child t.root 2, t.select_child t.root 3),
          t.sl (1, 4))) =
      some (((0, 4), some (some 2)), (some (0, 0), some (1, 4), some (0, 4)),
        some (0, 4)) :=
  ⟨by decide, aaaa_scenario (.cn 32 1) (by decide)⟩

/-- C29. The `cn` index built with block size `B >= 1` and `r >= 1` levels over an array
with entries below its length `n` (any `n`, in particular `n >= 2`): for every level `l` and
every block `k` of that level (`k * B^(l+1) < n`), `min_array[l][k]` is the minimum of LCP
over the positions `[k * B^(l+1), min((k+1) * B^(l+1), n))`, and `pos_array[l][k]` is the
local index `p < B` of the leftmost entry of block `k` of the level below (LCP itself for
`l = 0`, `min_array[l-1]` otherwise) that attains this minimum. -/
theorem cn_construct_invariant (B r : Nat) (lcp : List Nat) (hB : 0 < B) (hr : 0 < r)
    (hval : ∀ v ∈ lcp, v < lcp.length) :
    ∃ s, npr_support_cn.construct B r lcp = some s ∧ s.min_array.length = r ∧
      s.pos_array.length = r ∧
      ∀ l k, l < r → k * B ^ (l + 1) < lcp.length →
        ∃ m p, level_get s.min_array l k = some m ∧ level_get s.pos_array l k = some p ∧
          RangeMin lcp (k * B ^ (l + 1)) (min ((k + 1) * B ^ (l + 1)) lcp.length) m ∧
          p < B ∧ chainA lcp s.min_array l (k * B + p) = some m ∧
          ∀ j w, k * B ≤ j → j < k * B + p → chainA lcp s.min_array l j = some w → m < w := by
  obtain ⟨s, hs, hlen, hch⟩ := cn_construct_levels B r lcp hB hr hval
  refine ⟨s, hs, hlen, by rw [hch.len, hlen], ?_⟩
  intro l k hl hk
  obtain ⟨hcount, hrange⟩ := hch.range_min hB (l + 1) (by omega)
  have hkn : k < chainN lcp.length s.min_array (l + 1) := (hcount k).2 hk
  obtain ⟨mj, hmj, hR⟩ := hrange k hkn
  obtain ⟨m, p, h1, h2, h3, _, h5, _, h7⟩ := (hch.summ l (by omega)).block k hkn
  have e : mj = m := by
    have : chainA lcp s.min_array (l + 1) k = level_get s.min_array l k := rfl
    rw [this, h1] at hmj
    cases hmj
    rfl
  subst e
  exact ⟨mj, p, h1, h2, hR, h3, h5, h7⟩

/-- Instance of C29: `banana$`, block size 8, one level. -/
theorem cn_construct_invariant_witness :
    ∃ s, npr_support_cn.construct 8 1 [0, 0, 1, 3, 0, 0, 2] = some s ∧
      s.min_array.length = 1 ∧ s.pos_array.length = 1 ∧
      ∀ l k, l < 1 → k * 8 ^ (l + 1) < [0, 0, 1, 3, 0, 0, 2].length →
        ∃ m p, level_get s.min_array l k = some m ∧ level_get s.pos_array l k = some p ∧
          RangeMin [0, 0, 1, 3, 0, 0, 2] (k * 8 ^ (l + 1))
            (min ((k + 1) * 8 ^ (l + 1)) [0, 0, 1, 3, 0, 0, 2].length) m ∧
          p < 8 ∧ chainA [0, 0, 1, 3, 0, 0, 2] s.min_array l (k * 8 + p) = some m ∧
          ∀ j w, k * 8 ≤ j → j < k * 8 + p →
            chainA [0, 0, 1, 3, 0, 0, 2] s.min_array l j = some w → m < w :=
  cn_construct_invariant 8 1 [0, 0, 1, 3, 0, 0, 2] (by decide) (by decide) (by decide)

/-- C30. The `cnr` index built with block size `B >= 2` and small block size `b >= 1`
over a non-empty array with entries below its length `n`: `pos_array[0]` holds for every
small block of `b` entries of LCP the local index of its leftmost minimum (the minimum
itself is the read `LCP[k * b + pos_array[0][k]]`); with more than one level,
`min_array[0]` and `pos_array[1]` hold the minimum and the local index of its leftmost
occurrence for every block of `b` of these per-small-block minima; and for every level
`r >= 2`, `min_array[r-1]` and `pos_array[r]` summarise `min_array[r-2]` in blocks of
`B` entries in the same way. -/
theorem cnr_construct_invariant (B b : Nat) (lcp : List Nat) (hB : 2 ≤ B) (hb : 0 < b)
    (hn : 0 < lcp.length) (hval : ∀ v ∈ lcp, v < lcp.length) :
    ∃ s, npr_support_cnr.construct B b lcp = some s ∧
      IsSummary b (fun j => lcp[j]?) lcp.length s.level0_min (level_get s.pos_array 0)
        ((lcp.length + b - 1) / b) ∧
      (1 < s.pos_array.length → ∃ n1, level_size s.min_array 0 = some n1 ∧
        IsSummary b s.level0_min ((lcp.length + b - 1) / b) (level_get s.min_array 0)
          (level_get s.pos_array 1) n1) ∧
      ∀ r, 2 ≤ r → r < s.pos_array.length →
        ∃ nA nM, level_size s.min_array (r - 2) = some nA ∧
          level_size s.min_array (r - 1) = some nM ∧
          IsSummary B (level_get s.min_array (r - 2)) nA (level_get s.min_array (r - 1))
            (level_get s.pos_array r) nM := by
  obtain ⟨s, hs, h1, h2, h3, hL⟩ :=
    cnr_construct_levels B b lcp hB hb (values_of_mem lcp hval) hn
  refine ⟨s, hs, ?_, ?_, ?_⟩
  · have := hL.sum0
    rw [h1, h3] at this
    exact this
  · intro hlen
    rcases hL.upper with ⟨_, hM⟩ | ⟨m1, M', p0, p1, P', e1, e2, e3, e4, e5, e6⟩
    · exfalso
      have := hL.plen
      rw [hM] at this
      simp only [List.length_nil] at this
      omega
    · refine ⟨m1.data.length, by rw [e1]; simp [level_size, int_vector.size], ?_⟩
      rw [h1, h3] at e4
      rw [e1, e2, level_get_cons_zero, level_get_cons_succ, level_get_cons_zero]
      exact e4
  · intro r hr2 hrlen
    rcases hL.upper with ⟨_, hM⟩ | ⟨m1, M', p0, p1, P', e1, e2, e3, e4, e5, e6⟩
    · exfalso
      have := hL.plen
      rw [hM] at this
      simp only [List.length_nil] at this
      omega
    · obtain ⟨k, rfl⟩ : ∃ k, r = k + 2 := ⟨r - 2, by omega⟩
      have hk : k < M'.length := by
        rw [e2] at hrlen
        have := e5.len
        simp only [List.length_cons] at hrlen
        omega
      have hS := e5.summ k hk
      rw [h2] at hS
      refine ⟨chainN m1.data.length M' k, chainN m1.data.length M' (k + 1), ?_, ?_, ?_⟩
      · rw [e1, show k + 2 - 2 = k by omega]
        cases k with
        | zero => simp [level_size, chainN, int_vector.size]
        | succ j =>
          have := level_size_chainN m1.data.length M' j (by omega)
          simpa [level_size] using this
      · rw [e1, show k + 2 - 1 = k + 1 by omega]
        have := level_size_chainN m1.data.length M' k hk
        simpa [level_size] using this
      · rw [e1, e2, show k + 2 - 2 = k by omega, show k + 2 - 1 = k + 1 by omega,
          level_get_cons_succ, level_get_cons_succ, level_get_cons_succ]
        have e : level_get (m1 :: M') k = chainA m1.data M' k := by
          cases k with
          | zero => exact level_get_cons_zero m1 M'
          | succ j => exact level_get_cons_succ m1 M' j
        rw [e]
        exact hS

/-- Instance of C30: `banana$`, block size 8, small block size 4. -/
theorem cnr_construct_invariant_witness :
    ∃ s, npr_support_cnr.construct 8 4 [0, 0, 1, 3, 0, 0, 2] = some s ∧
      IsSummary 4 (fun j => [0, 0, 1, 3, 0, 0, 2][j]?) [0, 0, 1, 3, 0, 0, 2].length
        s.level0_min (level_get s.pos_array 0) (([0, 0, 1, 3, 0, 0, 2].length + 4 - 1) / 4) ∧
      (1 < s.pos_array.length → ∃ n1, level_size s.min_array 0 = some n1 ∧
        IsSummary 4 s.level0_min (([0, 0, 1, 3, 0, 0, 2].length + 4 - 1) / 4)
          (level_get s.min_array 0) (level_get s.pos_array 1) n1) ∧
      ∀ r, 2 ≤ r → r < s.pos_array.length →
        ∃ nA nM, level_size s.min_array (r - 2) = some nA ∧
          level_size s.min_array (r - 1) = some nM ∧
          IsSummary 8 (level_get s.min_array (r - 2)) nA (level_get s.min_array (r - 1))
            (level_get s.pos_array r) nM :=
  cnr_construct_invariant 8 4 [0, 0, 1, 3, 0, 0, 2] (by decide) (by decide) (by decide)
    (by decide)

/-- C31 as stated fails. LCP array of `banana$`, `cn` index with block size 8 and `cnr`
index with block size 8 and small block size 4: the `pos_array` levels are created with
`bits::hi(8) + 1 = 4` bits (`cn`) and `bits::hi(4) + 1 = 3` bits (`cnr`), one more than
`ceil(log2 8) = 3` and `ceil(log2 4) = 2`. -/
theorem pos_width_above_ceil_log :
    ((npr_support_cn.construct 8 1 [0, 0, 1, 3, 0, 0, 2]).map
        (fun s => s.pos_array.map int_vector.width) = some [4] ∧ Nat.clog 2 8 = 3) ∧
      ((npr_support_cnr.construct 8 4 [0, 0, 1, 3, 0, 0, 2]).map
        (fun s => s.pos_array.map int_vector.width) = some [3, 3] ∧ Nat.clog 2 4 = 2) := by
  refine ⟨⟨by decide, ?_⟩, ⟨by decide, ?_⟩⟩
  · exact Nat.clog_pow 2 3 (by decide)
  · exact Nat.clog_pow 2 2 (by decide)

/-- C31, amended: the position levels have one bit more. For every block size `B >= 2`
(in particular 8, 16, 32), small block size `b >= 1` (in particular 4, 8), level count
`r >= 1` and every non-empty array of length `n` with entries below `n`: both constructors
succeed; every `min_array` level has `ceil(log2(n + 1))` bits per entry; every `pos_array`
level of `cn` has `floor(log2 B) + 1` bits; and in `cnr` the levels 0 and 1 of `pos_array`
have `floor(log2 b) + 1` bits and the levels above have `floor(log2 B) + 1` bits. -/
theorem level_bit_widths (B b r : Nat) (lcp : List Nat) (hB : 2 ≤ B) (hb : 0 < b)
    (hr : 0 < r) (hn : 0 < lcp.length) (hval : ∀ v ∈ lcp, v < lcp.length) :
    (∃ s, npr_support_cn.construct B r lcp = some s ∧
      (∀ v ∈ s.min_array, v.width = Nat.clog 2 (lcp.length + 1)) ∧
      ∀ v ∈ s.pos_array, v.width = Nat.log 2 B + 1) ∧
    ∃ s, npr_support_cnr.construct B b lcp = some s ∧
      (∀ v ∈ s.min_array, v.width = Nat.clog 2 (lcp.length + 1)) ∧
      ∀ l v, s.pos_array[l]? = some v →
        v.width = if l < 2 then Nat.log 2 b + 1 else Nat.log 2 B + 1 := by
  constructor
  · obtain ⟨s, hs, _⟩ := cn_construct_levels B r lcp (by omega) hr hval
    obtain ⟨h1, h2⟩ := cn_construct_width B r lcp s hs
    refine ⟨s, hs, ?_, ?_⟩
    · intro v hv
      rw [h1 v hv, bits_hi_succ_eq_clog _ hn]
    · intro v hv
      rw [h2 v hv, bits_hi_eq_log]
  · obtain ⟨s, hs, _⟩ := cnr_construct_levels B b lcp hB hb (values_of_mem lcp hval) hn
    obtain ⟨h1, h2⟩ := cnr_construct_width B b lcp s hs
    refine ⟨s, hs, ?_, ?_⟩
    · intro v hv
      rw [h1 v hv, bits_hi_succ_eq_clog _ hn]
    · intro l v hv
      rw [h2 l v hv, bits_hi_eq_log, bits_hi_eq_log]

/-- Instance of the amended C31: `banana$`, block size 8, small block size 4, one level
for `cn`. -/
theorem level_bit_widths_witness :
    (∃ s, npr_support_cn.construct 8 1 [0, 0, 1, 3, 0, 0, 2] = some s ∧
      (∀ v ∈ s.min_array, v.width = Nat.clog 2 ([0, 0, 1, 3, 0, 0, 2].length + 1)) ∧
      ∀ v ∈ s.pos_array, v.width = Nat.log 2 8 + 1) ∧
    ∃ s, npr_support_cnr.construct 8 4 [0, 0, 1, 3, 0, 0, 2] = some s ∧
      (∀ v ∈ s.min_array, v.width = Nat.clog 2 ([0, 0, 1, 3, 0, 0, 2].length + 1)) ∧
      ∀ l v, s.pos_array[l]? = some v →
        v.width = if l < 2 then Nat.log 2 4 + 1 else Nat.log 2 8 + 1 :=
  level_bit_widths 8 4 1 [0, 0, 1, 3, 0, 0, 2] (by decide) (by decide) (by decide)
    (by decide) (by decide)

/-- C32 fails on the code. Text `a^54 bb$` (n = 57), `cn` index with block size 8 and two
levels, `v = root() = [0, 56]` with head `rmq(1, 56).value = 0`: the last child located
directly is `[bwd_psv(56, 1).pos, 56] = [55, 56]`, but `degree(v)` and the third step of
`select_child` call `fwd_nsv(56, 1)`, which reads `min_array[1][1]` past the single entry of
the top level: neither `degree(v)` nor `select_child(v, 3)` is produced. -/
theorem last_child_chain_out_of_bounds :
    (cst_cn.construct (.cn 8 2) (csa_of_sa (56 :: List.range 54 ++ [55, 54]))
        (0 :: 0 :: (List.range 53).reverse.map (fun x => x + 1) ++ [0, 1])).map
      (fun t => (t.m_npr.rmq 1 56, t.m_npr.bwd_psv 56 1, t.select_last_child (0, 56),
        t.degree 57 (0, 56), t.select_child (0, 56) 3)) =
    some (some (1, 0), some (55, 0), some (55, 56), none, none) := by
  rfl

/-- C33. Round trip of the `cnr` index through a stream of items. For every index that the
constructor builds, and more generally every index whose `min_array` has one level less
than its `pos_array` or whose arrays are both empty (a default index): `serialize` writes
the level count, then `pos_array[0]`, then for each `l` in `[1, levels)` the pair
`min_array[l-1]`, `pos_array[l]`; and `load` into a fresh index, from a stream that starts
with these items, consumes exactly these items and leaves an index with the same
`min_array` and `pos_array` (and the LCP pointer it was given). -/
theorem cnr_serialize_load (s : npr_support_cnr) (llcp : List Nat) (rest : List stream_item)
    (h : (∃ B b lcp, npr_support_cnr.construct B b lcp = some s) ∨
      s.min_array.length = s.pos_array.length - 1) :
    ∃ items s1, s.serialize = some items ∧
      items = stream_item.word s.pos_array.length ::
        ((s.pos_array.take 1).map stream_item.vector ++
          (s.min_array.zip (s.pos_array.drop 1)).flatMap fun x =>
            [stream_item.vector x.1, stream_item.vector x.2]) ∧
      (npr_support_cnr.mk s.block_size s.sbs [] [] []).load llcp (items ++ rest) =
        some (s1, rest) ∧
      s1.min_array = s.min_array ∧ s1.pos_array = s.pos_array ∧ s1.m_lcp = llcp := by
  have hlen : s.min_array.length = s.pos_array.length - 1 := by
    rcases h with ⟨B, b, lcp, hs⟩ | h
    · have := cnr_construct_plen B b lcp s hs
      omega
    · exact h
  cases hP : s.pos_array with
  | nil =>
    have hM : s.min_array = [] := by
      rw [hP] at hlen
      exact List.length_eq_zero.1 hlen
    refine ⟨[stream_item.word 0], ⟨s.block_size, s.sbs, llcp, [], []⟩, ?_, ?_, ?_, ?_, rfl, rfl⟩
    · simp [npr_support_cnr.serialize, hP]
    · simp [hM]
    · simp [npr_support_cnr.load]
    · exact hM.symm
  | cons p0 P' =>
    have hlen1 : s.pos_array.length = s.min_array.length + 1 := by
      rw [hP] at hlen ⊢
      simp at hlen ⊢
      omega
    have hloop := serialize_loop_eq s hlen1 (s.pos_array.length - 1) 1 (le_refl _) (by omega)
    have hload := load_loop_spec s.min_array s.pos_array hlen1 rest (s.pos_array.length - 1) 1
      (resize_levels [] (sub64 s.pos_array.length 1))
      ((resize_levels [] s.pos_array.length).set 0 p0) (le_refl _) (by omega)
      (by rw [resize_levels_length, sub64_one _ (by omega)]; omega)
      (by rw [List.length_set, resize_levels_length])
      (by intro j hj; omega)
      (by
        intro j hj
        have hj0 : j = 0 := by omega
        subst hj0
        have h0 : 0 < (resize_levels [] s.pos_array.length).length := by
          rw [resize_levels_length]
          omega
        rw [List.getElem?_set_self h0, hP, List.getElem?_cons_zero])
    rw [hP] at hloop hload
    simp only [List.length_cons, Nat.add_sub_cancel, List.drop_zero, List.drop_succ_cons,
      Nat.sub_self] at hloop hload
    refine ⟨_, ⟨s.block_size, s.sbs, llcp, s.min_array, p0 :: P'⟩, ?_, rfl, ?_, rfl, rfl, rfl⟩
    · simp [npr_support_cnr.serialize, hP, hloop]
    · simp [npr_support_cnr.load, hload]

/-- Instance of C33: the index that the constructor builds over the LCP array of `banana$`
with block size 8 and small block size 4 (one `min_array` level, two `pos_array` levels). -/
theorem cnr_serialize_load_witness :
    ∃ items s1,
      (npr_support_cnr.mk 8 4 [0, 0, 1, 3, 0, 0, 2] [⟨3, [0]⟩] [⟨3, [0, 0]⟩, ⟨3, [0]⟩]).serialize =
        some items ∧
      items = stream_item.word 2 ::
        (([(⟨3, [0, 0]⟩ : int_vector), ⟨3, [0]⟩].take 1).map stream_item.vector ++
          ([(⟨3, [0]⟩ : int_vector)].zip ([(⟨3, [0, 0]⟩ : int_vector), ⟨3, [0]⟩].drop 1)).flatMap
            fun x => [stream_item.vector x.1, stream_item.vector x.2]) ∧
      (npr_support_cnr.mk 8 4 [] [] []).load [0, 0, 1, 3, 0, 0, 2] (items ++ []) =
        some (s1, []) ∧
      s1.min_array = [⟨3, [0]⟩] ∧ s1.pos_array = [⟨3, [0, 0]⟩, ⟨3, [0]⟩] ∧
      s1.m_lcp = [0, 0, 1, 3, 0, 0, 2] :=
  cnr_serialize_load
    (npr_support_cnr.mk 8 4 [0, 0, 1, 3, 0, 0, 2] [⟨3, [0]⟩] [⟨3, [0, 0]⟩, ⟨3, [0]⟩])
    [0, 0, 1, 3, 0, 0, 2] [] (Or.inl ⟨8, 4, [0, 0, 1, 3, 0, 0, 2], by decide⟩)

/-- C34 fails on the code. Text `a^63 $` (n = 64 = 8 * 8, LCP `[0, 0, 1, ..., 62]`), `cn`
index with block size 8 and two levels (eight blocks, one top entry): for `i = 56 < n` and
`d = 1` the minimum 55 of the last block is not below `d`, `find_nsv_block(1, 8, 0)` is
called and reads `min_array[1][8 / 8]`, one past the single entry of the top level. -/
theorem fwd_nsv_index_past_level :
    (npr_support_cn.construct 8 2 (0 :: List.range 63)).map
      (fun s => (s.m_lcp.length, level_size s.min_array 0, level_size s.min_array 1,
        level_get s.min_array 0 (56 / 8), level_get s.min_array 1 (8 / 8), s.fwd_nsv 56 1)) =
    some (64, some 8, some 1, some 55, none, none) := by
  rfl

/-- C35. For the index of either variant built over an LCP array of length `n >= 2` with
`LCP[0] = 0` and values below `n`: whenever `fwd_nsv(i, d)` or `bwd_psv(i, d)` answers
`(p, l_value)`, for any `i` and `d`, either `p < n` and `l_value = LCP[p]`, or `p = n` and
`l_value = n`. The backward search answers for every `i < n`, and the forward search
answers whenever an entry below `d` exists from `i` on. -/
theorem l_value_consistent (cfg : npr_config) (lcp : List Nat)
    (hcfg : (∃ B r, cfg = .cn B r ∧ 2 ≤ B ∧ lcp.length ≤ B ^ r) ∨
      (∃ B b, cfg = .cnr B b ∧ 2 ≤ B ∧ 0 < b))
    (hn : 2 ≤ lcp.length) (h0 : lcp[0]? = some 0) (hval : ∀ v ∈ lcp, v < lcp.length) :
    ∃ npr, npr_type.construct cfg lcp = some npr ∧
      (∀ i d r, (npr.fwd_nsv i d = some r ∨ npr.bwd_psv i d = some r) →
        (r.1 < lcp.length ∧ lcp[r.1]? = some r.2) ∨
          (r.1 = lcp.length ∧ r.2 = lcp.length)) ∧
      (∀ i d, i < lcp.length → ∃ r, npr.bwd_psv i d = some r) ∧
      ∀ i d, (∃ q w, i ≤ q ∧ lcp[q]? = some w ∧ w < d) → ∃ r, npr.fwd_nsv i d = some r := by
  obtain ⟨npr, hnpr, hok, hf, hb⟩ := bwd_psv_l_value cfg lcp hcfg hn h0 hval
  refine ⟨npr, hnpr, ?_, ?_, hf⟩
  · intro i d r h
    rcases h with h | h
    · rcases hok.fwd_nsv i d r h with ⟨_, h2, h3, _⟩ | ⟨h1, h2, _⟩
      · exact Or.inl ⟨h2, h3⟩
      · exact Or.inr ⟨h1, h2⟩
    · exact hb i d r h
  · intro i d hi
    by_cases hd : d = 0
    · subst hd
      exact ⟨_, hok.bwd_psv_zero i⟩
    · obtain ⟨p, v, hp, _⟩ := hok.bwd_psv i d hi (by omega)
      exact ⟨_, hp⟩

/-- Instance of C35: the `cnr` index with block size 8 and small block size 4 over the LCP
array of `banana$`. -/
theorem l_value_consistent_witness :
    ∃ npr, npr_type.construct (.cnr 8 4) [0, 0, 1, 3, 0, 0, 2] = some npr ∧
      (∀ i d r, (npr.fwd_nsv i d = some r ∨ npr.bwd_psv i d = some r) →
        (r.1 < [0, 0, 1, 3, 0, 0, 2].length ∧ [0, 0, 1, 3, 0, 0, 2][r.1]? = some r.2) ∨
          (r.1 = [0, 0, 1, 3, 0, 0, 2].length ∧ r.2 = [0, 0, 1, 3, 0, 0, 2].length)) ∧
      (∀ i d, i < [0, 0, 1, 3, 0, 0, 2].length → ∃ r, npr.bwd_psv i d = some r) ∧
      ∀ i d, (∃ q w, i ≤ q ∧ [0, 0, 1, 3, 0, 0, 2][q]? = some w ∧ w < d) →
        ∃ r, npr.fwd_nsv i d = some r :=
  l_value_consistent (.cnr 8 4) [0, 0, 1, 3, 0, 0, 2] (Or.inr ⟨8, 4, rfl, by decide, by decide⟩)
    (by decide) (by decide) (by decide)

/-- C36 fails on the code. Text `a^13 $` (n = 14, LCP `[0, 0, 1, ..., 12]`), `cnr` index
with block size 8 and small block size 4, internal node `v = [11, 13]` (head 12) with
`degree(v) = 2` and children `select_child(v, 1) = [11, 11]`, `select_child(v, 2) = [12, 13]`:
`parent` of either child asks for `get_node(12)`, whose `nsv(12) = fwd_nsv(13, 11)` reads
`min_array[0][1]` past the single entry of that level; `v` is not given back. -/
theorem parent_of_child_out_of_bounds :
    (cst_cn.construct (.cnr 8 4) (csa_of_sa (13 :: (List.range 13).reverse))
        (0 :: List.range 13)).map
      (fun t => (t.degree 14 (11, 13), t.select_child (11, 13) 1, t.select_child (11, 13) 2,
        t.parent (11, 11), t.parent (12, 13), t.m_npr.fwd_nsv 13 11)) =
    some (some (some 2), some (11, 11), some (12, 13), none, none, none) := by
  rfl

/-- C37. For an LCP array with `LCP[0] = 0` (so `n >= 1`) and values below `n`, and either
variant of the index (`cn` with block size `B >= 2` and any level count `r` with
`n <= B^r`, `cnr` with `B >= 2` and small block size `b >= 1`): the index is built unless
the `cn` level count is 0; and in every tree built, for every `i < n` and every `d >= 1`,
`bwd_psv(i, d)` answers a position `p <= i` (so never the sentinel `n`) with
`l_value = LCP[p] < d` (an answer means that no scan stepped below index 0, which is a
failure of the search in this embedding), and in `laqs(v, d)` with `v.first < n` and
`1 <= d`, `d + 1 < 2^64` the test `l == n` is never true: `laqs` is the interval made of the
two answers without the replacement of `l` by 0. -/
theorem bwd_psv_always_found (cfg : npr_config) (csa : csa_type) (lcp : List Nat)
    (hcfg : (∃ B r, cfg = .cn B r ∧ 2 ≤ B ∧ lcp.length ≤ B ^ r) ∨
      (∃ B b, cfg = .cnr B b ∧ 2 ≤ B ∧ 0 < b))
    (h0 : lcp[0]? = some 0) (hval : ∀ v ∈ lcp, v < lcp.length) :
    ((∀ B, cfg ≠ .cn B 0) → ∃ t, cst_cn.construct cfg csa lcp = some t) ∧
      ∀ t, cst_cn.construct cfg csa lcp = some t →
        (∀ i d, i < lcp.length → 0 < d →
          ∃ p l, t.m_npr.bwd_psv i d = some (p, l) ∧ p ≤ i ∧ lcp[p]? = some l ∧ l < d) ∧
        ∀ (v : node_type) (d : Nat), v.1 < lcp.length → 0 < d → d + 1 < 2 ^ 64 →
          t.laqs v d = (t.m_npr.bwd_psv v.1 (d + 1)).bind fun l =>
            (t.m_npr.fwd_nsv v.2 (d + 1)).map fun r => (l.1, sub64 r.1 1) := by
  have main : ∀ npr : npr_type, npr_type.construct cfg lcp = some npr →
      ∀ i d, i < lcp.length → 0 < d →
        ∃ p l, npr.bwd_psv i d = some (p, l) ∧ p ≤ i ∧ lcp[p]? = some l ∧ l < d := by
    intro npr hnpr i d hi hd
    rcases hcfg with ⟨B, r, rfl, hB, hr⟩ | ⟨B, b, rfl, hB, hb⟩
    · cases r with
      | zero => simp [npr_type.construct, npr_support_cn.construct] at hnpr
      | succ r =>
        obtain ⟨s, hs, hl, _, hI⟩ :=
          cn_construct_inv B r lcp (by omega) (values_of_mem lcp hval) h0 hr
        simp only [npr_type.construct, hs, Option.map_some', Option.some.injEq] at hnpr
        subst hnpr
        subst hl
        obtain ⟨p, l, h1, h2, h3, h4, _⟩ := cn_bwd_psv_spec hI i d hd hi
        exact ⟨p, l, h1, h2, h3, h4⟩
    · obtain ⟨s, hs, hl, _, _, hI⟩ := cnr_construct_ok B b lcp hB hb h0 hval
      simp only [npr_type.construct, hs, Option.map_some', Option.some.injEq] at hnpr
      subst hnpr
      subst hl
      obtain ⟨p, l, h1, h2, h3, h4, _⟩ := cnr_bwd_psv_spec hI i d hd hi
      exact ⟨p, l, h1, h2, h3, h4⟩
  constructor
  · intro hne
    rcases hcfg with ⟨B, r, rfl, hB, hr⟩ | ⟨B, b, rfl, hB, hb⟩
    · cases r with
      | zero => exact absurd rfl (hne B)
      | succ r =>
        obtain ⟨s, hs, _⟩ := cn_construct_inv B r lcp (by omega) (values_of_mem lcp hval) h0 hr
        exact ⟨⟨csa, lcp, .cn s⟩, by simp [cst_cn.construct, npr_type.construct, hs]⟩
    · obtain ⟨s, hs, _⟩ := cnr_construct_ok B b lcp hB hb h0 hval
      exact ⟨⟨csa, lcp, .cnr s⟩, by simp [cst_cn.construct, npr_type.construct, hs]⟩
  · intro t ht
    simp only [cst_cn.construct, Option.map_eq_some'] at ht
    obtain ⟨npr, hnpr, rfl⟩ := ht
    refine ⟨main npr hnpr, ?_⟩
    intro v d hv hd hd64
    obtain ⟨p, l, h1, h2, _⟩ := main npr hnpr v.1 (d + 1) hv (by omega)
    have e : add64 d 1 = d + 1 := by
      unfold add64
      exact Nat.mod_eq_of_lt hd64
    unfold cst_cn.laqs
    rw [if_neg (by omega), e]
    simp only [h1, Option.some_bind]
    rw [if_neg (by omega)]

/-- Instance of C37: the tree of `banana$` with the `cn` index of block size 8 and one
level. -/
theorem bwd_psv_always_found_witness :
    ((∀ B, npr_config.cn 8 1 ≠ .cn B 0) →
        ∃ t, cst_cn.construct (.cn 8 1) banana_csa [0, 0, 1, 3, 0, 0, 2] = some t) ∧
      ∀ t, cst_cn.construct (.cn 8 1) banana_csa [0, 0, 1, 3, 0, 0, 2] = some t →
        (∀ i d, i < [0, 0, 1, 3, 0, 0, 2].length → 0 < d →
          ∃ p l, t.m_npr.bwd_psv i d = some (p, l) ∧ p ≤ i ∧
            [0, 0, 1, 3, 0, 0, 2][p]? = some l ∧ l < d) ∧
        ∀ (v : node_type) (d : Nat), v.1 < [0, 0, 1, 3, 0, 0, 2].length → 0 < d →
          d + 1 < 2 ^ 64 →
          t.laqs v d = (t.m_npr.bwd_psv v.1 (d + 1)).bind fun l =>
            (t.m_npr.fwd_nsv v.2 (d + 1)).map fun r => (l.1, sub64 r.1 1) :=
  bwd_psv_always_found (.cn 8 1) banana_csa [0, 0, 1, 3, 0, 0, 2]
    (Or.inl ⟨8, 1, rfl, by decide, by decide⟩) (by decide) (by decide)

/-- C38. Whenever `laqt(v, d)` returns a node, with whatever iteration budget, for any tree
state, node `v` and `d`, that node is the node `laqs(v, d)` (which is `root()` for `d = 0`):
the inner walk ends only at `res`, so `res = aux` assigns `res` to itself. -/
theorem laqt_returns_laqs (t : cst_cn) (fuel : Nat) (v : node_type) (d : Nat) (r : node_type)
    (h : t.laqt fuel v d = some (some r)) :
    t.laqs v d = some r ∧ (d = 0 → r = t.root) := by
  unfold cst_cn.laqt at h
  by_cases hd : d = 0
  · rw [if_pos hd] at h
    simp only [Option.some.injEq] at h
    subst h
    exact ⟨by simp [cst_cn.laqs, hd], fun _ => rfl⟩
  · rw [if_neg hd] at h
    simp only [Option.bind_eq_some] at h
    obtain ⟨res, hres, counted, _, h⟩ := h
    cases counted with
    | none => simp at h
    | some node_d =>
      have e := laqt_loop_result t v d fuel fuel res node_d _ r h
      subst e
      exact ⟨hres, fun h0 => absurd h0 hd⟩

/-- Instance of C38: the tree of `banana$` with the `cn` index of block size 8 (the index
is the one the constructor builds), `v = [1, 3]`, `d = 3`, budget 7: `laqt` returns
`[1, 2]`, which is `laqs(v, 3)`. -/
theorem laqt_returns_laqs_witness :
    (npr_type.construct (.cn 8 1) [0, 0, 1, 3, 0, 0, 2] =
        some (.cn ⟨8, [0, 0, 1, 3, 0, 0, 2], [⟨3, [0]⟩], [⟨4, [0]⟩]⟩) ∧
      (cst_cn.mk banana_csa [0, 0, 1, 3, 0, 0, 2]
        (.cn ⟨8, [0, 0, 1, 3, 0, 0, 2], [⟨3, [0]⟩], [⟨4, [0]⟩]⟩)).laqt 7 (1, 3) 3 =
          some (some (1, 2))) ∧
      ((cst_cn.mk banana_csa [0, 0, 1, 3, 0, 0, 2]
        (.cn ⟨8, [0, 0, 1, 3, 0, 0, 2], [⟨3, [0]⟩], [⟨4, [0]⟩]⟩)).laqs (1, 3) 3 = some (1, 2) ∧
        (3 = 0 → ((1, 2) : node_type) = (cst_cn.mk banana_csa [0, 0, 1, 3, 0, 0, 2]
          (.cn ⟨8, [0, 0, 1, 3, 0, 0, 2], [⟨3, [0]⟩], [⟨4, [0]⟩]⟩)).root)) :=
  ⟨⟨by decide, by decide⟩,
    laqt_returns_laqs (cst_cn.mk banana_csa [0, 0, 1, 3, 0, 0, 2]
      (.cn ⟨8, [0, 0, 1, 3, 0, 0, 2], [⟨3, [0]⟩], [⟨4, [0]⟩]⟩)) 7 (1, 3) 3 (1, 2) (by decide)⟩

/-- C39. For every tree state: the identifier of a leaf `[lb, lb]` is `lb`; and when
`2 <= n < 2^62`, the identifier of every interval `[lb, rb]` with `lb < rb < n` (the root
`[0, n - 1]` included) is `n + 1`, whatever the interval. -/
theorem id_values (t : cst_cn) :
    (∀ lb, t.id (lb, lb) = some lb) ∧
      (2 ≤ t.m_lcp.length → t.m_lcp.length < 2 ^ 62 →
        ∀ v : node_type, v.1 < v.2 → v.2 < t.m_lcp.length →
          t.id v = some (t.m_lcp.length + 1)) := by
  constructor
  · intro lb
    simp [cst_cn.id, cst_cn.is_leaf]
  · intro hn hsmall v hlt hv2
    have hleaf : t.is_leaf v = false := by
      simp only [cst_cn.is_leaf, beq_eq_false_iff_ne, ne_eq]
      omega
    have key : ∀ c : Bool,
        add64 t.m_lcp.length
          (if ((t.m_lcp.length + if c then v.2 else v.1) * 2) % 2 ^ 64 ≠ 0 ∨
            (if c then 1 else 0) ≠ 0 then 1 else 0) = t.m_lcp.length + 1 := by
      intro c
      have hval : (if c then v.2 else v.1) < t.m_lcp.length := by
        cases c
        · simp only [Bool.false_eq_true, if_false]
          omega
        · simp only [if_true]
          exact hv2
      have hmod : ((t.m_lcp.length + if c then v.2 else v.1) * 2) % 2 ^ 64 ≠ 0 := by
        rw [Nat.mod_eq_of_lt (by omega)]
        omega
      rw [if_pos (Or.inl hmod)]
      unfold add64
      rw [Nat.mod_eq_of_lt (by omega)]
    unfold cst_cn.id
    rw [hleaf]
    simp only [Bool.false_eq_true, if_false]
    by_cases hr : v = t.root
    · rw [if_pos hr]
      simp only [Option.map_some']
      exact congrArg some (key true)
    · rw [if_neg hr]
      by_cases he : v.2 ≠ sub64 t.m_lcp.length 1
      · rw [if_pos he]
        rw [sub64_one _ (by omega)] at he
        have h1 : t.m_lcp[v.1]? = some t.m_lcp[v.1] := List.getElem?_eq_getElem (by omega)
        have h2 : t.m_lcp[v.2 + 1]? = some t.m_lcp[v.2 + 1] :=
          List.getElem?_eq_getElem (by omega)
        rw [h1, h2]
        simp only [Option.some_bind, Option.map_some']
        exact congrArg some (key _)
      · rw [if_neg he]
        simp only [Option.map_some']
        exact congrArg some (key false)

/-- Instance of C39: the tree of `banana$` (n = 7) with the `cn` index of block size 8:
the leaf `[3, 3]` gets 3 and the intervals `[1, 3]`, `[5, 6]` and `[0, 6]` get 8. -/
theorem id_values_witness :
    ((2 ≤ 7 ∧ 7 < 2 ^ 62) ∧
      (cst_cn.mk banana_csa [0, 0, 1, 3, 0, 0, 2]
        (.cn ⟨8, [0, 0, 1, 3, 0, 0, 2], [⟨3, [0]⟩], [⟨4, [0]⟩]⟩)).id (3, 3) = some 3) ∧
      (cst_cn.mk banana_csa [0, 0, 1, 3, 0, 0, 2]
        (.cn ⟨8, [0, 0, 1, 3, 0, 0, 2], [⟨3, [0]⟩], [⟨4, [0]⟩]⟩)).id (1, 3) = some (7 + 1) :=
  ⟨⟨⟨by decide, by decide⟩,
    (id_values (cst_cn.mk banana_csa [0, 0, 1, 3, 0, 0, 2]
      (.cn ⟨8, [0, 0, 1, 3, 0, 0, 2], [⟨3, [0]⟩], [⟨4, [0]⟩]⟩))).1 3⟩,
    (id_values (cst_cn.mk banana_csa [0, 0, 1, 3, 0, 0, 2]
      (.cn ⟨8, [0, 0, 1, 3, 0, 0, 2], [⟨3, [0]⟩], [⟨4, [0]⟩]⟩))).2 (by decide) (by decide)
        (1, 3) (by decide) (by decide)⟩

/-- C40. For every tree state, every leaf `[i, i]` and every character `c`, `wl` returns
`root()`, and it does so with any backward search in place of the one of the suffix array:
the search is not consulted. -/
theorem wl_leaf_is_root (t : cst_cn) (i c : Nat) (bs : Nat → Nat → Nat → Nat × Nat) :
    t.wl (i, i) c = t.root ∧
      (cst_cn.mk { t.m_csa with backward_search := bs } t.m_lcp t.m_npr).wl (i, i) c =
        t.root := by
  simp [cst_cn.wl, cst_cn.root]

end cstds
